import Mathlib

/-!
# listdb: a length-prefixed append-only record log

A shallow embedding of `listdb/conn.go` (package `listdb` of u-engine) together with the
parts of Go's `encoding/binary`, `io` and `os` that it calls, followed by theorems about it.

Modelling conventions.

* A byte is a `Fin 256`; a regular file is its byte content plus the descriptor's offset.
* `int64` values are `Int`s.  Record indices that are computed from a caller-supplied
  offset are wrapped to 64 bits (`wrap64`); positions and lengths are not wrapped, because
  a regular file is shorter than `2^63` bytes.
* `uint64` arithmetic in the varint codec is `Nat` arithmetic reduced modulo `2^64`.
* A Go function that returns `(value, error)` and mutates its receiver becomes a function
  from the receiver to `Res`, which carries the returned pair and the receiver afterwards.
  A Go `panic` is `Res.panic`.  Loops whose termination depends on the data take a `fuel`
  argument and yield `Res.timeout` when it runs out.
* Storage calls fail only for the reasons the operating system defines on a healthy
  regular file (end of file, closed descriptor, read-only descriptor, negative offset);
  `make([]byte, n)` panics when `n` is negative or beyond the runtime's limit `maxAlloc`,
  and succeeds otherwise.
* The advisory locks that handles share through the operating system are a value of type
  `Sys`, which `Open` on a path (`OpenAt`) and `Close` take and return.  Package
  `listdb/internal/filelock` is modelled from the specification.
-/

namespace listdb

/-! ## Bytes, errors, results -/

abbrev Byte := Fin 256

/-- Go: `binary.MaxVarintLen64`. -/
def MaxVarintLen64 : Nat := 10

/-- Go: `maxAlloc` of package `runtime` on a 64-bit platform with 48 address bits (such as
linux/amd64): `make([]byte, n)` panics with `makeslice: len out of range` when `n` is
negative or greater than it, so no Go byte slice is longer. -/
def maxAlloc : Nat := 2 ^ 48

/-- Go: `const stepCacheOffset = 32 * 1024`. -/
def stepCacheOffset : Int := 32 * 1024

/-- Go: `io.SeekStart`. -/
def SeekStart : Int := 0
/-- Go: `io.SeekCurrent`. -/
def SeekCurrent : Int := 1
/-- Go: `io.SeekEnd`. -/
def SeekEnd : Int := 2

/-- The error values that occur: `io.EOF`, `io.ErrUnexpectedEOF`, `fs.ErrClosed`, the three
errors made with `errors.New` in conn.go, the two system errors a regular file gives
(`EINVAL` for a negative offset or truncating a read-only descriptor, `EBADF` for writing to
a read-only descriptor), and the error of `filelock.Lock` when the lock is held. -/
inductive Err where
  | EOF
  | ErrUnexpectedEOF
  | ErrClosed
  | malformedData
  | seekBeforeStart
  | seekAfterEnd
  | EINVAL
  | EBADF
  | LockUnavailable
  deriving DecidableEq, Repr

/-- The run-time panics that occur. -/
inductive Panic where
  | cannotAppendNil
  | invalidWhence
  | soughtOffsetMismatch
  | makesliceLenOutOfRange
  | indexOutOfRange
  deriving DecidableEq, Repr

/-- Go: `type cursor struct { Index, Pos int64 }`. -/
structure cursor where
  Index : Int
  Pos : Int
  deriving DecidableEq, Repr

/-- An `*os.File` on a regular file: the file's bytes, the descriptor's offset, whether the
descriptor was opened `O_RDWR` (else `O_RDONLY`), whether it is still open, and the path it
was opened on (`(*os.File).Name`). -/
structure OsFile where
  data : List Byte
  off : Nat
  rdwr : Bool
  isOpen : Bool
  name : String := ""
  deriving DecidableEq, Repr

/-- Go: `type Conn struct`. -/
structure Conn where
  file : OsFile
  locked : Bool
  closed : Bool
  isEnd : Bool
  cur : cursor
  cache : List cursor
  deriving DecidableEq, Repr

/-- Outcome of a method call on a `*Conn`: it returned `v` leaving the handle as `c`, it
panicked leaving the handle as `c`, or the fuel given to the model ran out. -/
inductive Res (α : Type) where
  | ret (v : α) (c : Conn)
  | panic (p : Panic) (c : Conn)
  | timeout
  deriving DecidableEq, Repr

/-- Two's-complement wrap of an integer to `int64`. -/
def wrap64 (x : Int) : Int := (x + 2 ^ 63) % 2 ^ 64 - 2 ^ 63

/-! ## encoding/binary -/

/-- Go: the loop of `binary.Uvarint`; `i` is the loop index, `x` and `s` the accumulators. -/
def uvarintLoop : List Byte → Nat → Nat → Nat → Nat × Int
  | [], _, _, _ => (0, 0)
  | b :: bs, i, x, s =>
    if i = MaxVarintLen64 then (0, -((i : Int) + 1))
    else if b < 0x80 then
      if i = MaxVarintLen64 - 1 ∧ b > 1 then (0, -((i : Int) + 1))
      else (x ||| ((b.val <<< s) % 2 ^ 64), (i : Int) + 1)
    else uvarintLoop bs (i + 1) (x ||| (((b &&& 0x7f).val <<< s) % 2 ^ 64)) (s + 7)

/-- Go: `binary.Uvarint`. -/
def Uvarint (buf : List Byte) : Nat × Int := uvarintLoop buf 0 0 0

/-- Go: `binary.Varint` (zigzag decoding on top of `Uvarint`). -/
def Varint (buf : List Byte) : Int × Int :=
  let ux := (Uvarint buf).1
  let n := (Uvarint buf).2
  let x : Int := ((ux >>> 1 : Nat) : Int)
  if ux &&& 1 ≠ 0 then (-x - 1, n) else (x, n)

/-- Go: the loop of `binary.PutUvarint`, returning the bytes written.  A `uint64` has at
most ten 7-bit groups, so the loop body runs at most nine times. -/
def putUvarintLoop : Nat → Nat → List Byte
  | 0, x => [Fin.ofNat x]
  | fuel + 1, x =>
    if x ≥ 0x80 then (Fin.ofNat x ||| 0x80) :: putUvarintLoop fuel (x >>> 7)
    else [Fin.ofNat x]

/-- Go: `binary.PutUvarint`, as the bytes `buf[:n]` it writes. -/
def PutUvarint (x : Nat) : List Byte := putUvarintLoop 9 (x % 2 ^ 64)

/-- Go: `binary.PutVarint`, as the bytes `buf[:n]` it writes. -/
def PutVarint (x : Int) : List Byte :=
  let ux := (((x % 2 ^ 64).toNat) <<< 1) % 2 ^ 64
  if x < 0 then PutUvarint (2 ^ 64 - 1 - ux) else PutUvarint ux

/-! ## os.File and io.ReadFull on a regular file -/

/-- Go: `(*os.File).Read` with a buffer of `k` bytes: the bytes read, the error, the file. -/
def OsFile.Read (f : OsFile) (k : Nat) : List Byte × Option Err × OsFile :=
  if ¬ f.isOpen then ([], some .ErrClosed, f)
  else if k = 0 then ([], none, f)
  else
    let got := (f.data.drop f.off).take k
    if got = [] then ([], some .EOF, f)
    else (got, none, { f with off := f.off + got.length })

/-- Go: `io.ReadFull(f, buf)` with `len(buf) = k`. -/
def OsFile.ReadFull (f : OsFile) (k : Nat) : List Byte × Option Err × OsFile :=
  if k = 0 then ([], none, f)
  else if ¬ f.isOpen then ([], some .ErrClosed, f)
  else
    let got := (f.data.drop f.off).take k
    if got = [] then ([], some .EOF, f)
    else if got.length < k then (got, some .ErrUnexpectedEOF, { f with off := f.off + got.length })
    else (got, none, { f with off := f.off + got.length })

/-- Go: `(*os.File).Seek(offset, whence)` for `whence` one of `io.SeekStart`,
`io.SeekCurrent`: the new offset and the file. -/
def OsFile.Seek (f : OsFile) (offset : Int) (whence : Int) : Except Err (Int × OsFile) :=
  if ¬ f.isOpen then .error .ErrClosed
  else
    let target : Int := if whence = SeekStart then offset else (f.off : Int) + offset
    if target < 0 then .error .EINVAL
    else .ok (target, { f with off := target.toNat })

/-- Go: `(*os.File).Truncate(size)`; a longer size extends the file with zero bytes. -/
def OsFile.Truncate (f : OsFile) (size : Int) : Except Err OsFile :=
  if ¬ f.isOpen then .error .ErrClosed
  else if ¬ f.rdwr then .error .EINVAL
  else if size < 0 then .error .EINVAL
  else .ok { f with data := f.data.take size.toNat ++
                              List.replicate (size.toNat - f.data.length) 0 }

/-- Go: `(*os.File).Write(b)` at the descriptor's offset (the file is not opened
`O_APPEND`); a gap between the end of the file and the offset reads as zero bytes. -/
def OsFile.Write (f : OsFile) (b : List Byte) : Except Err OsFile :=
  if ¬ f.isOpen then .error .ErrClosed
  else if ¬ f.rdwr then .error .EBADF
  else .ok { f with
    data := f.data.take f.off ++ List.replicate (f.off - f.data.length) 0 ++ b ++
              f.data.drop (f.off + b.length)
    off := f.off + b.length }

/-! ## conn.go -/

/-- Go: `Open`, when opening and locking succeed, on a file whose content is `data`. -/
def Open (data : List Byte) : Conn :=
  { file := { data := data, off := 0, rdwr := true, isOpen := true }
    locked := true
    closed := false
    isEnd := false
    cur := { Index := 0, Pos := 0 }
    cache := [{ Index := 0, Pos := 0 }] }

/-- Go: `OpenReadOnly`, when opening succeeds, on a file whose content is `data`. -/
def OpenReadOnly (data : List Byte) : Conn :=
  { file := { data := data, off := 0, rdwr := false, isOpen := true }
    locked := false
    closed := false
    isEnd := false
    cur := { Index := 0, Pos := 0 }
    cache := [{ Index := 0, Pos := 0 }] }

/-- Go: `(*Conn).moveCursor`. -/
def moveCursor (c : Conn) (offset : Int) : Res Unit :=
  let cur : cursor := { Index := c.cur.Index + 1, Pos := c.cur.Pos + offset }
  let c1 := { c with cur := cur }
  match c1.cache.getLast? with
  | none => .panic .indexOutOfRange c1
  | some last =>
    if cur.Pos - last.Pos ≥ stepCacheOffset then .ret () { c1 with cache := c1.cache ++ [cur] }
    else .ret () c1

/-- Go: `(*Conn).fileSeek`.  `Seek` on a regular file returns the offset asked for, so the
`sought offset mismatch` panic is kept only for faithfulness. -/
def fileSeek (c : Conn) (offset : Int) : Res (Option Err) :=
  match c.file.Seek offset SeekStart with
  | .error e => .ret (some e) c
  | .ok (sought, f) =>
    if sought ≠ offset then .panic .soughtOffsetMismatch { c with file := f }
    else .ret none { c with file := f }

/-- Go: `(*Conn).readElem`.  `make([]byte, size)` runs before any payload byte is read and
panics when `size` is negative or greater than `maxAlloc`. -/
def readElem (c : Conn) : Res (Option (List Byte) × Option Err) :=
  match c.file.Read MaxVarintLen64 with
  | (b, err, f1) =>
    let c1 := { c with file := f1 }
    if err ≠ none ∧ (err ≠ some .EOF ∨ b.length = 0) then .ret (none, err) c1
    else
      let size := (Varint b).1
      let n := (Varint b).2
      if n = 0 then .ret (none, some .ErrUnexpectedEOF) c1
      else if n < 0 then .ret (none, some .malformedData) c1
      else
        match f1.Seek (n - b.length) SeekCurrent with
        | .error e => .ret (none, some e) c1
        | .ok (_, f2) =>
          let c2 := { c1 with file := f2 }
          if size < 0 ∨ size > (maxAlloc : Int) then .panic .makesliceLenOutOfRange c2
          else
            match f2.ReadFull size.toNat with
            | (_, some e, f3) =>
              .ret (none, some (if e = .EOF then .ErrUnexpectedEOF else e)) { c2 with file := f3 }
            | (elem, none, f3) =>
              match moveCursor { c2 with file := f3 } (size + n) with
              | .ret _ c4 => .ret (some elem, none) c4
              | .panic p c4 => .panic p c4
              | .timeout => .timeout

/-- Go: `(*Conn).Read`. -/
def Read (c : Conn) : Res (Option (List Byte) × Option Err) :=
  match readElem c with
  | .ret (elem, none) c1 => .ret (elem, none) c1
  | .ret (_, some err) c1 =>
    if err = .ErrUnexpectedEOF then
      match fileSeek c1 c1.cur.Pos with
      | .ret (some e) c2 => .ret (none, some e) c2
      | .ret none c2 =>
        -- here the Go variable `err` is nil
        if c2.locked then
          match c2.file.Truncate c2.cur.Pos with
          | .error e => .ret (none, some e) c2
          | .ok f => .ret (none, some .EOF) { c2 with file := f, isEnd := true }
        else .ret (none, none) c2
      | .panic p c2 => .panic p c2
      | .timeout => .timeout
    else if err = .EOF then .ret (none, some err) { c1 with isEnd := true }
    else .ret (none, some err) c1
  | .panic p c1 => .panic p c1
  | .timeout => .timeout

/-- Go: the `for { c.Read() }` loop of `(*Conn).seekEnd`. -/
def seekEndLoop : Nat → Conn → Res (Option Err)
  | 0, _ => .timeout
  | fuel + 1, c =>
    match Read c with
    | .ret (_, some err) c1 => .ret (if err = .EOF then none else some err) c1
    | .ret (_, none) c1 => seekEndLoop fuel c1
    | .panic p c1 => .panic p c1
    | .timeout => .timeout

/-- Go: `(*Conn).seekEnd`. -/
def seekEnd (fuel : Nat) (c : Conn) : Res (Option Err) :=
  match c.cache.getLast? with
  | none => .panic .indexOutOfRange c
  | some cacheEnd =>
    match fileSeek c cacheEnd.Pos with
    | .ret (some e) c1 => .ret (some e) c1
    | .ret none c1 => seekEndLoop fuel { c1 with cur := cacheEnd }
    | .panic p c1 => .panic p c1
    | .timeout => .timeout

/-- Go: the checkpoint search loop of `(*Conn).seek`.  The result is `none` when the fuel
runs out, `some none` for an index-out-of-range panic, and `some (some (ref, cacheEnd))`
when the loop breaks. -/
def searchLoop (cache : List cursor) (index : Int) : Nat → Nat → Nat → Option (Option (cursor × Nat))
  | 0, _, _ => none
  | fuel + 1, left, right =>
    let mid := (left + right) / 2
    match cache[mid]? with
    | none => some none
    | some cacheMid =>
      if cacheMid.Index > index then searchLoop cache index fuel left mid
      else if left ≠ mid then searchLoop cache index fuel mid right
      else some (some (cacheMid, mid + 1))

/-- Go: the replay loop `for c.cur.Index != index { c.Read() }` of `(*Conn).seek`. -/
def replayLoop (index : Int) : Nat → Conn → Res (Int × Option Err)
  | 0, _ => .timeout
  | fuel + 1, c =>
    if c.cur.Index ≠ index then
      match Read c with
      | .ret (_, some err) c1 => .ret (-1, some (if err = .EOF then .seekAfterEnd else err)) c1
      | .ret (_, none) c1 => replayLoop index fuel c1
      | .panic p c1 => .panic p c1
      | .timeout => .timeout
    else .ret (index, none) c

/-- Go: `(*Conn).seek` from the line `if index == c.cur.Index` on.  The search loop gets
`len(c.cache) + 1` iterations: when it has not stopped by then it never stops. -/
def seekIndex (fuel : Nat) (c : Conn) (index : Int) : Res (Int × Option Err) :=
  if index = c.cur.Index then .ret (index, none) c
  else if index < 0 then .ret (-1, some .seekBeforeStart) c
  else
    match searchLoop c.cache index (c.cache.length + 1) 0 c.cache.length with
    | none => .timeout
    | some none => .panic .indexOutOfRange c
    | some (some (ref, cacheEnd)) =>
      let r : Res (Option Err) :=
        if index < c.cur.Index ∨ ref.Index > c.cur.Index then
          match fileSeek c ref.Pos with
          | .ret none c1 => .ret none { c1 with cur := ref }
          | other => other
        else .ret none c
      match r with
      | .ret (some e) c1 => .ret (-1, some e) c1
      | .ret none c1 =>
        replayLoop index fuel { c1 with cache := c1.cache.take cacheEnd, isEnd := false }
      | .panic p c1 => .panic p c1
      | .timeout => .timeout

/-- Go: `(*Conn).seek`. -/
def seek (fuel : Nat) (c : Conn) (offset : Int) (whence : Int) : Res (Int × Option Err) :=
  if whence = SeekStart then seekIndex fuel c offset
  else if whence = SeekCurrent then seekIndex fuel c (wrap64 (c.cur.Index + offset))
  else if whence = SeekEnd then
    match seekEnd fuel c with
    | .ret (some e) c1 => .ret (-1, some e) c1
    | .ret none c1 => seekIndex fuel c1 (wrap64 (c1.cur.Index + offset))
    | .panic p c1 => .panic p c1
    | .timeout => .timeout
  else .panic .invalidWhence c

/-- Go: `(*Conn).Append` from the line `buf := make([]byte, binary.MaxVarintLen64)` on:
build the frame, write it at the descriptor's offset, move the cursor. -/
def appendFrame (c : Conn) (e : List Byte) : Res (Option Err) :=
  let frame := PutVarint (e.length : Int) ++ e
  match c.file.Write frame with
  | .error err => .ret (some err) c
  | .ok f =>
    match moveCursor { c with file := f } (frame.length : Int) with
    | .ret _ c2 => .ret none c2
    | .panic p c2 => .panic p c2
    | .timeout => .timeout

/-- Go: `(*Conn).Append`; `elem = none` is the nil slice. -/
def Append (fuel : Nat) (c : Conn) (elem : Option (List Byte)) : Res (Option Err) :=
  match elem with
  | none => .panic .cannotAppendNil c
  | some e =>
    if ¬ c.isEnd then
      match seekEnd fuel c with
      | .ret (some err) c1 => .ret (some err) c1
      | .ret none c1 => appendFrame c1 e
      | .panic p c1 => .panic p c1
      | .timeout => .timeout
    else appendFrame c e

/-- Go: `(*Conn).Truncate`. -/
def Truncate (fuel : Nat) (c : Conn) (size : Int) : Res (Option Err) :=
  match seek fuel c size SeekStart with
  | .ret (_, some err) c1 => .ret (some err) c1
  | .ret (_, none) c1 =>
    match c1.file.Truncate c1.cur.Pos with
    | .error e => .ret (some e) c1
    | .ok f => .ret none { c1 with file := f }
  | .panic p c1 => .panic p c1
  | .timeout => .timeout

/-! ## Vocabulary of the specification -/

/-- The frame `Append` writes for the payload `p`: `PutVarint(len p)` followed by `p`. -/
def frame (p : List Byte) : List Byte := PutVarint (p.length : Int) ++ p

/-- The bytes of a file that consists of exactly the complete frames of `ps`, in order. -/
def encode : List (List Byte) → List Byte
  | [] => []
  | p :: ps => frame p ++ encode ps

/-- Byte offset immediately after the first `i` frames of `ps`. -/
def posOf (ps : List (List Byte)) (i : Nat) : Nat := (encode (ps.take i)).length

/-- The cursor `e` is a frame boundary of the log `ps`: `Pos` is the byte offset right
after the first `Index` frames. -/
def Valid (ps : List (List Byte)) (e : cursor) : Prop :=
  0 ≤ e.Index ∧ e.Index ≤ (ps.length : Int) ∧ e.Pos = (posOf ps e.Index.toNat : Int)

/-- The cache starts with `{0, 0}`, is strictly increasing in both fields, and no entry is
beyond the live cursor. -/
def CacheOK (cur : cursor) (cache : List cursor) : Prop :=
  cache.head? = some ⟨0, 0⟩ ∧
  cache.Pairwise (fun a b => a.Index < b.Index ∧ a.Pos < b.Pos) ∧
  ∀ e ∈ cache, e.Index ≤ cur.Index ∧ e.Pos ≤ cur.Pos

/-- The cache invariant as a predicate on handles. -/
abbrev CacheInv (c : Conn) : Prop := CacheOK c.cur c.cache

/-- The bookkeeping of a handle agrees with a file made of the complete frames of `ps`
followed by the bytes `tail`: the descriptor is open, opened read-write exactly when the
handle holds the lock, and positioned at the cursor; the cursor and every checkpoint are
frame boundaries; the cache is well formed. -/
def Inv0 (ps : List (List Byte)) (tail : List Byte) (c : Conn) : Prop :=
  c.file.data = encode ps ++ tail ∧
  (∀ p ∈ ps, p.length ≤ maxAlloc) ∧
  c.file.isOpen = true ∧
  c.file.rdwr = c.locked ∧
  (c.file.off : Int) = c.cur.Pos ∧
  Valid ps c.cur ∧
  CacheOK c.cur c.cache ∧
  (∀ e ∈ c.cache, Valid ps e)

/-- The state of a handle between calls, over a file made of the complete frames of `ps`
followed by the bytes `tail`: the bookkeeping agrees with the file (`Inv0`), and the at-end
flag is only set at the end of a file without trailing bytes.  Every state that `Open` or
`OpenReadOnly` followed by method calls reaches over a file of complete frames is of this
kind, with `tail = []` (`reachableOver_inv_of_data`).  A handle whose descriptor a
`malformed data` error has left ahead of the cursor is not of this kind. -/
def Inv (ps : List (List Byte)) (tail : List Byte) (c : Conn) : Prop :=
  Inv0 ps tail c ∧ (c.isEnd = true → c.cur.Index = (ps.length : Int) ∧ tail = [])

/-- The bytes `t` are a torn tail: a non-empty strict prefix of the frame of `q`, a payload
that a Go slice can hold (at most `maxAlloc` bytes). -/
def TornOf (q : List Byte) (t : List Byte) : Prop :=
  q.length ≤ maxAlloc ∧ t ≠ [] ∧ t.length < (frame q).length ∧ t = (frame q).take t.length

instance (ps : List (List Byte)) (e : cursor) : Decidable (Valid ps e) := by
  unfold Valid; infer_instance

instance (cur : cursor) (cache : List cursor) : Decidable (CacheOK cur cache) := by
  unfold CacheOK; infer_instance

instance (ps : List (List Byte)) (tail : List Byte) (c : Conn) : Decidable (Inv0 ps tail c) := by
  unfold Inv0; infer_instance

instance (ps : List (List Byte)) (tail : List Byte) (c : Conn) : Decidable (Inv ps tail c) := by
  unfold Inv; infer_instance

instance (q t : List Byte) : Decidable (TornOf q t) := by
  unfold TornOf; infer_instance

/-- The handle after a call that returned or panicked. -/
def Res.after {α : Type} : Res α → Option Conn
  | .ret _ c => some c
  | .panic _ c => some c
  | .timeout => none

/-- The property `P` holds of the handle after the call, if the call returned or panicked. -/
def Res.All {α : Type} (P : Conn → Prop) : Res α → Prop
  | .ret _ c => P c
  | .panic _ c => P c
  | .timeout => True

/-- One method call on a handle: `Step c c1` when some call of `Read`, `Append`, `seek`,
`seekEnd` or `Truncate` on `c`, with any arguments, returned (with or without an error) or
panicked and left the handle as `c1`. -/
inductive Step : Conn → Conn → Prop where
  | read (c c1 : Conn) : (Read c).after = some c1 → Step c c1
  | append (fuel : Nat) (c : Conn) (elem : Option (List Byte)) (c1 : Conn) :
      (Append fuel c elem).after = some c1 → Step c c1
  | seek (fuel : Nat) (c : Conn) (offset whence : Int) (c1 : Conn) :
      (seek fuel c offset whence).after = some c1 → Step c c1
  | seekEnd (fuel : Nat) (c : Conn) (c1 : Conn) : (seekEnd fuel c).after = some c1 → Step c c1
  | truncate (fuel : Nat) (c : Conn) (size : Int) (c1 : Conn) :
      (Truncate fuel c size).after = some c1 → Step c c1

/-- The states a handle can be in: those of `Open` and `OpenReadOnly` on a file of any
content, and those that method calls lead to from there. -/
inductive Reachable : Conn → Prop where
  | opened (data : List Byte) : Reachable (Open data)
  | openedReadOnly (data : List Byte) : Reachable (OpenReadOnly data)
  | step (c c1 : Conn) : Reachable c → Step c c1 → Reachable c1

/-- The client loop of `n` successive `Read` calls that each return an element and no
error: the elements in order and the handle afterwards; `none` as soon as a call does
anything else. -/
def readMany : Nat → Conn → Option (List (List Byte) × Conn)
  | 0, c => some ([], c)
  | n + 1, c =>
    match Read c with
    | .ret (some elem, none) c1 =>
      match readMany n c1 with
      | some (elems, c2) => some (elem :: elems, c2)
      | none => none
    | _ => none

/-- The client loop of successive `Append` calls, one per payload, that each return no
error: the handle afterwards; `none` as soon as a call does anything else. -/
def appendMany (fuel : Nat) : List (List Byte) → Conn → Option Conn
  | [], c => some c
  | p :: ps, c =>
    match Append fuel c (some p) with
    | .ret none c1 => appendMany fuel ps c1
    | _ => none

/-- States a handle reaches over a file of complete frames: those of `Open` and
`OpenReadOnly` on such a file, and those that method calls lead to from there; the payloads
given to `Append` are Go slices, so at most `maxAlloc` bytes long. -/
inductive ReachableOver : Conn → Prop where
  | opened (ps : List (List Byte)) : (∀ p ∈ ps, p.length ≤ maxAlloc) →
      ReachableOver (Open (encode ps))
  | openedReadOnly (ps : List (List Byte)) : (∀ p ∈ ps, p.length ≤ maxAlloc) →
      ReachableOver (OpenReadOnly (encode ps))
  | read (c c1 : Conn) : ReachableOver c → (Read c).after = some c1 → ReachableOver c1
  | append (fuel : Nat) (c : Conn) (elem : Option (List Byte)) (c1 : Conn) : ReachableOver c →
      (∀ e, elem = some e → e.length ≤ maxAlloc) →
      (Append fuel c elem).after = some c1 → ReachableOver c1
  | seek (fuel : Nat) (c : Conn) (offset whence : Int) (c1 : Conn) : ReachableOver c →
      (seek fuel c offset whence).after = some c1 → ReachableOver c1
  | seekEnd (fuel : Nat) (c : Conn) (c1 : Conn) : ReachableOver c →
      (seekEnd fuel c).after = some c1 → ReachableOver c1
  | truncate (fuel : Nat) (c : Conn) (size : Int) (c1 : Conn) : ReachableOver c →
      (Truncate fuel c size).after = some c1 → ReachableOver c1

/-! ## Frame conditions and the descriptor's offset -/

/-- The parts of a handle that no method other than `Close` changes, and on a handle without
the lock the file's bytes: `FrameR c0 c` says that `c` agrees with `c0` on them. -/
def FrameR (c0 c : Conn) : Prop :=
  c.locked = c0.locked ∧ c.closed = c0.closed ∧ c.file.name = c0.file.name ∧
  c.file.isOpen = c0.file.isOpen ∧ c.file.rdwr = c0.file.rdwr ∧
  (c0.locked = false → c.file.data = c0.file.data)

/-- One reading call on a handle: `ReadStep c c1` when some call of `Read`, `seek` or
`seekEnd` on `c`, with any arguments, returned or panicked and left the handle as `c1`. -/
inductive ReadStep : Conn → Conn → Prop where
  | read (c c1 : Conn) : (Read c).after = some c1 → ReadStep c c1
  | seek (fuel : Nat) (c : Conn) (offset whence : Int) (c1 : Conn) :
      (seek fuel c offset whence).after = some c1 → ReadStep c c1
  | seekEnd (fuel : Nat) (c : Conn) (c1 : Conn) : (seekEnd fuel c).after = some c1 →
      ReadStep c c1

/-- The descriptor's offset equals the cursor's `Pos`. -/
def Sync (c : Conn) : Prop := (c.file.off : Int) = c.cur.Pos

instance (c : Conn) : Decidable (Sync c) := by
  unfold Sync; infer_instance

/-! ## Close and the file lock -/

/-- The state that handles share through the operating system: the paths on which an
advisory write lock is held. -/
structure Sys where
  locks : List String
  deriving DecidableEq, Repr

/-- Go: `(*os.File).Close`: the error and the file; closing a closed file fails with
`os.ErrClosed`. -/
def OsFile.Close (f : OsFile) : Option Err × OsFile :=
  if ¬ f.isOpen then (some .ErrClosed, f)
  else (none, { f with isOpen := false })

/-- Modelled from the spec: `filelock.Lock(file)` of `listdb/internal/filelock` takes the
exclusive advisory lock keyed by the file's path; it does not wait, and fails with the
lock-unavailable error when the lock on that path is held. -/
def filelock.Lock (s : Sys) (f : OsFile) : Except Err Sys :=
  if f.name ∈ s.locks then .error .LockUnavailable
  else .ok { s with locks := f.name :: s.locks }

/-- Modelled from the spec: `filelock.Unlock(file)` of `listdb/internal/filelock` releases
the advisory lock on the file's path. -/
def filelock.Unlock (s : Sys) (f : OsFile) : Option Err × Sys :=
  (none, { s with locks := s.locks.filter (fun p => p ≠ f.name) })

/-- Go: `Open(path)`, when `os.OpenFile` succeeds on a file whose content is `data`: the
lock is taken, and when that fails the file is closed and the error returned.  The
finalizer that `runtime.SetFinalizer` installs is not part of the state. -/
def OpenAt (s : Sys) (path : String) (data : List Byte) : Except Err (Conn × Sys) :=
  let file : OsFile := { (Open data).file with name := path }
  match filelock.Lock s file with
  | .error err => .error err
  | .ok s1 => .ok ({ Open data with file := file }, s1)

/-- Go: `(*Conn).Close`: the error, the handle and the shared state afterwards. -/
def Close (s : Sys) (c : Conn) : Option Err × Conn × Sys :=
  if c.closed then (some .ErrClosed, c, s)
  else
    let c1 := { c with closed := true }
    let u : Option Err × Sys := if c1.locked then filelock.Unlock s c1.file else (none, s)
    let cl := c1.file.Close
    (if u.1 = none then cl.1 else u.1, { c1 with file := cl.2 }, u.2)

/-! ## Canonical checkpoints and write-capable handles -/

/-- Successor in the canonical checkpoint sequence of the log `ps`: `b` is the first frame
boundary after `a` whose byte offset is at least `stepCacheOffset` greater than `a`'s, so
`b` is later than `a`, far enough from it, and no boundary between them is far enough. -/
def NextCheckpoint (ps : List (List Byte)) (a b : cursor) : Prop :=
  a.Index < b.Index ∧ a.Pos + stepCacheOffset ≤ b.Pos ∧
  ∀ j : Nat, a.Index < (j : Int) → (j : Int) < b.Index →
    (posOf ps j : Int) < a.Pos + stepCacheOffset

/-- The list `l` is exactly the canonical checkpoints of the log `ps` whose `Index` is at
most `i`: it starts with `{0, 0}`, its entries are frame boundaries of `ps` with
`Index ≤ i`, each entry is followed by its successor in the canonical sequence, and after
the last entry no boundary up to `i` is far enough from it to be the next checkpoint. -/
def Canonical (ps : List (List Byte)) (i : Int) (l : List cursor) : Prop :=
  l.head? = some ⟨0, 0⟩ ∧
  (∀ e ∈ l, Valid ps e ∧ e.Index ≤ i) ∧
  l.Chain' (NextCheckpoint ps) ∧
  ∀ last, l.getLast? = some last → ∀ j : Nat, last.Index < (j : Int) → (j : Int) ≤ i →
    (posOf ps j : Int) < last.Pos + stepCacheOffset

/-- The bookkeeping of a write-capable handle agrees with a file made of the complete
frames of `ps` followed by the bytes `t`, which are a torn tail or nothing: `Inv0` holds,
the handle holds the lock, and the cache is the canonical checkpoint list up to the
cursor. -/
def InvW0 (ps : List (List Byte)) (t : List Byte) (c : Conn) : Prop :=
  Inv0 ps t c ∧ c.locked = true ∧ (t = [] ∨ ∃ q, TornOf q t) ∧
  Canonical ps c.cur.Index c.cache

/-- The state of a write-capable handle between calls, over a file made of the complete
frames of `ps` followed by a torn tail `t` or nothing: `InvW0`, and the at-end flag is only
set at the end of a file without a torn tail. -/
def InvW (ps : List (List Byte)) (t : List Byte) (c : Conn) : Prop :=
  InvW0 ps t c ∧ (c.isEnd = true → c.cur.Index = (ps.length : Int) ∧ t = [])

/-- States a write-capable handle reaches over a file of frames: those of `Open` on a file
made of complete frames, possibly followed by a torn tail, and those that method calls lead
to from there; the payloads given to `Append` are Go slices, so at most `maxAlloc` bytes
long. -/
inductive ReachableFramed : Conn → Prop where
  | opened (ps : List (List Byte)) (q t : List Byte) : (∀ p ∈ ps, p.length ≤ maxAlloc) →
      (t = [] ∨ TornOf q t) → ReachableFramed (Open (encode ps ++ t))
  | read (c c1 : Conn) : ReachableFramed c → (Read c).after = some c1 → ReachableFramed c1
  | append (fuel : Nat) (c : Conn) (elem : Option (List Byte)) (c1 : Conn) :
      ReachableFramed c → (∀ e, elem = some e → e.length ≤ maxAlloc) →
      (Append fuel c elem).after = some c1 → ReachableFramed c1
  | seek (fuel : Nat) (c : Conn) (offset whence : Int) (c1 : Conn) : ReachableFramed c →
      (seek fuel c offset whence).after = some c1 → ReachableFramed c1
  | seekEnd (fuel : Nat) (c : Conn) (c1 : Conn) : ReachableFramed c →
      (seekEnd fuel c).after = some c1 → ReachableFramed c1
  | truncate (fuel : Nat) (c : Conn) (size : Int) (c1 : Conn) : ReachableFramed c →
      (Truncate fuel c size).after = some c1 → ReachableFramed c1

/-! ## The varint codec -/

theorem maxAlloc_lt {n : Nat} (h : n ≤ maxAlloc) : n < 2 ^ 63 :=
  Nat.lt_of_le_of_lt h (by decide)

set_option maxRecDepth 100000 in
theorem byte_or_and : ∀ y : Byte, ¬ (y ||| 0x80 < 0x80) ∧ ((y ||| 0x80) &&& 0x7f).val = y.val % 128 := by
  decide

theorem ofNat_val (x : Nat) : ((Fin.ofNat x : Byte)).val = x % 256 := rfl

theorem byte_cont (x : Nat) :
    ¬ ((Fin.ofNat x : Byte) ||| 0x80 < 0x80) ∧
      (((Fin.ofNat x : Byte) ||| 0x80) &&& 0x7f).val = x % 128 := by
  refine ⟨(byte_or_and _).1, ?_⟩
  rw [(byte_or_and _).2, ofNat_val]
  omega

theorem byte_last (x : Nat) (h : x < 128) :
    (Fin.ofNat x : Byte) < 0x80 ∧ (Fin.ofNat x : Byte).val = x := by
  have hv : (Fin.ofNat x : Byte).val = x := by rw [ofNat_val]; omega
  refine ⟨?_, hv⟩
  rw [Fin.lt_def, hv]
  exact h

theorem or_shift_eq_add (acc v s : Nat) (h : acc < 2 ^ s) :
    acc ||| (v <<< s) = acc + v * 2 ^ s := by
  rw [Nat.shiftLeft_eq, Nat.lor_comm, Nat.mul_comm v, ← Nat.mul_add_lt_is_or h, Nat.add_comm]

theorem putUvarintLoop_length (fuel x : Nat) :
    1 ≤ (putUvarintLoop fuel x).length ∧ (putUvarintLoop fuel x).length ≤ fuel + 1 := by
  induction fuel generalizing x with
  | zero => simp [putUvarintLoop]
  | succ k ih =>
    unfold putUvarintLoop
    split
    · have := ih (x >>> 7)
      simp only [List.length_cons]
      omega
    · simp

theorem uvarintLoop_cons (b : Byte) (bs : List Byte) (i x s : Nat) :
    uvarintLoop (b :: bs) i x s =
      if i = 10 then (0, -((i : Int) + 1))
      else if b < 0x80 then
        if i = 9 ∧ b > 1 then (0, -((i : Int) + 1))
        else (x ||| ((b.val <<< s) % 2 ^ 64), (i : Int) + 1)
      else uvarintLoop bs (i + 1) (x ||| (((b &&& 0x7f).val <<< s) % 2 ^ 64)) (s + 7) := rfl

theorem uvarintLoop_put (fuel : Nat) : ∀ (x i acc : Nat) (tail : List Byte),
    i + fuel = 9 → x < 2 ^ (64 - 7 * i) → acc < 2 ^ (7 * i) →
    uvarintLoop (putUvarintLoop fuel x ++ tail) i acc (7 * i) =
      (acc + x * 2 ^ (7 * i), ((i + (putUvarintLoop fuel x).length : Nat) : Int)) := by
  induction fuel with
  | zero =>
    intro x i acc tail hi hx hacc
    have hi9 : i = 9 := by omega
    subst hi9
    have hx2 : x < 2 := by simpa using hx
    obtain ⟨hlt, hval⟩ := byte_last x (by omega)
    have hle : ¬ ((Fin.ofNat x : Byte) > 1) := by
      rw [gt_iff_lt, Fin.lt_def, hval]; simp; omega
    have hmod : (x <<< (7 * 9)) % 2 ^ 64 = x <<< (7 * 9) := by
      apply Nat.mod_eq_of_lt
      rw [Nat.shiftLeft_eq]
      interval_cases x <;> norm_num
    have hne : ¬ (9 = 9 ∧ (Fin.ofNat x : Byte) > 1) := fun h => hle h.2
    rw [putUvarintLoop, List.singleton_append, uvarintLoop_cons]
    rw [if_neg (by omega), if_pos hlt, if_neg hne, hval, hmod, or_shift_eq_add _ _ _ hacc]
    simp
  | succ k ih =>
    intro x i acc tail hi hx hacc
    have hi8 : i ≤ 8 := by omega
    have hpow : 2 ^ (64 - 7 * i) * 2 ^ (7 * i) = 2 ^ 64 := by
      rw [← pow_add]; congr 1; omega
    unfold putUvarintLoop
    split
    · rename_i hge
      obtain ⟨hnlt, hval⟩ := byte_cont x
      have hmod : ((x % 128) <<< (7 * i)) % 2 ^ 64 = (x % 128) <<< (7 * i) := by
        apply Nat.mod_eq_of_lt
        rw [Nat.shiftLeft_eq]
        have h1 : x % 128 * 2 ^ (7 * i) ≤ x * 2 ^ (7 * i) :=
          Nat.mul_le_mul_right _ (Nat.mod_le _ _)
        have h2 : x * 2 ^ (7 * i) < 2 ^ (64 - 7 * i) * 2 ^ (7 * i) :=
          Nat.mul_lt_mul_of_pos_right hx (by positivity)
        omega
      have hacc2 : acc + x % 128 * 2 ^ (7 * i) < 2 ^ (7 * (i + 1)) := by
        have : 2 ^ (7 * (i + 1)) = 128 * 2 ^ (7 * i) := by
          rw [Nat.mul_add, pow_add]; norm_num; ring
        rw [this]
        have h3 : x % 128 < 128 := Nat.mod_lt _ (by norm_num)
        nlinarith
      have hx2 : x >>> 7 < 2 ^ (64 - 7 * (i + 1)) := by
        rw [Nat.shiftRight_eq_div_pow, Nat.div_lt_iff_lt_mul (by positivity), ← pow_add]
        have : 64 - 7 * (i + 1) + 7 = 64 - 7 * i := by omega
        rw [this]; exact hx
      have hrec := ih (x >>> 7) (i + 1) (acc + x % 128 * 2 ^ (7 * i)) tail (by omega) hx2 hacc2
      rw [List.cons_append, uvarintLoop_cons]
      rw [if_neg (by omega), if_neg hnlt, hval, hmod, or_shift_eq_add _ _ _ hacc]
      have e7 : 7 * i + 7 = 7 * (i + 1) := by ring
      rw [e7, hrec]
      refine Prod.ext ?_ ?_
      · simp only
        rw [Nat.shiftRight_eq_div_pow, Nat.mul_add, pow_add]
        have := Nat.div_add_mod x 128
        have h128 : (2:Nat) ^ 7 = 128 := by norm_num
        rw [h128]
        nlinarith [Nat.div_add_mod x 128]
      · simp only [List.length_cons]; push_cast; ring
    · rename_i hlt128
      have hx128 : x < 128 := by omega
      obtain ⟨hlt, hval⟩ := byte_last x hx128
      have hmod : (x <<< (7 * i)) % 2 ^ 64 = x <<< (7 * i) := by
        apply Nat.mod_eq_of_lt
        rw [Nat.shiftLeft_eq]
        have h2 : x * 2 ^ (7 * i) < 2 ^ (64 - 7 * i) * 2 ^ (7 * i) :=
          Nat.mul_lt_mul_of_pos_right hx (by positivity)
        omega
      have hne : ¬ (i = 9 ∧ (Fin.ofNat x : Byte) > 1) := by omega
      rw [List.singleton_append, uvarintLoop_cons]
      rw [if_neg (by omega), if_pos hlt, if_neg hne, hval, hmod, or_shift_eq_add _ _ _ hacc]
      simp

theorem PutVarint_nat (len : Nat) (h : len < 2 ^ 63) :
    PutVarint (len : Int) = putUvarintLoop 9 (2 * len) := by
  have h1 : ¬ ((len : Int) < 0) := by omega
  have h2 : (((len : Int) % 2 ^ 64).toNat) = len := by
    have : ((len : Int) % 2 ^ 64) = (len : Int) := Int.emod_eq_of_lt (by omega) (by omega)
    rw [this]; simp
  have h3 : (len <<< 1) % 2 ^ 64 = 2 * len := by
    rw [Nat.shiftLeft_eq]; omega
  unfold PutVarint
  simp only [h2, h3, if_neg h1, PutUvarint]
  rw [Nat.mod_eq_of_lt (by omega)]

theorem PutVarint_length (len : Nat) (h : len < 2 ^ 63) :
    1 ≤ (PutVarint (len : Int)).length ∧ (PutVarint (len : Int)).length ≤ 10 := by
  rw [PutVarint_nat len h]
  exact putUvarintLoop_length 9 _

theorem Varint_PutVarint (len : Nat) (h : len < 2 ^ 63) (tail : List Byte) :
    Varint (PutVarint (len : Int) ++ tail) = ((len : Int), ((PutVarint (len : Int)).length : Int)) := by
  have hu : Uvarint (PutVarint (len : Int) ++ tail) =
      (2 * len, ((PutVarint (len : Int)).length : Int)) := by
    rw [PutVarint_nat len h]
    have := uvarintLoop_put 9 (2 * len) 0 0 tail (by omega) (by norm_num; omega) (by norm_num)
    simpa [Uvarint] using this
  have hand : (2 * len) &&& 1 = 0 := by
    rw [Nat.and_one_is_mod]; omega
  have hshift : (2 * len) >>> 1 = len := by
    rw [Nat.shiftRight_eq_div_pow]; omega
  unfold Varint
  simp only [hu, hand, hshift]
  simp

theorem uvarintLoop_take_put (fuel : Nat) : ∀ (x k i acc s : Nat),
    k < (putUvarintLoop fuel x).length → i + k ≤ 10 →
    uvarintLoop ((putUvarintLoop fuel x).take k) i acc s = (0, 0) := by
  induction fuel with
  | zero =>
    intro x k i acc s hk _
    have : k = 0 := by simpa [putUvarintLoop] using hk
    subst this
    simp [uvarintLoop]
  | succ f ih =>
    intro x k i acc s hk hik
    unfold putUvarintLoop at hk ⊢
    split at hk
    · rename_i hge
      rw [if_pos hge]
      cases k with
      | zero => simp [uvarintLoop]
      | succ k' =>
        rw [List.take_succ_cons, uvarintLoop_cons, if_neg (by omega), if_neg (byte_cont x).1]
        exact ih _ _ _ _ _ (by simpa using hk) (by omega)
    · rename_i hlt
      rw [if_neg hlt]
      have : k = 0 := by simpa using hk
      subst this
      simp [uvarintLoop]

theorem Varint_torn (len : Nat) (h : len < 2 ^ 63) (k : Nat)
    (hk : k < (PutVarint (len : Int)).length) :
    Varint ((PutVarint (len : Int)).take k) = (0, 0) := by
  have hk10 := (PutVarint_length len h).2
  rw [PutVarint_nat len h] at hk ⊢
  have hu : Uvarint ((putUvarintLoop 9 (2 * len)).take k) = (0, 0) :=
    uvarintLoop_take_put 9 _ k 0 0 0 hk (by
      have := (putUvarintLoop_length 9 (2 * len)).2
      omega)
  unfold Varint
  simp [hu]

theorem frame_length (p : List Byte) :
    (frame p).length = (PutVarint (p.length : Int)).length + p.length := by
  simp [frame]

theorem readElem_frame (c : Conn) (pre p rest : List Byte)
    (hopen : c.file.isOpen = true) (hdata : c.file.data = pre ++ frame p ++ rest)
    (hoff : c.file.off = pre.length) (hp : p.length ≤ maxAlloc) :
    readElem c =
      match moveCursor { c with file := { c.file with off := pre.length + (frame p).length } }
          ((frame p).length : Int) with
      | .ret _ c4 => .ret (some p, none) c4
      | .panic q c4 => .panic q c4
      | .timeout => .timeout := by
  obtain ⟨hn1, hn10⟩ := PutVarint_length p.length (maxAlloc_lt hp)
  have hV0 := Varint_PutVarint p.length (maxAlloc_lt hp)
  obtain ⟨pv, hpv⟩ : ∃ pv, pv = PutVarint (p.length : Int) := ⟨_, rfl⟩
  have hframe : frame p = pv ++ p := by rw [hpv, frame]
  have hflen : (frame p).length = pv.length + p.length := by rw [hframe, List.length_append]
  rw [← hpv] at hn1 hn10 hV0
  rw [hframe] at hdata
  rw [hflen]
  clear hpv hframe hflen
  have hdrop : c.file.data.drop c.file.off = pv ++ (p ++ rest) := by
    rw [hdata, hoff, List.append_assoc, List.drop_left, List.append_assoc]
  have hgot : (c.file.data.drop c.file.off).take 10 = pv ++ (p ++ rest).take (10 - pv.length) := by
    rw [hdrop, List.take_append_eq_append_take, List.take_of_length_le hn10]
  obtain ⟨got, hgotdef⟩ : ∃ got, got = pv ++ (p ++ rest).take (10 - pv.length) := ⟨_, rfl⟩
  rw [← hgotdef] at hgot
  have hgne : got ≠ [] := by
    intro h
    have h0 : got.length = 0 := by rw [h]; rfl
    rw [hgotdef, List.length_append] at h0
    omega
  have hV : Varint got = ((p.length : Int), (pv.length : Int)) := by rw [hgotdef]; exact hV0 _
  have hread : c.file.Read MaxVarintLen64 =
      (got, none, { c.file with off := c.file.off + got.length }) := by
    simp [OsFile.Read, hopen, MaxVarintLen64, hgot, hgne]
  have hdrop2 : (c.file.data.drop (pre.length + pv.length)).take p.length = p := by
    rw [← List.drop_drop, ← hoff, hdrop, List.drop_left, List.take_left]
  unfold readElem
  rw [hread]
  simp only [hV]
  have hlenpos : ¬ ((pv.length : Int) = 0) := by omega
  have hlennn : ¬ ((pv.length : Int) < 0) := by omega
  have hsz : ¬ ((p.length : Int) < 0 ∨ (p.length : Int) > (maxAlloc : Int)) := by omega
  simp only [ne_eq, not_true_eq_false, false_and, if_false, hlenpos, hlennn, hsz]
  have hseek : OsFile.Seek { c.file with off := c.file.off + got.length }
      ((pv.length : Int) - (got.length : Int)) SeekCurrent
      = .ok (((pre.length + pv.length : Nat) : Int),
          { c.file with off := pre.length + pv.length }) := by
    have e : ((c.file.off + got.length : Nat) : Int) + ((pv.length : Int) - (got.length : Int))
        = ((pre.length + pv.length : Nat) : Int) := by
      rw [hoff]; push_cast; ring
    have hne : ¬ (SeekCurrent = SeekStart) := by decide
    unfold OsFile.Seek
    simp only [hopen, not_true_eq_false, if_false, hne, e]
    rw [if_neg (by omega)]
    simp
    omega
  rw [hseek]
  simp only [Int.toNat_ofNat]
  have hfull : OsFile.ReadFull { c.file with off := pre.length + pv.length } p.length =
      (p, none, { c.file with off := pre.length + (pv.length + p.length) }) := by
    unfold OsFile.ReadFull
    by_cases h0 : p.length = 0
    · have : p = [] := List.length_eq_zero.mp h0
      subst this
      simp
    · have hpne : p ≠ [] := fun h => h0 (by rw [h]; rfl)
      simp [h0, hopen, hdrop2, hpne, Nat.add_assoc]
  rw [hfull]
  push_cast
  rw [Int.add_comm (p.length : Int)]

/-! ## The cache invariant -/

theorem cacheOK_ne_nil {cur : cursor} {cache : List cursor} (h : CacheOK cur cache) :
    cache ≠ [] := by
  intro hn
  have := h.1
  rw [hn] at this
  simp at this

theorem cacheOK_move {cur : cursor} {cache : List cursor} (h : CacheOK cur cache)
    {offset : Int} (ho : 0 < offset) :
    CacheOK ⟨cur.Index + 1, cur.Pos + offset⟩ cache ∧
    CacheOK ⟨cur.Index + 1, cur.Pos + offset⟩ (cache ++ [⟨cur.Index + 1, cur.Pos + offset⟩]) := by
  obtain ⟨hh, hp, hle⟩ := h
  refine ⟨⟨hh, hp, fun e he => ?_⟩, ?_, ?_, ?_⟩
  · have := hle e he
    simp only
    omega
  · cases cache with
    | nil => simp at hh
    | cons a l => simpa using hh
  · rw [List.pairwise_append]
    refine ⟨hp, List.pairwise_singleton _ _, fun a ha b hb => ?_⟩
    have := hle a ha
    rw [List.mem_singleton] at hb
    subst hb
    simp only
    omega
  · intro e he
    rw [List.mem_append, List.mem_singleton] at he
    rcases he with he | he
    · have := hle e he
      simp only
      omega
    · subst he
      simp

theorem moveCursor_spec (c : Conn) (offset : Int) (h : CacheOK c.cur c.cache) (ho : 0 < offset) :
    ∃ cache, moveCursor c offset =
        .ret () { c with cur := ⟨c.cur.Index + 1, c.cur.Pos + offset⟩, cache := cache } ∧
      CacheOK ⟨c.cur.Index + 1, c.cur.Pos + offset⟩ cache ∧
      (cache = c.cache ∨ cache = c.cache ++ [⟨c.cur.Index + 1, c.cur.Pos + offset⟩]) := by
  obtain ⟨h1, h2⟩ := cacheOK_move h ho
  unfold moveCursor
  have hne := cacheOK_ne_nil h
  obtain ⟨last, hlast⟩ : ∃ last, c.cache.getLast? = some last := by
    cases hc : c.cache.getLast? with
    | none => simp [List.getLast?_eq_none_iff] at hc; exact absurd hc hne
    | some l => exact ⟨l, rfl⟩
  simp only [hlast]
  split
  · exact ⟨_, rfl, h2, Or.inr rfl⟩
  · exact ⟨_, rfl, h1, Or.inl rfl⟩

theorem readElem_cacheInv (c : Conn) (h : CacheInv c) : (readElem c).All CacheInv := by
  unfold readElem
  rcases hr : c.file.Read MaxVarintLen64 with ⟨b, err, f1⟩
  simp only
  split_ifs with h1 h2 h3 h4
  · exact h
  · exact h
  · exact h
  · cases hs : f1.Seek ((Varint b).2 - (b.length : Int)) SeekCurrent with
    | error e => exact h
    | ok r => exact h
  · cases hs : f1.Seek ((Varint b).2 - (b.length : Int)) SeekCurrent with
    | error e => exact h
    | ok r =>
      obtain ⟨sought, f2⟩ := r
      simp only
      rcases hf : f2.ReadFull (Varint b).1.toNat with ⟨elem, err2, f3⟩
      cases err2 with
      | some e => exact h
      | none =>
        simp only
        obtain ⟨cache, hm, hok, -⟩ := moveCursor_spec
          { c with file := f3 } ((Varint b).1 + (Varint b).2) h (by omega)
        simp only at hm
        rw [hm]
        exact hok

theorem fileSeek_eq (c : Conn) (offset : Int) :
    fileSeek c offset =
      if c.file.isOpen = false then .ret (some .ErrClosed) c
      else if offset < 0 then .ret (some .EINVAL) c
      else .ret none { c with file := { c.file with off := offset.toNat } } := by
  unfold fileSeek OsFile.Seek
  cases ho : c.file.isOpen
  · simp [ho]
  · by_cases hlt : offset < 0 <;> simp [SeekStart, hlt, ho]

theorem fileSeek_cacheInv (c : Conn) (offset : Int) (h : CacheInv c) :
    (fileSeek c offset).All CacheInv := by
  unfold fileSeek
  cases hs : c.file.Seek offset SeekStart with
  | error e => exact h
  | ok r =>
    simp only
    split_ifs <;> exact h

theorem Read_cacheInv (c : Conn) (h : CacheInv c) : (Read c).All CacheInv := by
  have h0 := readElem_cacheInv c h
  unfold Read
  cases hr : readElem c with
  | timeout => trivial
  | panic p c1 => rw [hr] at h0; exact h0
  | ret v c1 =>
    rw [hr] at h0
    obtain ⟨elem, err⟩ := v
    cases err with
    | none => exact h0
    | some e =>
      simp only
      split_ifs with h1 h2
      · have h3 := fileSeek_cacheInv c1 c1.cur.Pos h0
        cases hs : fileSeek c1 c1.cur.Pos with
        | timeout => trivial
        | panic p c2 => rw [hs] at h3; exact h3
        | ret v2 c2 =>
          rw [hs] at h3
          cases v2 with
          | some e2 => exact h3
          | none =>
            simp only
            split_ifs
            · cases ht : c2.file.Truncate c2.cur.Pos with
              | error e3 => exact h3
              | ok f => exact h3
            · exact h3
      · exact h0
      · exact h0

theorem seekEndLoop_cacheInv (fuel : Nat) : ∀ (c : Conn), CacheInv c →
    (seekEndLoop fuel c).All CacheInv := by
  induction fuel with
  | zero => intro c _; trivial
  | succ k ih =>
    intro c h
    have h0 := Read_cacheInv c h
    unfold seekEndLoop
    cases hr : Read c with
    | timeout => trivial
    | panic p c1 => rw [hr] at h0; exact h0
    | ret v c1 =>
      rw [hr] at h0
      obtain ⟨elem, err⟩ := v
      cases err with
      | none => exact ih c1 h0
      | some e => exact h0

theorem cacheOK_getLast {cur : cursor} {cache : List cursor} (h : CacheOK cur cache)
    {e : cursor} (he : cache.getLast? = some e) : CacheOK e cache := by
  obtain ⟨hh, hp, hle⟩ := h
  refine ⟨hh, hp, fun a ha => ?_⟩
  obtain ⟨l, rfl⟩ : ∃ l, cache = l ++ [e] := by
    rw [List.getLast?_eq_some_iff] at he
    exact he
  rw [List.pairwise_append] at hp
  rw [List.mem_append, List.mem_singleton] at ha
  rcases ha with ha | ha
  · have := hp.2.2 a ha e (List.mem_singleton_self e)
    omega
  · subst ha; omega

theorem seekEnd_cacheInv (fuel : Nat) (c : Conn) (h : CacheInv c) :
    (seekEnd fuel c).All CacheInv := by
  unfold seekEnd
  cases hl : c.cache.getLast? with
  | none => exact h
  | some cacheEnd =>
    simp only
    rw [fileSeek_eq]
    split_ifs
    · exact h
    · exact h
    · apply seekEndLoop_cacheInv
      exact cacheOK_getLast h hl

theorem replayLoop_cacheInv (index : Int) (fuel : Nat) : ∀ (c : Conn), CacheInv c →
    (replayLoop index fuel c).All CacheInv := by
  induction fuel with
  | zero => intro c _; trivial
  | succ k ih =>
    intro c h
    have h0 := Read_cacheInv c h
    unfold replayLoop
    split_ifs
    · cases hr : Read c with
      | timeout => trivial
      | panic p c1 => rw [hr] at h0; exact h0
      | ret v c1 =>
        rw [hr] at h0
        obtain ⟨elem, err⟩ := v
        cases err with
        | none => exact ih c1 h0
        | some e => exact h0
    · exact h

theorem searchLoop_sound (cache : List cursor) (index : Int) (fuel : Nat) :
    ∀ (left right : Nat) (ref : cursor) (cacheEnd : Nat),
    searchLoop cache index fuel left right = some (some (ref, cacheEnd)) →
    ∃ m, cacheEnd = m + 1 ∧ cache[m]? = some ref ∧ ref.Index ≤ index := by
  induction fuel with
  | zero => intro left right ref cacheEnd h; simp [searchLoop] at h
  | succ k ih =>
    intro left right ref cacheEnd h
    unfold searchLoop at h
    simp only at h
    cases hm : cache[(left + right) / 2]? with
    | none => rw [hm] at h; simp at h
    | some cacheMid =>
      rw [hm] at h
      simp only at h
      split_ifs at h with h1 h2
      · exact ih _ _ _ _ h
      · exact ih _ _ _ _ h
      · simp only [Option.some.injEq, Prod.mk.injEq] at h
        obtain ⟨rfl, rfl⟩ := h
        exact ⟨_, rfl, hm, by omega⟩

theorem cacheOK_take {cur : cursor} {cache : List cursor} (h : CacheOK cur cache) (m : Nat) :
    CacheOK cur (cache.take (m + 1)) := by
  obtain ⟨hh, hp, hle⟩ := h
  refine ⟨?_, hp.sublist (List.take_sublist _ _), fun e he => hle e (List.mem_of_mem_take he)⟩
  cases cache with
  | nil => simp at hh
  | cons a l => simpa using hh

theorem cacheOK_take_ref {cur : cursor} {cache : List cursor} (h : CacheOK cur cache) {m : Nat}
    {ref : cursor} (hm : cache[m]? = some ref) : CacheOK ref (cache.take (m + 1)) := by
  have h1 := cacheOK_take h m
  apply cacheOK_getLast h1
  rw [List.getLast?_take]
  simp [hm]

theorem seekIndex_cacheInv (fuel : Nat) (c : Conn) (index : Int) (h : CacheInv c) :
    (seekIndex fuel c index).All CacheInv := by
  unfold seekIndex
  split_ifs with h1 h2
  · exact h
  · exact h
  · cases hs : searchLoop c.cache index (c.cache.length + 1) 0 c.cache.length with
    | none => trivial
    | some r =>
      cases r with
      | none => exact h
      | some rc =>
        obtain ⟨ref, cacheEnd⟩ := rc
        obtain ⟨m, rfl, hm, hle⟩ := searchLoop_sound _ _ _ _ _ _ _ hs
        simp only
        split_ifs with h3
        · rw [fileSeek_eq]
          split_ifs
          · exact h
          · exact h
          · apply replayLoop_cacheInv
            exact cacheOK_take_ref h hm
        · apply replayLoop_cacheInv
          exact cacheOK_take h m

theorem seek_cacheInv (fuel : Nat) (c : Conn) (offset whence : Int) (h : CacheInv c) :
    (seek fuel c offset whence).All CacheInv := by
  unfold seek
  split_ifs
  · exact seekIndex_cacheInv _ _ _ h
  · exact seekIndex_cacheInv _ _ _ h
  · have h0 := seekEnd_cacheInv fuel c h
    cases hr : seekEnd fuel c with
    | timeout => trivial
    | panic p c1 => rw [hr] at h0; exact h0
    | ret v c1 =>
      rw [hr] at h0
      cases v with
      | none => exact seekIndex_cacheInv _ _ _ h0
      | some e => exact h0
  · exact h

theorem Truncate_cacheInv (fuel : Nat) (c : Conn) (size : Int) (h : CacheInv c) :
    (Truncate fuel c size).All CacheInv := by
  have h0 := seek_cacheInv fuel c size SeekStart h
  unfold Truncate
  cases hr : seek fuel c size SeekStart with
  | timeout => trivial
  | panic p c1 => rw [hr] at h0; exact h0
  | ret v c1 =>
    rw [hr] at h0
    obtain ⟨i, err⟩ := v
    cases err with
    | some e => exact h0
    | none =>
      simp only
      cases ht : c1.file.Truncate c1.cur.Pos with
      | error e3 => exact h0
      | ok f => exact h0

theorem PutVarint_length_pos (x : Int) : 1 ≤ (PutVarint x).length := by
  unfold PutVarint PutUvarint
  split_ifs <;> exact (putUvarintLoop_length _ _).1

theorem appendFrame_cacheInv (c : Conn) (e : List Byte) (h : CacheInv c) :
    (appendFrame c e).All CacheInv := by
  unfold appendFrame
  simp only
  cases hw : c.file.Write (PutVarint (e.length : Int) ++ e) with
  | error err => exact h
  | ok f =>
    simp only
    have hpos : (0 : Int) < ((PutVarint (e.length : Int) ++ e).length : Int) := by
      have := PutVarint_length_pos (e.length : Int)
      rw [List.length_append]
      omega
    obtain ⟨cache, hm, hok, -⟩ := moveCursor_spec { c with file := f } _ h hpos
    simp only at hm
    rw [hm]
    exact hok

theorem Append_cacheInv (fuel : Nat) (c : Conn) (elem : Option (List Byte)) (h : CacheInv c) :
    (Append fuel c elem).All CacheInv := by
  unfold Append
  cases elem with
  | none => exact h
  | some e =>
    simp only
    split_ifs with hE
    · exact appendFrame_cacheInv c e h
    · have h0 := seekEnd_cacheInv fuel c h
      cases hr : seekEnd fuel c with
      | timeout => trivial
      | panic p c1 => rw [hr] at h0; exact h0
      | ret v c1 =>
        rw [hr] at h0
        cases v with
        | none => exact appendFrame_cacheInv c1 e h0
        | some e => exact h0

theorem step_cacheInv {c c1 : Conn} (hs : Step c c1) (h : CacheInv c) : CacheInv c1 := by
  have aux : ∀ {α : Type} (r : Res α), r.All CacheInv → r.after = some c1 → CacheInv c1 := by
    intro α r hall haft
    cases r with
    | timeout => simp [Res.after] at haft
    | panic p c2 => simp only [Res.after, Option.some.injEq] at haft; subst haft; exact hall
    | ret v c2 => simp only [Res.after, Option.some.injEq] at haft; subst haft; exact hall
  cases hs with
  | read _ _ hr => exact aux _ (Read_cacheInv c h) hr
  | append fuel _ elem _ hr => exact aux _ (Append_cacheInv fuel c elem h) hr
  | seek fuel _ offset whence _ hr => exact aux _ (seek_cacheInv fuel c offset whence h) hr
  | seekEnd fuel _ _ hr => exact aux _ (seekEnd_cacheInv fuel c h) hr
  | truncate fuel _ size _ hr => exact aux _ (Truncate_cacheInv fuel c size h) hr

theorem reachable_cacheInv {c : Conn} (h : Reachable c) : CacheInv c := by
  induction h with
  | opened data => exact ⟨rfl, by simp [Open], by simp [Open]⟩
  | openedReadOnly data => exact ⟨rfl, by simp [OpenReadOnly], by simp [OpenReadOnly]⟩
  | step c c1 _ hs ih => exact step_cacheInv hs ih

/-! ## Frames and frame boundaries -/

theorem encode_append (a b : List (List Byte)) : encode (a ++ b) = encode a ++ encode b := by
  induction a with
  | nil => rfl
  | cons p a ih => simp [encode, ih]

theorem frame_length_pos (p : List Byte) : 1 ≤ (frame p).length := by
  have := PutVarint_length_pos (p.length : Int)
  rw [frame_length]
  omega

theorem encode_split (ps : List (List Byte)) (i : Nat) (p : List Byte) (h : ps[i]? = some p) :
    encode ps = encode (ps.take i) ++ frame p ++ encode (ps.drop (i + 1)) := by
  have hlt : i < ps.length := by
    by_contra hge
    rw [List.getElem?_eq_none (by omega)] at h
    simp at h
  have hp : ps[i] = p := by
    rw [List.getElem?_eq_getElem hlt] at h
    exact Option.some.inj h
  have h1 : ps = ps.take i ++ p :: ps.drop (i + 1) := by
    rw [← hp, ← List.drop_eq_getElem_cons hlt, List.take_append_drop]
  conv_lhs => rw [h1]
  rw [encode_append, encode, List.append_assoc]

theorem posOf_zero (ps : List (List Byte)) : posOf ps 0 = 0 := by
  simp [posOf, encode]

theorem posOf_succ (ps : List (List Byte)) (i : Nat) (p : List Byte) (h : ps[i]? = some p) :
    posOf ps (i + 1) = posOf ps i + (frame p).length := by
  have hlt : i < ps.length := by
    by_contra hge
    rw [List.getElem?_eq_none (by omega)] at h
    simp at h
  have hp : ps[i] = p := by
    rw [List.getElem?_eq_getElem hlt] at h
    exact Option.some.inj h
  unfold posOf
  rw [List.take_succ, h, encode_append]
  simp [encode]

theorem posOf_length (ps : List (List Byte)) : posOf ps ps.length = (encode ps).length := by
  simp [posOf]

theorem posOf_le_of_le (ps : List (List Byte)) {i j : Nat} (h : i ≤ j) :
    posOf ps i ≤ posOf ps j := by
  induction j with
  | zero =>
    have : i = 0 := by omega
    subst this; exact le_refl _
  | succ k ih =>
    by_cases hik : i = k + 1
    · subst hik; exact le_refl _
    · have h1 := ih (by omega)
      by_cases hk : k < ps.length
      · have := posOf_succ ps k ps[k] (List.getElem?_eq_getElem hk)
        omega
      · have e1 : posOf ps (k + 1) = posOf ps k := by
          unfold posOf
          rw [List.take_of_length_le (by omega), List.take_of_length_le (by omega)]
        omega

theorem posOf_le_length (ps : List (List Byte)) (i : Nat) : posOf ps i ≤ (encode ps).length := by
  by_cases h : i ≤ ps.length
  · have := posOf_le_of_le ps h
    rw [posOf_length] at this
    exact this
  · unfold posOf
    rw [List.take_of_length_le (by omega)]

theorem posOf_append (ps qs : List (List Byte)) {i : Nat} (h : i ≤ ps.length) :
    posOf (ps ++ qs) i = posOf ps i := by
  unfold posOf
  rw [List.take_append_of_le_length h]

theorem posOf_take (ps : List (List Byte)) {i k : Nat} (h : i ≤ k) :
    posOf (ps.take k) i = posOf ps i := by
  unfold posOf
  rw [List.take_take, Nat.min_eq_left h]

theorem encode_take_posOf (ps : List (List Byte)) (k : Nat) (tail : List Byte) :
    (encode ps ++ tail).take (posOf ps k) = encode (ps.take k) := by
  have h1 : encode ps = encode (ps.take k) ++ encode (ps.drop k) := by
    rw [← encode_append, List.take_append_drop]
  rw [h1, List.append_assoc]
  unfold posOf
  rw [List.take_left]

theorem valid_append {ps : List (List Byte)} {e : cursor} (h : Valid ps e) (qs : List (List Byte)) :
    Valid (ps ++ qs) e := by
  obtain ⟨h1, h2, h3⟩ := h
  refine ⟨h1, ?_, ?_⟩
  · rw [List.length_append]; push_cast; omega
  · rw [h3, posOf_append]
    omega

theorem valid_take {ps : List (List Byte)} {e : cursor} (h : Valid ps e) {k : Nat}
    (hk : e.Index ≤ (k : Int)) (hkn : k ≤ ps.length) : Valid (ps.take k) e := by
  obtain ⟨h1, h2, h3⟩ := h
  refine ⟨h1, ?_, ?_⟩
  · rw [List.length_take, Nat.min_eq_left hkn]; exact hk
  · rw [h3, posOf_take]
    omega

/-! ## Read over a file of frames -/

theorem getElem?_lt {α : Type} {l : List α} {i : Nat} {a : α} (h : l[i]? = some a) :
    i < l.length := by
  by_contra hge
  rw [List.getElem?_eq_none (by omega)] at h
  simp at h

theorem Read_frame {ps : List (List Byte)} {tail : List Byte} {c : Conn} (h : Inv0 ps tail c)
    {i : Nat} (hi : c.cur.Index = (i : Int)) {p : List Byte} (hp : ps[i]? = some p) :
    ∃ c1, Read c = .ret (some p, none) c1 ∧ Inv0 ps tail c1 ∧ c1.cur.Index = (i : Int) + 1 ∧
      c1.isEnd = c.isEnd ∧ c1.locked = c.locked := by
  obtain ⟨hdata, hbound, hopen, hmode, hsync, hcur, hcache, hvalid⟩ := h
  have hlt := getElem?_lt hp
  have hpb : p.length ≤ maxAlloc := hbound p (List.getElem?_mem hp)
  have hpos : c.cur.Pos = (posOf ps i : Int) := by
    rw [hcur.2.2, hi]; simp
  have hoff : c.file.off = (encode (ps.take i)).length := by
    have : (c.file.off : Int) = (posOf ps i : Int) := by rw [hsync, hpos]
    exact_mod_cast this
  have hd : c.file.data = encode (ps.take i) ++ frame p ++ (encode (ps.drop (i + 1)) ++ tail) := by
    rw [hdata, encode_split ps i p hp]
    simp [List.append_assoc]
  have hre := readElem_frame c _ p _ hopen hd hoff hpb
  have hfpos : (0 : Int) < ((frame p).length : Int) := by
    have := frame_length_pos p; omega
  obtain ⟨cache, hm, hok, hcc⟩ := moveCursor_spec
    { c with file := { c.file with off := (encode (ps.take i)).length + (frame p).length } }
    ((frame p).length : Int) hcache hfpos
  rw [hm] at hre
  simp only at hre hcc hok
  have hnew : Valid ps ⟨c.cur.Index + 1, c.cur.Pos + ((frame p).length : Int)⟩ := by
    refine ⟨?_, ?_, ?_⟩
    · simp only; omega
    · simp only; omega
    · simp only
      rw [hi, hpos]
      have e : ((i : Int) + 1).toNat = i + 1 := by omega
      rw [e, posOf_succ ps i p hp]
      push_cast; ring
  refine ⟨{ c with
      file := { c.file with off := (encode (ps.take i)).length + (frame p).length }
      cur := ⟨c.cur.Index + 1, c.cur.Pos + ((frame p).length : Int)⟩
      cache := cache }, ?_, ⟨hdata, hbound, hopen, hmode, ?_, hnew, hok, ?_⟩, ?_, rfl, rfl⟩
  · unfold Read
    rw [hre]
  · show (((encode (ps.take i)).length + (frame p).length : Nat) : Int) =
        c.cur.Pos + ((frame p).length : Int)
    rw [hpos]
    unfold posOf
    push_cast; ring
  · intro e he
    have he2 : e ∈ cache := he
    rcases hcc with hcc | hcc
    · rw [hcc] at he2; exact hvalid e he2
    · rw [hcc, List.mem_append, List.mem_singleton] at he2
      rcases he2 with he2 | he2
      · exact hvalid e he2
      · rw [he2]; exact hnew
  · show c.cur.Index + 1 = (i : Int) + 1
    rw [hi]

theorem readElem_eof (c : Conn) (hopen : c.file.isOpen = true)
    (hoff : c.file.data.length ≤ c.file.off) :
    readElem c = .ret (none, some .EOF) c := by
  have hread : c.file.Read MaxVarintLen64 = ([], some .EOF, c.file) := by
    simp [OsFile.Read, hopen, MaxVarintLen64, List.drop_of_length_le hoff]
  unfold readElem
  rw [hread]
  simp

theorem readElem_torn (c : Conn) (pre q t : List Byte) (hopen : c.file.isOpen = true)
    (hdata : c.file.data = pre ++ t) (hoff : c.file.off = pre.length) (ht : TornOf q t) :
    ∃ o, readElem c =
      .ret (none, some .ErrUnexpectedEOF) { c with file := { c.file with off := o } } := by
  obtain ⟨hq, htne, htlen, hteq⟩ := ht
  obtain ⟨hn1, hn10⟩ := PutVarint_length q.length (maxAlloc_lt hq)
  have hV0 := Varint_PutVarint q.length (maxAlloc_lt hq)
  have hT0 := Varint_torn q.length (maxAlloc_lt hq)
  obtain ⟨pv, hpv⟩ : ∃ pv, pv = PutVarint (q.length : Int) := ⟨_, rfl⟩
  have hframe : frame q = pv ++ q := by rw [hpv, frame]
  rw [← hpv] at hn1 hn10 hV0 hT0
  rw [hframe] at htlen hteq
  rw [List.length_append] at htlen
  clear hpv hframe
  have hdrop : c.file.data.drop c.file.off = t := by
    rw [hdata, hoff, List.drop_left]
  have htpos : 0 < t.length := List.length_pos.mpr htne
  by_cases hcase : t.length < pv.length
  · -- the length prefix itself is incomplete
    have ht2 : t = pv.take t.length := by
      rw [List.take_append_of_le_length (by omega)] at hteq
      exact hteq
    have hgot : (c.file.data.drop c.file.off).take 10 = t := by
      rw [hdrop, List.take_of_length_le (by omega)]
    have hV : Varint t = (0, 0) := by
      rw [ht2]; exact hT0 _ hcase
    have hread : c.file.Read MaxVarintLen64 =
        (t, none, { c.file with off := c.file.off + t.length }) := by
      simp [OsFile.Read, hopen, MaxVarintLen64, hgot, htne]
    refine ⟨c.file.off + t.length, ?_⟩
    unfold readElem
    rw [hread]
    simp [hV]
  · -- the length prefix is complete, the payload is not
    obtain ⟨j, hj⟩ : ∃ j, j = t.length - pv.length := ⟨_, rfl⟩
    have hjlt : j < q.length := by omega
    have ht2 : t = pv ++ q.take j := by
      rw [List.take_append_eq_append_take, List.take_of_length_le (by omega), ← hj] at hteq
      exact hteq
    obtain ⟨got, hgotdef⟩ : ∃ got, got = pv ++ (q.take j).take (10 - pv.length) := ⟨_, rfl⟩
    have hgot : (c.file.data.drop c.file.off).take 10 = got := by
      rw [hdrop, hgotdef, ht2, List.take_append_eq_append_take, List.take_of_length_le hn10]
    have hgne : got ≠ [] := by
      intro h
      have h0 : got.length = 0 := by rw [h]; rfl
      rw [hgotdef, List.length_append] at h0
      omega
    have hV : Varint got = ((q.length : Int), (pv.length : Int)) := by
      rw [hgotdef]; exact hV0 _
    have hread : c.file.Read MaxVarintLen64 =
        (got, none, { c.file with off := c.file.off + got.length }) := by
      simp [OsFile.Read, hopen, MaxVarintLen64, hgot, hgne]
    have hseek : OsFile.Seek { c.file with off := c.file.off + got.length }
        ((pv.length : Int) - (got.length : Int)) SeekCurrent
        = .ok (((pre.length + pv.length : Nat) : Int),
            { c.file with off := pre.length + pv.length }) := by
      have e : ((c.file.off + got.length : Nat) : Int) + ((pv.length : Int) - (got.length : Int))
          = ((pre.length + pv.length : Nat) : Int) := by
        rw [hoff]; push_cast; ring
      have hne : ¬ (SeekCurrent = SeekStart) := by decide
      unfold OsFile.Seek
      simp only [hopen, not_true_eq_false, if_false, hne, e]
      rw [if_neg (by omega)]
      simp
      omega
    have hdrop2 : (c.file.data.drop (pre.length + pv.length)).take q.length = q.take j := by
      rw [← List.drop_drop, ← hoff, hdrop, ht2, List.drop_left,
        List.take_of_length_le (by rw [List.length_take]; omega)]
    have hlen2 : (q.take j).length = j := by rw [List.length_take]; omega
    have hfull : ∃ o, OsFile.ReadFull { c.file with off := pre.length + pv.length } q.length =
        (q.take j, some (if j = 0 then .EOF else .ErrUnexpectedEOF),
          { c.file with off := o }) := by
      unfold OsFile.ReadFull
      have hk : ¬ (q.length = 0) := by omega
      by_cases h0 : j = 0
      · refine ⟨pre.length + pv.length, ?_⟩
        subst h0
        simp [hk, hopen, hdrop2]
      · refine ⟨pre.length + pv.length + j, ?_⟩
        have hne2 : q.take j ≠ [] := by
          intro h; rw [h] at hlen2; exact h0 hlen2.symm
        simp only [hk, hopen, hdrop2, hlen2, hjlt, if_true, if_false, h0, hne2]
        simp
    obtain ⟨o, hfull⟩ := hfull
    refine ⟨o, ?_⟩
    unfold readElem
    rw [hread]
    simp only [hV]
    have hlenpos : ¬ ((pv.length : Int) = 0) := by omega
    have hlennn : ¬ ((pv.length : Int) < 0) := by omega
    have hsz : ¬ ((q.length : Int) < 0 ∨ (q.length : Int) > (maxAlloc : Int)) := by omega
    simp only [ne_eq, not_true_eq_false, false_and, if_false, hlenpos, hlennn, hsz]
    rw [hseek]
    simp only [Int.toNat_ofNat]
    rw [hfull]
    by_cases h0 : j = 0 <;> simp [h0]

theorem inv0_end_off {ps : List (List Byte)} {tail : List Byte} {c : Conn} (h : Inv0 ps tail c)
    (hi : c.cur.Index = (ps.length : Int)) :
    c.file.off = (encode ps).length ∧ c.cur.Pos = ((encode ps).length : Int) := by
  obtain ⟨hdata, hbound, hopen, hmode, hsync, hcur, hcache, hvalid⟩ := h
  have hpos : c.cur.Pos = ((encode ps).length : Int) := by
    rw [hcur.2.2, hi]; simp [posOf_length]
  refine ⟨?_, hpos⟩
  have : (c.file.off : Int) = ((encode ps).length : Int) := by rw [hsync, hpos]
  exact_mod_cast this

theorem inv0_heal {ps : List (List Byte)} {tail : List Byte} {c : Conn} (h : Inv0 ps tail c)
    (b : Bool) :
    Inv0 ps [] { c with file := { c.file with data := encode ps }, isEnd := b } := by
  obtain ⟨hdata, hbound, hopen, hmode, hsync, hcur, hcache, hvalid⟩ := h
  exact ⟨by simp, hbound, hopen, hmode, hsync, hcur, hcache, hvalid⟩

theorem Read_of_readElem_torn_locked (c c1 : Conn)
    (h : readElem c = .ret (none, some .ErrUnexpectedEOF) c1) (hopen : c1.file.isOpen = true)
    (hpos : 0 ≤ c1.cur.Pos) (hlock : c1.locked = true) (hrd : c1.file.rdwr = true) :
    Read c = .ret (none, some .EOF)
      { c1 with
        file := { c1.file with
          off := c1.cur.Pos.toNat
          data := c1.file.data.take c1.cur.Pos.toNat ++
            List.replicate (c1.cur.Pos.toNat - c1.file.data.length) 0 }
        isEnd := true } := by
  have hnn : ¬ (c1.cur.Pos < 0) := by omega
  unfold Read
  rw [h]
  simp only [if_true]
  rw [fileSeek_eq]
  simp [hopen, hnn, hlock, OsFile.Truncate, hrd]

theorem Read_of_readElem_torn_readOnly (c c1 : Conn)
    (h : readElem c = .ret (none, some .ErrUnexpectedEOF) c1) (hopen : c1.file.isOpen = true)
    (hpos : 0 ≤ c1.cur.Pos) (hlock : c1.locked = false) :
    Read c = .ret (none, none) { c1 with file := { c1.file with off := c1.cur.Pos.toNat } } := by
  have hnn : ¬ (c1.cur.Pos < 0) := by omega
  unfold Read
  rw [h]
  simp only [if_true]
  rw [fileSeek_eq]
  simp [hopen, hnn, hlock]

theorem Read_end {ps : List (List Byte)} {tail : List Byte} {c : Conn} (h : Inv0 ps tail c)
    (hi : c.cur.Index = (ps.length : Int)) (q : List Byte)
    (ht : tail = [] ∨ (c.locked = true ∧ TornOf q tail)) :
    Read c = .ret (none, some .EOF)
      { c with file := { c.file with data := encode ps }, isEnd := true } := by
  obtain ⟨hoff, hpos⟩ := inv0_end_off h hi
  obtain ⟨hdata, hbound, hopen, hmode, hsync, hcur, hcache, hvalid⟩ := h
  rcases ht with ht | ⟨hlock, ht⟩
  · subst ht
    have hd : c.file.data = encode ps := by simpa using hdata
    have hre := readElem_eof c hopen (by rw [hd, hoff])
    unfold Read
    rw [hre]
    simp [← hd]
  · obtain ⟨o, hre⟩ := readElem_torn c (encode ps) q tail hopen hdata hoff ht
    have hrd : c.file.rdwr = true := by rw [hmode, hlock]
    rw [Read_of_readElem_torn_locked c _ hre hopen (by show 0 ≤ c.cur.Pos; omega) hlock hrd]
    have e1 : c.cur.Pos.toNat = c.file.off := by omega
    have e2 : c.file.data.take c.file.off = encode ps := by
      rw [hoff, hdata, List.take_left]
    have e3 : c.file.off - c.file.data.length = 0 := by
      rw [hoff, hdata, List.length_append]; omega
    simp only [e1, e2, e3, List.replicate_zero, List.append_nil]

theorem Read_torn_readOnly {ps : List (List Byte)} {tail : List Byte} {c : Conn}
    (h : Inv0 ps tail c) (hi : c.cur.Index = (ps.length : Int)) (q : List Byte)
    (hlock : c.locked = false) (ht : TornOf q tail) :
    Read c = .ret (none, none) c := by
  obtain ⟨hoff, hpos⟩ := inv0_end_off h hi
  obtain ⟨hdata, hbound, hopen, hmode, hsync, hcur, hcache, hvalid⟩ := h
  obtain ⟨o, hre⟩ := readElem_torn c (encode ps) q tail hopen hdata hoff ht
  rw [Read_of_readElem_torn_readOnly c _ hre hopen (by show 0 ≤ c.cur.Pos; omega) hlock]
  have e1 : c.cur.Pos.toNat = c.file.off := by omega
  simp only [e1]

/-! ## Loops over a file of frames -/

theorem replayLoop_to {ps : List (List Byte)} {tail : List Byte} (d : Nat) :
    ∀ (fuel : Nat) (c : Conn) (index : Int), Inv0 ps tail c → c.cur.Index + (d : Int) = index →
      index ≤ (ps.length : Int) → d < fuel →
      ∃ c1, replayLoop index fuel c = .ret (index, none) c1 ∧ Inv0 ps tail c1 ∧
        c1.cur.Index = index ∧ c1.isEnd = c.isEnd ∧ c1.locked = c.locked := by
  induction d with
  | zero =>
    intro fuel c index h hd _ hf
    obtain ⟨k, rfl⟩ : ∃ k, fuel = k + 1 := ⟨fuel - 1, by omega⟩
    have hi : c.cur.Index = index := by simpa using hd
    refine ⟨c, ?_, h, hi, rfl, rfl⟩
    unfold replayLoop
    simp [hi]
  | succ d ih =>
    intro fuel c index h hd hN hf
    obtain ⟨k, rfl⟩ : ∃ k, fuel = k + 1 := ⟨fuel - 1, by omega⟩
    have hv := h.2.2.2.2.2.1
    obtain ⟨i, hi⟩ : ∃ i : Nat, c.cur.Index = (i : Int) := ⟨c.cur.Index.toNat, by have := hv.1; omega⟩
    have hlt : i < ps.length := by push_cast at hd; omega
    obtain ⟨c1, hr, h1, hi1, he1, hl1⟩ := Read_frame h hi (List.getElem?_eq_getElem hlt)
    obtain ⟨c2, hr2, h2, hi2, he2, hl2⟩ := ih k c1 index h1 (by push_cast at hd; omega) hN (by omega)
    refine ⟨c2, ?_, h2, hi2, by rw [he2, he1], by rw [hl2, hl1]⟩
    have hne : c.cur.Index ≠ index := by push_cast at hd; omega
    unfold replayLoop
    simp only [hne, ne_eq, not_false_eq_true, if_true, hr]
    exact hr2

theorem replayLoop_after_end {ps : List (List Byte)} (d : Nat) :
    ∀ (fuel : Nat) (c : Conn) (index : Int), Inv0 ps [] c →
      c.cur.Index + (d : Int) = (ps.length : Int) → (ps.length : Int) < index → d < fuel →
      ∃ c1, replayLoop index fuel c = .ret (-1, some .seekAfterEnd) c1 ∧ Inv0 ps [] c1 ∧
        c1.cur.Index = (ps.length : Int) ∧ c1.isEnd = true ∧ c1.locked = c.locked := by
  induction d with
  | zero =>
    intro fuel c index h hd hN hf
    obtain ⟨k, rfl⟩ : ∃ k, fuel = k + 1 := ⟨fuel - 1, by omega⟩
    have hi : c.cur.Index = (ps.length : Int) := by simpa using hd
    have hne : c.cur.Index ≠ index := by omega
    have hr := Read_end h hi [] (Or.inl rfl)
    refine ⟨_, ?_, inv0_heal h true, hi, rfl, rfl⟩
    unfold replayLoop
    simp only [hne, ne_eq, not_false_eq_true, if_true, hr]
  | succ d ih =>
    intro fuel c index h hd hN hf
    obtain ⟨k, rfl⟩ : ∃ k, fuel = k + 1 := ⟨fuel - 1, by omega⟩
    have hv := h.2.2.2.2.2.1
    obtain ⟨i, hi⟩ : ∃ i : Nat, c.cur.Index = (i : Int) := ⟨c.cur.Index.toNat, by have := hv.1; omega⟩
    have hlt : i < ps.length := by push_cast at hd; omega
    obtain ⟨c1, hr, h1, hi1, he1, hl1⟩ := Read_frame h hi (List.getElem?_eq_getElem hlt)
    obtain ⟨c2, hr2, h2, hi2, he2, hl2⟩ := ih k c1 index h1 (by push_cast at hd; omega) hN (by omega)
    refine ⟨c2, ?_, h2, hi2, he2, by rw [hl2, hl1]⟩
    have hne : c.cur.Index ≠ index := by omega
    unfold replayLoop
    simp only [hne, ne_eq, not_false_eq_true, if_true, hr]
    exact hr2

theorem seekEndLoop_spec {ps : List (List Byte)} {tail : List Byte} (q : List Byte) (d : Nat) :
    ∀ (fuel : Nat) (c : Conn), Inv0 ps tail c →
      c.cur.Index + (d : Int) = (ps.length : Int) → d < fuel →
      (tail = [] ∨ (c.locked = true ∧ TornOf q tail)) →
      ∃ c1, seekEndLoop fuel c = .ret none c1 ∧ Inv0 ps [] c1 ∧
        c1.cur.Index = (ps.length : Int) ∧ c1.isEnd = true ∧ c1.locked = c.locked := by
  induction d with
  | zero =>
    intro fuel c h hd hf ht
    obtain ⟨k, rfl⟩ : ∃ k, fuel = k + 1 := ⟨fuel - 1, by omega⟩
    have hi : c.cur.Index = (ps.length : Int) := by simpa using hd
    have hr := Read_end h hi q ht
    refine ⟨_, ?_, inv0_heal h true, hi, rfl, rfl⟩
    unfold seekEndLoop
    simp only [hr, if_true]
  | succ d ih =>
    intro fuel c h hd hf ht
    obtain ⟨k, rfl⟩ : ∃ k, fuel = k + 1 := ⟨fuel - 1, by omega⟩
    have hv := h.2.2.2.2.2.1
    obtain ⟨i, hi⟩ : ∃ i : Nat, c.cur.Index = (i : Int) := ⟨c.cur.Index.toNat, by have := hv.1; omega⟩
    have hlt : i < ps.length := by push_cast at hd; omega
    obtain ⟨c1, hr, h1, hi1, he1, hl1⟩ := Read_frame h hi (List.getElem?_eq_getElem hlt)
    obtain ⟨c2, hr2, h2, hi2, he2, hl2⟩ := ih k c1 h1 (by push_cast at hd; omega) (by omega)
      (by rw [hl1]; exact ht)
    refine ⟨c2, ?_, h2, hi2, he2, by rw [hl2, hl1]⟩
    unfold seekEndLoop
    simp only [hr]
    exact hr2

theorem searchLoop_total (cache : List cursor) (index : Int) (fuel : Nat) :
    ∀ (left right : Nat), left < right → right ≤ cache.length →
      (∃ e, cache[left]? = some e ∧ e.Index ≤ index) → right - left ≤ fuel →
      ∃ ref cacheEnd, searchLoop cache index fuel left right = some (some (ref, cacheEnd)) := by
  induction fuel with
  | zero => intro left right h1 _ _ h4; omega
  | succ k ih =>
    intro left right h1 h2 h3 h4
    have hmid : (left + right) / 2 < cache.length := by omega
    unfold searchLoop
    simp only [List.getElem?_eq_getElem hmid]
    split_ifs with h5 h6
    · have hne : left ≠ (left + right) / 2 := by
        intro heq
        obtain ⟨e, he, hle⟩ := h3
        have he2 : cache[(left + right) / 2]? = some e := by rw [← heq]; exact he
        rw [List.getElem?_eq_getElem hmid] at he2
        have := Option.some.inj he2
        rw [this] at h5
        omega
      exact ih _ _ (by omega) (by omega) h3 (by omega)
    · exact ih _ _ (by omega) h2 ⟨_, List.getElem?_eq_getElem hmid, by omega⟩ (by omega)
    · exact ⟨_, _, rfl⟩

theorem cacheOK_search {cur : cursor} {cache : List cursor} (h : CacheOK cur cache) (index : Int)
    (hi : 0 ≤ index) :
    ∃ ref m, searchLoop cache index (cache.length + 1) 0 cache.length = some (some (ref, m + 1)) ∧
      cache[m]? = some ref ∧ ref.Index ≤ index := by
  have hne := cacheOK_ne_nil h
  have hlen : 0 < cache.length := List.length_pos.mpr hne
  have h0 : cache[0]? = some ⟨0, 0⟩ := by
    have := h.1
    cases cache with
    | nil => simp at hne
    | cons a l => simpa using this
  obtain ⟨ref, ce, hs⟩ := searchLoop_total cache index (cache.length + 1) 0 cache.length hlen
    (le_refl _) ⟨_, h0, hi⟩ (by omega)
  obtain ⟨m, rfl, hm, hle⟩ := searchLoop_sound _ _ _ _ _ _ _ hs
  exact ⟨ref, m, hs, hm, hle⟩

/-! ## Seeking over a file of frames -/

theorem seekIndex_step (fuel : Nat) (c : Conn) (index : Int) (ref : cursor) (m : Nat)
    (hne : index ≠ c.cur.Index) (h0 : ¬ index < 0)
    (hs : searchLoop c.cache index (c.cache.length + 1) 0 c.cache.length =
      some (some (ref, m + 1))) :
    seekIndex fuel c index =
      if index < c.cur.Index ∨ ref.Index > c.cur.Index then
        if c.file.isOpen = false then .ret (-1, some .ErrClosed) c
        else if ref.Pos < 0 then .ret (-1, some .EINVAL) c
        else replayLoop index fuel
          { c with
            file := { c.file with off := ref.Pos.toNat }
            cur := ref
            cache := c.cache.take (m + 1)
            isEnd := false }
      else replayLoop index fuel { c with cache := c.cache.take (m + 1), isEnd := false } := by
  unfold seekIndex
  simp only [hne, h0, hs, if_false]
  by_cases hc : index < c.cur.Index ∨ ref.Index > c.cur.Index
  · simp only [hc, if_true]
    rw [fileSeek_eq]
    split_ifs <;> rfl
  · simp only [hc, if_false]

theorem seekEnd_step (fuel : Nat) (c : Conn) (e : cursor) (hl : c.cache.getLast? = some e) :
    seekEnd fuel c =
      if c.file.isOpen = false then .ret (some .ErrClosed) c
      else if e.Pos < 0 then .ret (some .EINVAL) c
      else seekEndLoop fuel { c with file := { c.file with off := e.Pos.toNat }, cur := e } := by
  unfold seekEnd
  simp only [hl]
  rw [fileSeek_eq]
  split_ifs <;> rfl

theorem mem_of_getElem? {α : Type} {l : List α} {i : Nat} {a : α} (h : l[i]? = some a) : a ∈ l :=
  List.getElem?_mem h

theorem seekIndex_to {ps : List (List Byte)} {tail : List Byte} {c : Conn} (h : Inv ps tail c)
    (index : Int) (h0 : 0 ≤ index) (hN : index ≤ (ps.length : Int)) (fuel : Nat)
    (hf : index < (fuel : Int)) :
    ∃ c1, seekIndex fuel c index = .ret (index, none) c1 ∧ Inv ps tail c1 ∧
      c1.cur.Index = index ∧ c1.locked = c.locked := by
  by_cases heq : index = c.cur.Index
  · refine ⟨c, ?_, h, heq.symm, rfl⟩
    unfold seekIndex
    simp [heq]
  · obtain ⟨⟨hdata, hbound, hopen, hmode, hsync, hcur, hcache, hvalid⟩, hend⟩ := h
    obtain ⟨ref, m, hs, hm, hle⟩ := cacheOK_search hcache index h0
    have hrv : Valid ps ref := hvalid ref (mem_of_getElem? hm)
    have hrle := (hcache.2.2 ref (mem_of_getElem? hm)).1
    rw [seekIndex_step fuel c index ref m heq (by omega) hs]
    have hsub : ∀ e ∈ c.cache.take (m + 1), Valid ps e :=
      fun e he => hvalid e (List.mem_of_mem_take he)
    by_cases hc : index < c.cur.Index ∨ ref.Index > c.cur.Index
    · have hinv : Inv0 ps tail { c with
          file := { c.file with off := ref.Pos.toNat }
          cur := ref
          cache := c.cache.take (m + 1)
          isEnd := false } := by
        refine ⟨hdata, hbound, hopen, hmode, ?_, hrv, cacheOK_take_ref hcache hm, hsub⟩
        show ((ref.Pos.toNat : Nat) : Int) = ref.Pos
        have := hrv.2.2
        omega
      obtain ⟨d, hd⟩ : ∃ d : Nat, ref.Index + (d : Int) = index :=
        ⟨(index - ref.Index).toNat, by omega⟩
      obtain ⟨c1, hr, h1, hi1, he1, hl1⟩ := replayLoop_to d fuel _ index hinv hd hN
        (by have := hrv.1; omega)
      have hpos : ¬ ref.Pos < 0 := by have := hrv.2.2; omega
      rw [if_pos hc, if_neg (by simp [hopen]), if_neg hpos]
      refine ⟨c1, hr, ⟨h1, ?_⟩, hi1, hl1⟩
      intro hE
      rw [he1] at hE
      exact absurd hE (by simp)
    · have hinv : Inv0 ps tail { c with cache := c.cache.take (m + 1), isEnd := false } :=
        ⟨hdata, hbound, hopen, hmode, hsync, hcur, cacheOK_take hcache m, hsub⟩
      obtain ⟨d, hd⟩ : ∃ d : Nat, c.cur.Index + (d : Int) = index :=
        ⟨(index - c.cur.Index).toNat, by omega⟩
      obtain ⟨c1, hr, h1, hi1, he1, hl1⟩ := replayLoop_to d fuel _ index hinv hd hN
        (by have := hcur.1; omega)
      rw [if_neg hc]
      refine ⟨c1, hr, ⟨h1, ?_⟩, hi1, hl1⟩
      intro hE
      rw [he1] at hE
      exact absurd hE (by simp)

theorem seekIndex_after_end {ps : List (List Byte)} {c : Conn} (h : Inv ps [] c)
    (index : Int) (hN : (ps.length : Int) < index) {fuel : Nat} (hf : ps.length < fuel) :
    ∃ c1, seekIndex fuel c index = .ret (-1, some .seekAfterEnd) c1 ∧ Inv ps [] c1 ∧
      c1.cur.Index = (ps.length : Int) ∧ c1.locked = c.locked := by
  obtain ⟨⟨hdata, hbound, hopen, hmode, hsync, hcur, hcache, hvalid⟩, hend⟩ := h
  have heq : index ≠ c.cur.Index := by have := hcur.2.1; omega
  obtain ⟨ref, m, hs, hm, hle⟩ := cacheOK_search hcache index (by omega)
  have hrv : Valid ps ref := hvalid ref (mem_of_getElem? hm)
  have hrle := (hcache.2.2 ref (mem_of_getElem? hm)).1
  rw [seekIndex_step fuel c index ref m heq (by omega) hs]
  have hsub : ∀ e ∈ c.cache.take (m + 1), Valid ps e :=
    fun e he => hvalid e (List.mem_of_mem_take he)
  have hc : ¬ (index < c.cur.Index ∨ ref.Index > c.cur.Index) := by
    have := hcur.2.1; omega
  have hinv : Inv0 ps [] { c with cache := c.cache.take (m + 1), isEnd := false } :=
    ⟨hdata, hbound, hopen, hmode, hsync, hcur, cacheOK_take hcache m, hsub⟩
  obtain ⟨d, hd⟩ : ∃ d : Nat, c.cur.Index + (d : Int) = (ps.length : Int) :=
    ⟨((ps.length : Int) - c.cur.Index).toNat, by have := hcur.2.1; omega⟩
  obtain ⟨c1, hr, h1, hi1, he1, hl1⟩ := replayLoop_after_end d fuel _ index hinv hd hN
    (by have := hcur.1; omega)
  rw [if_neg hc]
  exact ⟨c1, hr, ⟨h1, fun _ => ⟨hi1, rfl⟩⟩, hi1, hl1⟩

theorem seekEnd_spec {ps : List (List Byte)} {tail : List Byte} {c : Conn} (h : Inv0 ps tail c)
    (q : List Byte) (ht : tail = [] ∨ (c.locked = true ∧ TornOf q tail)) {fuel : Nat}
    (hf : ps.length < fuel) :
    ∃ c1, seekEnd fuel c = .ret none c1 ∧ Inv ps [] c1 ∧
      c1.cur.Index = (ps.length : Int) ∧ c1.isEnd = true ∧ c1.locked = c.locked := by
  obtain ⟨hdata, hbound, hopen, hmode, hsync, hcur, hcache, hvalid⟩ := h
  obtain ⟨e, hl⟩ : ∃ e, c.cache.getLast? = some e := by
    cases hc : c.cache.getLast? with
    | none =>
      rw [List.getLast?_eq_none_iff] at hc
      exact absurd hc (cacheOK_ne_nil hcache)
    | some l => exact ⟨l, rfl⟩
  have hev : Valid ps e := hvalid e (List.mem_of_getLast?_eq_some hl)
  rw [seekEnd_step fuel c e hl]
  have hpos : ¬ e.Pos < 0 := by have := hev.2.2; omega
  rw [if_neg (by simp [hopen]), if_neg hpos]
  have hinv : Inv0 ps tail { c with file := { c.file with off := e.Pos.toNat }, cur := e } := by
    refine ⟨hdata, hbound, hopen, hmode, ?_, hev, cacheOK_getLast hcache hl, hvalid⟩
    show ((e.Pos.toNat : Nat) : Int) = e.Pos
    omega
  obtain ⟨d, hd⟩ : ∃ d : Nat, e.Index + (d : Int) = (ps.length : Int) :=
    ⟨((ps.length : Int) - e.Index).toNat, by have := hev.2.1; omega⟩
  obtain ⟨c1, hr, h1, hi1, he1, hl1⟩ := seekEndLoop_spec q d fuel _ hinv hd
    (by have := hev.1; omega) ht
  exact ⟨c1, hr, ⟨h1, fun _ => ⟨hi1, rfl⟩⟩, hi1, he1, hl1⟩

/-! ## Append and Truncate over a file of frames -/

theorem appendFrame_spec {ps : List (List Byte)} {c : Conn} (h : Inv0 ps [] c)
    (hi : c.cur.Index = (ps.length : Int)) (hlock : c.locked = true) {e : List Byte}
    (he : e.length ≤ maxAlloc) :
    ∃ c2, appendFrame c e = .ret none c2 ∧ Inv0 (ps ++ [e]) [] c2 ∧
      c2.cur.Index = (ps.length : Int) + 1 ∧ c2.isEnd = c.isEnd ∧ c2.locked = c.locked ∧
      c2.file.data = c.file.data ++ frame e ∧ c2.cur.Pos = (c2.file.data.length : Int) := by
  obtain ⟨hoff, hpos⟩ := inv0_end_off h hi
  obtain ⟨hdata, hbound, hopen, hmode, hsync, hcur, hcache, hvalid⟩ := h
  have hd : c.file.data = encode ps := by simpa using hdata
  have hrd : c.file.rdwr = true := by rw [hmode, hlock]
  have hw : c.file.Write (frame e) =
      .ok { c.file with data := c.file.data ++ frame e, off := c.file.off + (frame e).length } := by
    unfold OsFile.Write
    simp only [hopen, hrd, not_true_eq_false, if_false]
    have e1 : c.file.data.take c.file.off = c.file.data := by
      rw [List.take_of_length_le (by rw [hoff, hd])]
    have e2 : c.file.off - c.file.data.length = 0 := by rw [hoff, hd]; omega
    have e3 : c.file.data.drop (c.file.off + (frame e).length) = [] := by
      rw [List.drop_of_length_le (by rw [hoff, hd]; omega)]
    rw [e1, e2, e3]
    simp
  have hfpos : (0 : Int) < ((frame e).length : Int) := by
    have := frame_length_pos e; omega
  obtain ⟨cache, hm, hok, hcc⟩ := moveCursor_spec
    { c with file := { c.file with data := c.file.data ++ frame e,
                                     off := c.file.off + (frame e).length } }
    ((frame e).length : Int) hcache hfpos
  simp only at hm hok hcc
  have henc : encode (ps ++ [e]) = encode ps ++ frame e := by
    rw [encode_append]; simp [encode]
  have hnew : Valid (ps ++ [e]) ⟨c.cur.Index + 1, c.cur.Pos + ((frame e).length : Int)⟩ := by
    refine ⟨?_, ?_, ?_⟩
    · simp only; omega
    · simp only; rw [List.length_append]; simp
      omega
    · simp only
      rw [hi, hpos]
      have e1 : ((ps.length : Int) + 1).toNat = (ps ++ [e]).length := by
        rw [List.length_append]; simp
      rw [e1, posOf_length, henc, List.length_append]
      push_cast; ring
  refine ⟨{ c with
      file := { c.file with data := c.file.data ++ frame e,
                            off := c.file.off + (frame e).length }
      cur := ⟨c.cur.Index + 1, c.cur.Pos + ((frame e).length : Int)⟩
      cache := cache }, ?_, ⟨?_, ?_, hopen, hmode, ?_, hnew, hok, ?_⟩, ?_, rfl, rfl, rfl, ?_⟩
  · unfold appendFrame
    simp only
    have : PutVarint (e.length : Int) ++ e = frame e := rfl
    rw [this, hw]
    simp only
    rw [hm]
  · show c.file.data ++ frame e = encode (ps ++ [e]) ++ []
    rw [henc, hd]; simp
  · intro p hp
    rw [List.mem_append, List.mem_singleton] at hp
    rcases hp with hp | hp
    · exact hbound p hp
    · rw [hp]; exact he
  · show ((c.file.off + (frame e).length : Nat) : Int) = c.cur.Pos + ((frame e).length : Int)
    rw [← hsync]; push_cast; ring
  · intro x hx
    have hx2 : x ∈ cache := hx
    rcases hcc with hcc | hcc
    · rw [hcc] at hx2; exact valid_append (hvalid x hx2) _
    · rw [hcc, List.mem_append, List.mem_singleton] at hx2
      rcases hx2 with hx2 | hx2
      · exact valid_append (hvalid x hx2) _
      · rw [hx2]; exact hnew
  · show c.cur.Index + 1 = (ps.length : Int) + 1
    rw [hi]
  · show c.cur.Pos + ((frame e).length : Int) = ((c.file.data ++ frame e).length : Int)
    rw [hpos, hd, List.length_append]; push_cast; ring

theorem Append_spec {ps : List (List Byte)} {tail : List Byte} {c : Conn} (h : Inv ps tail c)
    (hlock : c.locked = true) (q : List Byte) (ht : tail = [] ∨ TornOf q tail)
    {e : List Byte} (he : e.length ≤ maxAlloc) (fuel : Nat)
    (hf : c.isEnd = true ∨ ps.length < fuel) :
    ∃ c2, Append fuel c (some e) = .ret none c2 ∧ Inv (ps ++ [e]) [] c2 ∧
      c2.cur.Index = (ps.length : Int) + 1 ∧ c2.locked = true ∧ c2.isEnd = true ∧
      c2.file.data = encode ps ++ frame e ∧ c2.cur.Pos = (c2.file.data.length : Int) := by
  obtain ⟨h0, hend⟩ := h
  have hfin : ∀ c1 : Conn, Inv0 ps [] c1 → c1.cur.Index = (ps.length : Int) →
      c1.locked = true → c1.isEnd = true →
      ∃ c2, appendFrame c1 e = .ret none c2 ∧ Inv (ps ++ [e]) [] c2 ∧
        c2.cur.Index = (ps.length : Int) + 1 ∧ c2.locked = true ∧ c2.isEnd = true ∧
        c2.file.data = encode ps ++ frame e ∧ c2.cur.Pos = (c2.file.data.length : Int) := by
    intro c1 h1 hi1 hl1 he1
    obtain ⟨c2, hr, h2, hi2, he2, hl2, hd2, hp2⟩ := appendFrame_spec h1 hi1 hl1 he
    have hd1 : c1.file.data = encode ps := by simpa using h1.1
    refine ⟨c2, hr, ⟨h2, fun _ => ⟨?_, rfl⟩⟩, hi2, by rw [hl2, hl1], by rw [he2, he1],
      by rw [hd2, hd1], hp2⟩
    rw [hi2, List.length_append]; simp
  by_cases hE : c.isEnd = true
  · obtain ⟨hi, htl⟩ := hend hE
    subst htl
    obtain ⟨c2, hr, rest⟩ := hfin c h0 hi hlock hE
    refine ⟨c2, ?_, rest⟩
    unfold Append
    simp only [hE, not_true_eq_false, if_false]
    exact hr
  · have hf2 : ps.length < fuel := by
      rcases hf with hf | hf
      · exact absurd hf hE
      · exact hf
    have ht2 : tail = [] ∨ (c.locked = true ∧ TornOf q tail) := by
      rcases ht with ht | ht
      · exact Or.inl ht
      · exact Or.inr ⟨hlock, ht⟩
    obtain ⟨c1, hr1, h1, hi1, he1, hl1⟩ := seekEnd_spec h0 q ht2 hf2
    obtain ⟨c2, hr, rest⟩ := hfin c1 h1.1 hi1 (by rw [hl1, hlock]) he1
    refine ⟨c2, ?_, rest⟩
    unfold Append
    simp only [hE, not_false_eq_true, if_true, hr1]
    exact hr

theorem Truncate_spec {ps : List (List Byte)} {c : Conn} (h : Inv ps [] c)
    (hlock : c.locked = true) {k : Nat} (hk : k ≤ ps.length) (fuel : Nat) (hf : k < fuel) :
    ∃ c1, Truncate fuel c (k : Int) = .ret none c1 ∧ Inv (ps.take k) [] c1 ∧
      c1.cur.Index = (k : Int) ∧ c1.locked = true ∧ c1.file.data = encode (ps.take k) := by
  obtain ⟨c1, hr, h1, hi1, hl1⟩ := seekIndex_to h (k : Int) (by omega)
    (by exact_mod_cast hk) fuel (by exact_mod_cast hf)
  obtain ⟨⟨hdata, hbound, hopen, hmode, hsync, hcur, hcache, hvalid⟩, hend⟩ := h1
  have hrd : c1.file.rdwr = true := by rw [hmode, hl1, hlock]
  have hpos : c1.cur.Pos = (posOf ps k : Int) := by
    rw [hcur.2.2, hi1]; simp
  have htr : c1.file.Truncate c1.cur.Pos = .ok { c1.file with data := encode (ps.take k) } := by
    unfold OsFile.Truncate
    have hnn : ¬ c1.cur.Pos < 0 := by omega
    simp only [hopen, hrd, not_true_eq_false, if_false, hnn]
    have e1 : c1.cur.Pos.toNat = posOf ps k := by omega
    have e2 : posOf ps k - c1.file.data.length = 0 := by
      have := posOf_le_length ps k
      rw [hdata]; simp; omega
    rw [e1, e2, hdata, encode_take_posOf]
    simp
  refine ⟨{ c1 with file := { c1.file with data := encode (ps.take k) } }, ?_,
    ⟨⟨by simp, ?_, hopen, hmode, hsync, ?_, hcache, ?_⟩, ?_⟩, hi1, by rw [← hlock, ← hl1], rfl⟩
  · unfold Truncate seek
    simp only [SeekStart, if_true, hr]
    rw [htr]
  · intro p hp
    exact hbound p (List.mem_of_mem_take hp)
  · exact valid_take hcur (by rw [hi1]) hk
  · intro e he
    have hle := (hcache.2.2 e he).1
    exact valid_take (hvalid e he) (by show e.Index ≤ (k : Int); rw [← hi1]; exact hle) hk
  · intro _
    refine ⟨?_, rfl⟩
    show c1.cur.Index = ((ps.take k).length : Int)
    rw [hi1, List.length_take, Nat.min_eq_left hk]

/-! ## Client loops -/

theorem readMany_spec {ps : List (List Byte)} {tail : List Byte} (n : Nat) :
    ∀ (c : Conn) (i : Nat), Inv0 ps tail c → c.cur.Index = (i : Int) → i + n ≤ ps.length →
      ∃ c1, readMany n c = some ((ps.drop i).take n, c1) ∧ Inv0 ps tail c1 ∧
        c1.cur.Index = ((i + n : Nat) : Int) ∧ c1.isEnd = c.isEnd ∧ c1.locked = c.locked := by
  induction n with
  | zero =>
    intro c i h hi _
    exact ⟨c, by simp [readMany], h, by simpa using hi, rfl, rfl⟩
  | succ n ih =>
    intro c i h hi hle
    have hlt : i < ps.length := by omega
    obtain ⟨c1, hr, h1, hi1, he1, hl1⟩ := Read_frame h hi (List.getElem?_eq_getElem hlt)
    obtain ⟨c2, hr2, h2, hi2, he2, hl2⟩ := ih c1 (i + 1) h1 (by push_cast; exact hi1) (by omega)
    refine ⟨c2, ?_, h2, ?_, by rw [he2, he1], by rw [hl2, hl1]⟩
    · unfold readMany
      simp only [hr, hr2]
      rw [List.drop_eq_getElem_cons hlt, List.take_succ_cons]
    · rw [hi2]; push_cast; ring

theorem appendMany_spec (fuel : Nat) (qs : List (List Byte)) :
    ∀ (ps : List (List Byte)) (c : Conn), Inv ps [] c → c.locked = true →
      (∀ p ∈ qs, p.length ≤ maxAlloc) → (c.isEnd = true ∨ ps.length < fuel) →
      ∃ c1, appendMany fuel qs c = some c1 ∧ Inv (ps ++ qs) [] c1 ∧ c1.locked = true := by
  induction qs with
  | nil =>
    intro ps c h hl _ _
    exact ⟨c, rfl, by simpa using h, hl⟩
  | cons q qs ih =>
    intro ps c h hl hb hf
    obtain ⟨c1, hr, h1, hi1, hl1, he1, -, -⟩ := Append_spec h hl [] (Or.inl rfl)
      (hb q (List.mem_cons_self _ _)) fuel hf
    obtain ⟨c2, hr2, h2, hl2⟩ := ih (ps ++ [q]) c1 h1 hl1
      (fun p hp => hb p (List.mem_cons_of_mem _ hp)) (Or.inl he1)
    refine ⟨c2, ?_, by simpa using h2, hl2⟩
    unfold appendMany
    simp only [hr]
    exact hr2

theorem inv0_Open (ps : List (List Byte)) (tail : List Byte) (hb : ∀ p ∈ ps, p.length ≤ maxAlloc) :
    Inv0 ps tail (Open (encode ps ++ tail)) := by
  have hv : Valid ps ⟨0, 0⟩ := ⟨le_refl _, by simp, by simp [posOf_zero]⟩
  refine ⟨rfl, hb, rfl, rfl, rfl, hv, ⟨rfl, by simp [Open], by simp [Open]⟩, ?_⟩
  intro e he
  have : e = ⟨0, 0⟩ := by simpa [Open] using he
  rw [this]; exact hv

theorem inv0_OpenReadOnly (ps : List (List Byte)) (tail : List Byte)
    (hb : ∀ p ∈ ps, p.length ≤ maxAlloc) :
    Inv0 ps tail (OpenReadOnly (encode ps ++ tail)) := by
  have hv : Valid ps ⟨0, 0⟩ := ⟨le_refl _, by simp, by simp [posOf_zero]⟩
  refine ⟨rfl, hb, rfl, rfl, rfl, hv, ⟨rfl, by simp [OpenReadOnly], by simp [OpenReadOnly]⟩, ?_⟩
  intro e he
  have : e = ⟨0, 0⟩ := by simpa [OpenReadOnly] using he
  rw [this]; exact hv

/-! ## States reachable over a file of frames -/

theorem Read_cases {ps : List (List Byte)} {c : Conn} (h : Inv0 ps [] c) :
    (∃ p c1, Read c = .ret (some p, none) c1 ∧ Inv0 ps [] c1 ∧ c1.isEnd = c.isEnd ∧
        c1.locked = c.locked ∧ c.cur.Index < (ps.length : Int)) ∨
    (Read c = .ret (none, some .EOF) { c with isEnd := true } ∧
        c.cur.Index = (ps.length : Int)) := by
  have hv := h.2.2.2.2.2.1
  obtain ⟨i, hi⟩ : ∃ i : Nat, c.cur.Index = (i : Int) := ⟨c.cur.Index.toNat, by have := hv.1; omega⟩
  by_cases hlt : i < ps.length
  · left
    obtain ⟨c1, hr, h1, hi1, he1, hl1⟩ := Read_frame h hi (List.getElem?_eq_getElem hlt)
    exact ⟨_, c1, hr, h1, he1, hl1, by omega⟩
  · right
    have hN : c.cur.Index = (ps.length : Int) := by have := hv.2.1; omega
    have hr := Read_end h hN [] (Or.inl rfl)
    have hd : c.file.data = encode ps := by simpa using h.1
    rw [← hd] at hr
    exact ⟨hr, hN⟩

theorem inv0_setEnd {ps : List (List Byte)} {tail : List Byte} {c : Conn} (h : Inv0 ps tail c)
    (b : Bool) : Inv0 ps tail { c with isEnd := b } := h

theorem seekEndLoop_all {ps : List (List Byte)} (fuel : Nat) : ∀ (c : Conn), Inv0 ps [] c →
    seekEndLoop fuel c = .timeout ∨
    ∃ c1, seekEndLoop fuel c = .ret none c1 ∧ Inv ps [] c1 ∧ c1.isEnd = true ∧
      c1.locked = c.locked := by
  induction fuel with
  | zero => intro c _; left; rfl
  | succ k ih =>
    intro c h
    rcases Read_cases h with ⟨p, c1, hr, h1, he1, hl1, -⟩ | ⟨hr, hN⟩
    · rcases ih c1 h1 with ht | ⟨c2, hr2, h2, he2, hl2⟩
      · left
        unfold seekEndLoop
        simp only [hr]
        exact ht
      · right
        refine ⟨c2, ?_, h2, he2, by rw [hl2, hl1]⟩
        unfold seekEndLoop
        simp only [hr]
        exact hr2
    · right
      refine ⟨{ c with isEnd := true }, ?_, ⟨inv0_setEnd h true, fun _ => ⟨hN, rfl⟩⟩, rfl, rfl⟩
      unfold seekEndLoop
      simp only [hr, if_true]

theorem replayLoop_all {ps : List (List Byte)} (index : Int) (fuel : Nat) : ∀ (c : Conn),
    Inv0 ps [] c → c.isEnd = false →
    replayLoop index fuel c = .timeout ∨
    ∃ v c1, replayLoop index fuel c = .ret v c1 ∧ Inv ps [] c1 ∧ c1.locked = c.locked := by
  induction fuel with
  | zero => intro c _ _; left; rfl
  | succ k ih =>
    intro c h hE
    by_cases hne : c.cur.Index = index
    · right
      refine ⟨(index, none), c, ?_, ⟨h, fun hE2 => ?_⟩, rfl⟩
      · unfold replayLoop
        simp [hne]
      · rw [hE] at hE2; exact absurd hE2 (by simp)
    · rcases Read_cases h with ⟨p, c1, hr, h1, he1, hl1, -⟩ | ⟨hr, hN⟩
      · rcases ih c1 h1 (by rw [he1, hE]) with ht | ⟨v, c2, hr2, h2, hl2⟩
        · left
          unfold replayLoop
          simp only [hne, ne_eq, not_false_eq_true, if_true, hr]
          exact ht
        · right
          refine ⟨v, c2, ?_, h2, by rw [hl2, hl1]⟩
          unfold replayLoop
          simp only [hne, ne_eq, not_false_eq_true, if_true, hr]
          exact hr2
      · right
        refine ⟨(-1, some .seekAfterEnd), { c with isEnd := true }, ?_,
          ⟨inv0_setEnd h true, fun _ => ⟨hN, rfl⟩⟩, rfl⟩
        unfold replayLoop
        simp only [hne, ne_eq, not_false_eq_true, if_true, hr]

theorem seekIndex_all {ps : List (List Byte)} {c : Conn} (h : Inv ps [] c) (fuel : Nat)
    (index : Int) :
    seekIndex fuel c index = .timeout ∨
    ∃ v c1, seekIndex fuel c index = .ret v c1 ∧ Inv ps [] c1 ∧ c1.locked = c.locked := by
  by_cases heq : index = c.cur.Index
  · right
    refine ⟨(index, none), c, ?_, h, rfl⟩
    unfold seekIndex
    simp [heq]
  · by_cases hneg : index < 0
    · right
      refine ⟨(-1, some .seekBeforeStart), c, ?_, h, rfl⟩
      unfold seekIndex
      rw [if_neg heq, if_pos hneg]
    · obtain ⟨⟨hdata, hbound, hopen, hmode, hsync, hcur, hcache, hvalid⟩, hend⟩ := h
      obtain ⟨ref, m, hs, hm, hle⟩ := cacheOK_search hcache index (by omega)
      have hrv : Valid ps ref := hvalid ref (mem_of_getElem? hm)
      rw [seekIndex_step fuel c index ref m heq hneg hs]
      have hsub : ∀ e ∈ c.cache.take (m + 1), Valid ps e :=
        fun e he => hvalid e (List.mem_of_mem_take he)
      by_cases hc : index < c.cur.Index ∨ ref.Index > c.cur.Index
      · have hinv : Inv0 ps [] { c with
            file := { c.file with off := ref.Pos.toNat }
            cur := ref
            cache := c.cache.take (m + 1)
            isEnd := false } := by
          refine ⟨hdata, hbound, hopen, hmode, ?_, hrv, cacheOK_take_ref hcache hm, hsub⟩
          show ((ref.Pos.toNat : Nat) : Int) = ref.Pos
          have := hrv.2.2
          omega
        have hpos : ¬ ref.Pos < 0 := by have := hrv.2.2; omega
        rw [if_pos hc, if_neg (by simp [hopen]), if_neg hpos]
        exact replayLoop_all index fuel _ hinv rfl
      · have hinv : Inv0 ps [] { c with cache := c.cache.take (m + 1), isEnd := false } :=
          ⟨hdata, hbound, hopen, hmode, hsync, hcur, cacheOK_take hcache m, hsub⟩
        rw [if_neg hc]
        exact replayLoop_all index fuel _ hinv rfl

theorem seekEnd_all {ps : List (List Byte)} {c : Conn} (h : Inv0 ps [] c) (fuel : Nat) :
    seekEnd fuel c = .timeout ∨
    ∃ c1, seekEnd fuel c = .ret none c1 ∧ Inv ps [] c1 ∧ c1.isEnd = true ∧
      c1.locked = c.locked := by
  obtain ⟨hdata, hbound, hopen, hmode, hsync, hcur, hcache, hvalid⟩ := h
  obtain ⟨e, hl⟩ : ∃ e, c.cache.getLast? = some e := by
    cases hc : c.cache.getLast? with
    | none =>
      rw [List.getLast?_eq_none_iff] at hc
      exact absurd hc (cacheOK_ne_nil hcache)
    | some l => exact ⟨l, rfl⟩
  have hev : Valid ps e := hvalid e (List.mem_of_getLast?_eq_some hl)
  rw [seekEnd_step fuel c e hl]
  have hpos : ¬ e.Pos < 0 := by have := hev.2.2; omega
  rw [if_neg (by simp [hopen]), if_neg hpos]
  have hinv : Inv0 ps [] { c with file := { c.file with off := e.Pos.toNat }, cur := e } := by
    refine ⟨hdata, hbound, hopen, hmode, ?_, hev, cacheOK_getLast hcache hl, hvalid⟩
    show ((e.Pos.toNat : Nat) : Int) = e.Pos
    omega
  exact seekEndLoop_all fuel _ hinv

theorem seek_all {ps : List (List Byte)} {c : Conn} (h : Inv ps [] c) (fuel : Nat)
    (offset whence : Int) :
    seek fuel c offset whence = .timeout ∨
    seek fuel c offset whence = .panic .invalidWhence c ∨
    ∃ v c1, seek fuel c offset whence = .ret v c1 ∧ Inv ps [] c1 ∧ c1.locked = c.locked := by
  unfold seek
  split_ifs with h1 h2 h3
  · rcases seekIndex_all h fuel offset with ht | hr
    · exact Or.inl ht
    · exact Or.inr (Or.inr hr)
  · rcases seekIndex_all h fuel (wrap64 (c.cur.Index + offset)) with ht | hr
    · exact Or.inl ht
    · exact Or.inr (Or.inr hr)
  · rcases seekEnd_all h.1 fuel with ht | ⟨c1, hr1, hi1, he1, hl1⟩
    · left; rw [ht]
    · rw [hr1]
      simp only
      rcases seekIndex_all hi1 fuel (wrap64 (c1.cur.Index + offset)) with ht | ⟨v, c2, hr2, h2, hl2⟩
      · exact Or.inl ht
      · exact Or.inr (Or.inr ⟨v, c2, hr2, h2, by rw [hl2, hl1]⟩)
  · exact Or.inr (Or.inl rfl)

theorem truncate_at_cursor {ps : List (List Byte)} {c : Conn} (h : Inv ps [] c)
    (hrd : c.file.rdwr = true) :
    c.file.Truncate c.cur.Pos =
        .ok { c.file with data := encode (ps.take c.cur.Index.toNat) } ∧
      Inv (ps.take c.cur.Index.toNat) []
        { c with file := { c.file with data := encode (ps.take c.cur.Index.toNat) } } := by
  obtain ⟨⟨hdata, hbound, hopen, hmode, hsync, hcur, hcache, hvalid⟩, hend⟩ := h
  obtain ⟨k, hk⟩ : ∃ k : Nat, c.cur.Index = (k : Int) := ⟨c.cur.Index.toNat, by have := hcur.1; omega⟩
  have hkN : k ≤ ps.length := by have := hcur.2.1; omega
  have hkk : c.cur.Index.toNat = k := by omega
  rw [hkk]
  have hpos : c.cur.Pos = (posOf ps k : Int) := by rw [hcur.2.2, hkk]
  refine ⟨?_, ⟨by simp, ?_, hopen, hmode, hsync, ?_, hcache, ?_⟩, ?_⟩
  · unfold OsFile.Truncate
    have hnn : ¬ c.cur.Pos < 0 := by omega
    simp only [hopen, hrd, not_true_eq_false, if_false, hnn]
    have e1 : c.cur.Pos.toNat = posOf ps k := by omega
    have e2 : posOf ps k - c.file.data.length = 0 := by
      have := posOf_le_length ps k
      rw [hdata]; simp; omega
    rw [e1, e2, hdata, encode_take_posOf]
    simp
  · intro p hp
    exact hbound p (List.mem_of_mem_take hp)
  · exact valid_take hcur (by rw [hk]) hkN
  · intro e he
    have hle := (hcache.2.2 e he).1
    exact valid_take (hvalid e he) (by show e.Index ≤ (k : Int); rw [← hk]; exact hle) hkN
  · intro _
    refine ⟨?_, rfl⟩
    show c.cur.Index = ((ps.take k).length : Int)
    rw [hk, List.length_take, Nat.min_eq_left hkN]

theorem step_inv {c c1 : Conn} (hinv : ∃ ps, Inv ps [] c) :
    ((Read c).after = some c1 → ∃ ps, Inv ps [] c1) ∧
    (∀ fuel elem, (∀ e, elem = some e → e.length ≤ maxAlloc) →
      (Append fuel c elem).after = some c1 → ∃ ps, Inv ps [] c1) ∧
    (∀ fuel offset whence, (seek fuel c offset whence).after = some c1 → ∃ ps, Inv ps [] c1) ∧
    (∀ fuel, (seekEnd fuel c).after = some c1 → ∃ ps, Inv ps [] c1) ∧
    (∀ fuel size, (Truncate fuel c size).after = some c1 → ∃ ps, Inv ps [] c1) := by
  obtain ⟨ps, h⟩ := hinv
  have happ : ∀ (c0 : Conn) (e : List Byte), Inv ps [] c0 → c0.isEnd = true →
      e.length ≤ maxAlloc → (appendFrame c0 e).after = some c1 → ∃ ps, Inv ps [] c1 := by
    intro c0 e h0 hE0 he haft
    by_cases hl : c0.locked = true
    · obtain ⟨c2, hr, h2, hi2, he2, hl2, -, -⟩ := appendFrame_spec h0.1 (h0.2 hE0).1 hl he
      rw [hr] at haft
      simp only [Res.after, Option.some.injEq] at haft
      subst haft
      refine ⟨ps ++ [e], h2, fun _ => ⟨?_, rfl⟩⟩
      rw [hi2, List.length_append]; simp
    · have hrd : c0.file.rdwr = false := by
        rw [h0.1.2.2.2.1]; simpa using hl
      have hr : appendFrame c0 e = .ret (some .EBADF) c0 := by
        unfold appendFrame OsFile.Write
        simp [h0.1.2.2.1, hrd]
      rw [hr] at haft
      simp only [Res.after, Option.some.injEq] at haft
      subst haft
      exact ⟨ps, h0⟩
  refine ⟨?_, ?_, ?_, ?_, ?_⟩
  · intro haft
    rcases Read_cases h.1 with ⟨p, c2, hr, h2, he2, hl2, hlt⟩ | ⟨hr, hN⟩
    · rw [hr] at haft
      simp only [Res.after, Option.some.injEq] at haft
      subst haft
      refine ⟨ps, h2, fun hE => ?_⟩
      rw [he2] at hE
      have := (h.2 hE).1
      omega
    · rw [hr] at haft
      simp only [Res.after, Option.some.injEq] at haft
      subst haft
      exact ⟨ps, inv0_setEnd h.1 true, fun _ => ⟨hN, rfl⟩⟩
  · intro fuel elem hb haft
    cases elem with
    | none =>
      simp only [Append, Res.after, Option.some.injEq] at haft
      subst haft
      exact ⟨ps, h⟩
    | some e =>
      have he := hb e rfl
      unfold Append at haft
      simp only at haft
      by_cases hE : c.isEnd = true
      · simp only [hE, not_true_eq_false, if_false] at haft
        exact happ c e h hE he haft
      · simp only [hE, not_false_eq_true, if_true] at haft
        rcases seekEnd_all h.1 fuel with ht | ⟨c2, hr2, h2, he2, hl2⟩
        · rw [ht] at haft
          simp [Res.after] at haft
        · rw [hr2] at haft
          exact happ c2 e h2 he2 he haft
  · intro fuel offset whence haft
    rcases seek_all h fuel offset whence with ht | hp | ⟨v, c2, hr, h2, -⟩
    · rw [ht] at haft; simp [Res.after] at haft
    · rw [hp] at haft
      simp only [Res.after, Option.some.injEq] at haft
      subst haft
      exact ⟨ps, h⟩
    · rw [hr] at haft
      simp only [Res.after, Option.some.injEq] at haft
      subst haft
      exact ⟨ps, h2⟩
  · intro fuel haft
    rcases seekEnd_all h.1 fuel with ht | ⟨c2, hr2, h2, -, -⟩
    · rw [ht] at haft; simp [Res.after] at haft
    · rw [hr2] at haft
      simp only [Res.after, Option.some.injEq] at haft
      subst haft
      exact ⟨ps, h2⟩
  · intro fuel size haft
    unfold Truncate at haft
    rcases seek_all h fuel size SeekStart with ht | hp | ⟨v, c2, hr, h2, -⟩
    · rw [ht] at haft; simp [Res.after] at haft
    · rw [hp] at haft
      simp only [Res.after, Option.some.injEq] at haft
      subst haft
      exact ⟨ps, h⟩
    · rw [hr] at haft
      obtain ⟨i, err⟩ := v
      cases err with
      | some e =>
        simp only [Res.after, Option.some.injEq] at haft
        subst haft
        exact ⟨ps, h2⟩
      | none =>
        simp only at haft
        by_cases hrd : c2.file.rdwr = true
        · obtain ⟨htr, h3⟩ := truncate_at_cursor h2 hrd
          rw [htr] at haft
          simp only [Res.after, Option.some.injEq] at haft
          subst haft
          exact ⟨_, h3⟩
        · have htr : c2.file.Truncate c2.cur.Pos = .error .EINVAL := by
            unfold OsFile.Truncate
            simp [h2.1.2.2.1, hrd]
          rw [htr] at haft
          simp only [Res.after, Option.some.injEq] at haft
          subst haft
          exact ⟨ps, h2⟩

theorem reachableOver_inv {c : Conn} (h : ReachableOver c) : ∃ ps, Inv ps [] c := by
  induction h with
  | opened ps hb =>
    refine ⟨ps, ?_, fun hE => absurd hE (by simp [Open])⟩
    have := inv0_Open ps [] hb
    simpa using this
  | openedReadOnly ps hb =>
    refine ⟨ps, ?_, fun hE => absurd hE (by simp [OpenReadOnly])⟩
    have := inv0_OpenReadOnly ps [] hb
    simpa using this
  | read c c1 _ hr ih => exact (step_inv ih).1 hr
  | append fuel c elem c1 _ hb hr ih => exact (step_inv ih).2.1 fuel elem hb hr
  | seek fuel c offset whence c1 _ hr ih => exact (step_inv ih).2.2.1 fuel offset whence hr
  | seekEnd fuel c c1 _ hr ih => exact (step_inv ih).2.2.2.1 fuel hr
  | truncate fuel c size c1 _ hr ih => exact (step_inv ih).2.2.2.2 fuel size hr

theorem frame_append_inj {p q r s : List Byte} (hp : p.length ≤ maxAlloc) (hq : q.length ≤ maxAlloc)
    (h : frame p ++ r = frame q ++ s) : p = q ∧ r = s := by
  have h1 := Varint_PutVarint p.length (maxAlloc_lt hp) (p ++ r)
  have h2 := Varint_PutVarint q.length (maxAlloc_lt hq) (q ++ s)
  have e : PutVarint (p.length : Int) ++ (p ++ r) = PutVarint (q.length : Int) ++ (q ++ s) := by
    simpa [frame, List.append_assoc] using h
  rw [e, h2] at h1
  have hlen : q.length = p.length := by
    have := congrArg Prod.fst h1
    simp only at this
    exact_mod_cast this
  rw [hlen] at e
  have e2 := List.append_cancel_left e
  exact List.append_inj e2 hlen.symm

theorem encode_inj : ∀ (ps qs : List (List Byte)), (∀ p ∈ ps, p.length ≤ maxAlloc) →
    (∀ q ∈ qs, q.length ≤ maxAlloc) → encode ps = encode qs → ps = qs := by
  intro ps
  induction ps with
  | nil =>
    intro qs _ _ h
    cases qs with
    | nil => rfl
    | cons q qs =>
      have := congrArg List.length h
      simp only [encode, List.length_nil, List.length_append] at this
      have := frame_length_pos q
      omega
  | cons p ps ih =>
    intro qs hp hq h
    cases qs with
    | nil =>
      have := congrArg List.length h
      simp only [encode, List.length_nil, List.length_append] at this
      have := frame_length_pos p
      omega
    | cons q qs =>
      simp only [encode] at h
      obtain ⟨e1, e2⟩ := frame_append_inj (hp p (List.mem_cons_self _ _))
        (hq q (List.mem_cons_self _ _)) h
      rw [e1, ih qs (fun x hx => hp x (List.mem_cons_of_mem _ hx))
        (fun x hx => hq x (List.mem_cons_of_mem _ hx)) e2]

/-- Every state that a handle reaches over a file of complete frames is of the kind `Inv`
for the payloads the file holds. -/
theorem reachableOver_inv_of_data {c : Conn} (h : ReachableOver c) (ps : List (List Byte))
    (hb : ∀ p ∈ ps, p.length ≤ maxAlloc) (hd : c.file.data = encode ps) : Inv ps [] c := by
  obtain ⟨qs, hq⟩ := reachableOver_inv h
  have e : encode qs = encode ps := by
    have := hq.1.1
    rw [hd] at this
    simpa using this.symm
  have := encode_inj qs ps hq.1.2.1 hb e
  rw [← this]
  exact hq


/-! ## What the reading calls leave unchanged -/

theorem frameR_refl (c : Conn) : FrameR c c := ⟨rfl, rfl, rfl, rfl, rfl, fun _ => rfl⟩

theorem frameR_file {c0 c : Conn} (h : FrameR c0 c) (f : OsFile) (hn : f.name = c.file.name)
    (ho : f.isOpen = c.file.isOpen) (hr : f.rdwr = c.file.rdwr) (hd : f.data = c.file.data) :
    FrameR c0 { c with file := f } := by
  obtain ⟨h1, h2, h3, h4, h5, h6⟩ := h
  exact ⟨h1, h2, by rw [← h3]; exact hn, by rw [← h4]; exact ho, by rw [← h5]; exact hr,
    fun hl => by rw [← h6 hl]; exact hd⟩

theorem OsFile.Read_fields (f : OsFile) (k : Nat) :
    (f.Read k).2.2.name = f.name ∧ (f.Read k).2.2.isOpen = f.isOpen ∧
    (f.Read k).2.2.rdwr = f.rdwr ∧ (f.Read k).2.2.data = f.data := by
  unfold OsFile.Read
  dsimp only
  split_ifs <;> exact ⟨rfl, rfl, rfl, rfl⟩

theorem OsFile.ReadFull_fields (f : OsFile) (k : Nat) :
    (f.ReadFull k).2.2.name = f.name ∧ (f.ReadFull k).2.2.isOpen = f.isOpen ∧
    (f.ReadFull k).2.2.rdwr = f.rdwr ∧ (f.ReadFull k).2.2.data = f.data := by
  unfold OsFile.ReadFull
  dsimp only
  split_ifs <;> exact ⟨rfl, rfl, rfl, rfl⟩

theorem OsFile.Seek_fields (f : OsFile) (offset whence : Int) (r : Int) (f1 : OsFile)
    (h : f.Seek offset whence = .ok (r, f1)) :
    f1.name = f.name ∧ f1.isOpen = f.isOpen ∧ f1.rdwr = f.rdwr ∧ f1.data = f.data ∧
      (f1.off : Int) = r := by
  unfold OsFile.Seek at h
  dsimp only at h
  by_cases h1 : ¬ f.isOpen = true
  · rw [if_pos h1] at h; exact absurd h (by simp)
  · rw [if_neg h1] at h
    by_cases h2 : (if whence = SeekStart then offset else (f.off : Int) + offset) < 0
    · rw [if_pos h2] at h; exact absurd h (by simp)
    · rw [if_neg h2] at h
      simp only [Except.ok.injEq, Prod.mk.injEq] at h
      obtain ⟨e1, e2⟩ := h
      rw [← e2, ← e1]
      refine ⟨rfl, rfl, rfl, rfl, ?_⟩
      simp only
      omega

theorem moveCursor_file (c : Conn) (offset : Int) :
    (moveCursor c offset).All (fun c1 => c1.file = c.file ∧ c1.locked = c.locked ∧
      c1.closed = c.closed ∧ c1.isEnd = c.isEnd) := by
  unfold moveCursor
  simp only
  cases c.cache.getLast? with
  | none => exact ⟨rfl, rfl, rfl, rfl⟩
  | some last =>
    simp only
    split_ifs <;> exact ⟨rfl, rfl, rfl, rfl⟩

theorem frameR_moveCursor {c0 c : Conn} (h : FrameR c0 c) (offset : Int) :
    (moveCursor c offset).All (FrameR c0) := by
  have hm := moveCursor_file c offset
  obtain ⟨h1, h2, h3, h4, h5, h6⟩ := h
  cases hr : moveCursor c offset with
  | timeout => trivial
  | panic p c1 =>
    rw [hr] at hm
    obtain ⟨e1, e2, e3, -⟩ := hm
    exact ⟨by rw [e2, h1], by rw [e3, h2], by rw [e1, h3], by rw [e1, h4], by rw [e1, h5],
      fun hl => by rw [e1]; exact h6 hl⟩
  | ret v c1 =>
    rw [hr] at hm
    obtain ⟨e1, e2, e3, -⟩ := hm
    exact ⟨by rw [e2, h1], by rw [e3, h2], by rw [e1, h3], by rw [e1, h4], by rw [e1, h5],
      fun hl => by rw [e1]; exact h6 hl⟩

theorem readElem_frameR {c0 c : Conn} (h : FrameR c0 c) : (readElem c).All (FrameR c0) := by
  unfold readElem
  have hR := OsFile.Read_fields c.file MaxVarintLen64
  rcases hr : c.file.Read MaxVarintLen64 with ⟨b, err, f1⟩
  rw [hr] at hR
  simp only at hR
  obtain ⟨r1, r2, r3, r4⟩ := hR
  have h1 : FrameR c0 { c with file := f1 } := frameR_file h f1 r1 r2 r3 r4
  simp only
  split_ifs with g1 g2 g3 g4
  · exact h1
  · exact h1
  · exact h1
  · cases hs : f1.Seek ((Varint b).2 - (b.length : Int)) SeekCurrent with
    | error e => exact h1
    | ok r =>
      obtain ⟨sought, f2⟩ := r
      obtain ⟨s1, s2, s3, s4, -⟩ := OsFile.Seek_fields _ _ _ _ _ hs
      exact frameR_file h f2 (by rw [s1, r1]) (by rw [s2, r2]) (by rw [s3, r3]) (by rw [s4, r4])
  · cases hs : f1.Seek ((Varint b).2 - (b.length : Int)) SeekCurrent with
    | error e => exact h1
    | ok r =>
      obtain ⟨sought, f2⟩ := r
      obtain ⟨s1, s2, s3, s4, -⟩ := OsFile.Seek_fields _ _ _ _ _ hs
      simp only
      have hF := OsFile.ReadFull_fields f2 (Varint b).1.toNat
      rcases hf : f2.ReadFull (Varint b).1.toNat with ⟨elem, err2, f3⟩
      rw [hf] at hF
      simp only at hF
      obtain ⟨t1, t2, t3, t4⟩ := hF
      have h3 : FrameR c0 { c with file := f3 } :=
        frameR_file h f3 (by rw [t1, s1, r1]) (by rw [t2, s2, r2]) (by rw [t3, s3, r3])
          (by rw [t4, s4, r4])
      cases err2 with
      | some e => exact h3
      | none =>
        simp only
        have hm := frameR_moveCursor h3 ((Varint b).1 + (Varint b).2)
        cases hmc : moveCursor { c with file := f3 } ((Varint b).1 + (Varint b).2) with
        | timeout => trivial
        | panic p c4 => rw [hmc] at hm; exact hm
        | ret v c4 => rw [hmc] at hm; exact hm

theorem frameR_isEnd {c0 c : Conn} (h : FrameR c0 c) (b : Bool) :
    FrameR c0 { c with isEnd := b } := h

theorem Read_frameR {c0 c : Conn} (h : FrameR c0 c) : (Read c).All (FrameR c0) := by
  have h0 := readElem_frameR h
  unfold Read
  cases hr : readElem c with
  | timeout => trivial
  | panic p c1 => rw [hr] at h0; exact h0
  | ret v c1 =>
    rw [hr] at h0
    have h0' : FrameR c0 c1 := h0
    obtain ⟨elem, err⟩ := v
    cases err with
    | none => exact h0
    | some e =>
      simp only
      split_ifs with g1 g2
      · rw [fileSeek_eq]
        split_ifs with g3 g4
        · exact h0
        · exact h0
        · have h2 : FrameR c0 { c1 with file := { c1.file with off := c1.cur.Pos.toNat } } :=
            frameR_file h0' _ rfl rfl rfl rfl
          simp only
          split_ifs with g5
          · cases ht : OsFile.Truncate { c1.file with off := c1.cur.Pos.toNat } c1.cur.Pos with
            | error e3 => exact h2
            | ok f =>
              simp only
              -- the handle holds the lock here, so nothing is claimed about the bytes
              have hl : c0.locked = true := by rw [← h0'.1]; exact g5
              unfold OsFile.Truncate at ht
              split_ifs at ht
              simp only [Except.ok.injEq] at ht
              subst ht
              obtain ⟨k1, k2, k3, k4, k5, k6⟩ := h0'
              exact ⟨k1, k2, k3, k4, k5, fun hf => by rw [hl] at hf; exact absurd hf (by simp)⟩
          · exact h2
      · exact h0
      · exact h0

theorem seekEndLoop_frameR {c0 : Conn} (fuel : Nat) : ∀ (c : Conn), FrameR c0 c →
    (seekEndLoop fuel c).All (FrameR c0) := by
  induction fuel with
  | zero => intro c _; trivial
  | succ k ih =>
    intro c h
    have h0 := Read_frameR h
    unfold seekEndLoop
    cases hr : Read c with
    | timeout => trivial
    | panic p c1 => rw [hr] at h0; exact h0
    | ret v c1 =>
      rw [hr] at h0
      obtain ⟨elem, err⟩ := v
      cases err with
      | none => exact ih c1 h0
      | some e => exact h0

theorem replayLoop_frameR {c0 : Conn} (index : Int) (fuel : Nat) : ∀ (c : Conn), FrameR c0 c →
    (replayLoop index fuel c).All (FrameR c0) := by
  induction fuel with
  | zero => intro c _; trivial
  | succ k ih =>
    intro c h
    have h0 := Read_frameR h
    unfold replayLoop
    split_ifs
    · cases hr : Read c with
      | timeout => trivial
      | panic p c1 => rw [hr] at h0; exact h0
      | ret v c1 =>
        rw [hr] at h0
        obtain ⟨elem, err⟩ := v
        cases err with
        | none => exact ih c1 h0
        | some e => exact h0
    · exact h

theorem seekEnd_frameR {c0 c : Conn} (h : FrameR c0 c) (fuel : Nat) :
    (seekEnd fuel c).All (FrameR c0) := by
  unfold seekEnd
  cases hl : c.cache.getLast? with
  | none => exact h
  | some cacheEnd =>
    simp only
    rw [fileSeek_eq]
    split_ifs
    · exact h
    · exact h
    · apply seekEndLoop_frameR
      exact frameR_file h _ rfl rfl rfl rfl

theorem seekIndex_frameR {c0 c : Conn} (h : FrameR c0 c) (fuel : Nat) (index : Int) :
    (seekIndex fuel c index).All (FrameR c0) := by
  unfold seekIndex
  split_ifs with h1 h2
  · exact h
  · exact h
  · cases hs : searchLoop c.cache index (c.cache.length + 1) 0 c.cache.length with
    | none => trivial
    | some r =>
      cases r with
      | none => exact h
      | some rc =>
        obtain ⟨ref, cacheEnd⟩ := rc
        simp only
        split_ifs with h3
        · rw [fileSeek_eq]
          split_ifs
          · exact h
          · exact h
          · apply replayLoop_frameR
            exact frameR_file h _ rfl rfl rfl rfl
        · apply replayLoop_frameR
          exact h

theorem seek_frameR {c0 c : Conn} (h : FrameR c0 c) (fuel : Nat) (offset whence : Int) :
    (seek fuel c offset whence).All (FrameR c0) := by
  unfold seek
  split_ifs
  · exact seekIndex_frameR h _ _
  · exact seekIndex_frameR h _ _
  · have h0 := seekEnd_frameR h fuel
    cases hr : seekEnd fuel c with
    | timeout => trivial
    | panic p c1 => rw [hr] at h0; exact h0
    | ret v c1 =>
      rw [hr] at h0
      cases v with
      | none => exact seekIndex_frameR h0 _ _
      | some e => exact h0
  · exact h

theorem after_all {α : Type} {P : Conn → Prop} {r : Res α} {c1 : Conn} (h : r.All P)
    (ha : r.after = some c1) : P c1 := by
  cases r with
  | timeout => simp [Res.after] at ha
  | panic p c2 => simp only [Res.after, Option.some.injEq] at ha; subst ha; exact h
  | ret v c2 => simp only [Res.after, Option.some.injEq] at ha; subst ha; exact h

theorem readStep_frameR {c0 c c1 : Conn} (h : FrameR c0 c) (hs : ReadStep c c1) :
    FrameR c0 c1 := by
  cases hs with
  | read _ _ hr => exact after_all (Read_frameR h) hr
  | seek fuel _ offset whence _ hr => exact after_all (seek_frameR h fuel offset whence) hr
  | seekEnd fuel _ _ hr => exact after_all (seekEnd_frameR h fuel) hr

theorem readSteps_frameR {c c1 : Conn} (hs : Relation.ReflTransGen ReadStep c c1) :
    FrameR c c1 := by
  induction hs with
  | refl => exact frameR_refl c
  | tail _ hstep ih => exact readStep_frameR ih hstep

/-! ## The descriptor's offset -/

theorem OsFile.Read_result (f : OsFile) (k : Nat) (hk : k ≠ 0) :
    (∃ e, f.Read k = ([], some e, f)) ∨
    (∃ got, got ≠ [] ∧ f.isOpen = true ∧
      f.Read k = (got, none, { f with off := f.off + got.length })) := by
  cases ho : f.isOpen
  · left; exact ⟨.ErrClosed, by simp [OsFile.Read, ho]⟩
  · by_cases hg : (f.data.drop f.off).take k = []
    · left; exact ⟨.EOF, by simp [OsFile.Read, ho, hk, hg]⟩
    · right
      refine ⟨(f.data.drop f.off).take k, hg, rfl, ?_⟩
      unfold OsFile.Read
      simp only [ho, not_true_eq_false, if_false, hk, hg]

theorem OsFile.ReadFull_off (f : OsFile) (k : Nat) (elem : List Byte) (f3 : OsFile)
    (h : f.ReadFull k = (elem, none, f3)) : f3.off = f.off + k := by
  by_cases hk : k = 0
  · simp only [OsFile.ReadFull, hk, if_true, Prod.mk.injEq, true_and] at h
    rw [← h.2, hk]; rfl
  · cases ho : f.isOpen
    · simp [OsFile.ReadFull, hk, ho] at h
    · by_cases hg : (f.data.drop f.off).take k = []
      · simp [OsFile.ReadFull, hk, ho, hg] at h
      · by_cases hl : ((f.data.drop f.off).take k).length < k
        · unfold OsFile.ReadFull at h
          simp only [hk, ho, not_true_eq_false, if_false, hg, hl, if_true, Prod.mk.injEq,
            reduceCtorEq, false_and, and_false] at h
        · unfold OsFile.ReadFull at h
          simp only [hk, ho, not_true_eq_false, if_false, hg, hl, Prod.mk.injEq, true_and] at h
          rw [← h.2]
          have : ((f.data.drop f.off).take k).length ≤ k := by
            rw [List.length_take]; omega
          simp only
          omega

theorem OsFile.Seek_current (f : OsFile) (offset : Int) (r : Int) (f1 : OsFile)
    (h : f.Seek offset SeekCurrent = .ok (r, f1)) : (f1.off : Int) = (f.off : Int) + offset := by
  obtain ⟨-, -, -, -, ho⟩ := OsFile.Seek_fields _ _ _ _ _ h
  have hne : ¬ (SeekCurrent = SeekStart) := by decide
  cases hopen : f.isOpen
  · simp [OsFile.Seek, hopen] at h
  · by_cases hneg : (f.off : Int) + offset < 0
    · simp [OsFile.Seek, hopen, hne, hneg] at h
    · unfold OsFile.Seek at h
      simp only [hopen, not_true_eq_false, if_false, hne, hneg, Except.ok.injEq,
        Prod.mk.injEq] at h
      rw [ho, ← h.1]

theorem moveCursor_ret (c : Conn) (offset : Int) (v : Unit) (c1 : Conn)
    (h : moveCursor c offset = .ret v c1) :
    c1.cur = ⟨c.cur.Index + 1, c.cur.Pos + offset⟩ ∧ c1.file = c.file := by
  unfold moveCursor at h
  simp only at h
  cases hl : c.cache.getLast? with
  | none => rw [hl] at h; simp at h
  | some last =>
    rw [hl] at h
    simp only at h
    by_cases hc : c.cur.Pos + offset - last.Pos ≥ stepCacheOffset
    · rw [if_pos hc] at h
      simp only [Res.ret.injEq, true_and] at h
      rw [← h]
      exact ⟨rfl, rfl⟩
    · rw [if_neg hc] at h
      simp only [Res.ret.injEq, true_and] at h
      rw [← h]
      exact ⟨rfl, rfl⟩

theorem readElem_sync (c : Conn) (h : Sync c) (v : Option (List Byte) × Option Err) (c1 : Conn)
    (hr : readElem c = .ret v c1) :
    (v.2 = none → Sync c1) ∧
    (∀ e, v.2 = some e →
      (e = .ErrUnexpectedEOF ∧ c1.cur = c.cur ∧ c1.file.isOpen = true) ∨
      e = .malformedData ∨ Sync c1) := by
  unfold readElem at hr
  have h10 : MaxVarintLen64 ≠ 0 := by decide
  rcases OsFile.Read_result c.file MaxVarintLen64 h10 with ⟨e0, hrd⟩ | ⟨b, hbne, hopen, hrd⟩
  · rw [hrd] at hr
    simp only [ne_eq, reduceCtorEq, not_false_eq_true, List.length_nil, or_true, and_self,
      if_true, Res.ret.injEq] at hr
    obtain ⟨rfl, rfl⟩ := hr
    exact ⟨fun hv => absurd hv (by simp), fun e _ => Or.inr (Or.inr h)⟩
  · rw [hrd] at hr
    simp only [ne_eq, not_true_eq_false, false_and, if_false] at hr
    by_cases g2 : (Varint b).2 = 0
    · rw [if_pos g2] at hr
      simp only [Res.ret.injEq] at hr
      obtain ⟨rfl, rfl⟩ := hr
      refine ⟨fun hv => absurd hv (by simp), fun e he => Or.inl ⟨?_, rfl, hopen⟩⟩
      simp only [Option.some.injEq] at he; exact he.symm
    · rw [if_neg g2] at hr
      by_cases g3 : (Varint b).2 < 0
      · rw [if_pos g3] at hr
        simp only [Res.ret.injEq] at hr
        obtain ⟨rfl, rfl⟩ := hr
        refine ⟨fun hv => absurd hv (by simp), fun e he => Or.inr (Or.inl ?_)⟩
        simp only [Option.some.injEq] at he; exact he.symm
      · rw [if_neg g3] at hr
        cases hs : OsFile.Seek { c.file with off := c.file.off + b.length }
            ((Varint b).2 - (b.length : Int)) SeekCurrent with
        | error e =>
          -- cannot happen: the target offset is not negative
          exfalso
          have hne : ¬ (SeekCurrent = SeekStart) := by decide
          unfold OsFile.Seek at hs
          simp only [hopen, not_true_eq_false, if_false, hne] at hs
          rw [if_neg (by push_cast; omega)] at hs
          simp at hs
        | ok r =>
          obtain ⟨sought, f2⟩ := r
          have ho2 := OsFile.Seek_current _ _ _ _ hs
          obtain ⟨-, s2, -, -, -⟩ := OsFile.Seek_fields _ _ _ _ _ hs
          simp only at ho2 s2
          rw [hs] at hr
          simp only at hr
          by_cases g4 : (Varint b).1 < 0 ∨ (Varint b).1 > (maxAlloc : Int)
          · rw [if_pos g4] at hr
            simp at hr
          · rw [if_neg g4] at hr
            rcases hf : f2.ReadFull (Varint b).1.toNat with ⟨elem, err2, f3⟩
            rw [hf] at hr
            cases err2 with
            | some e2 =>
              simp only [Res.ret.injEq] at hr
              obtain ⟨rfl, rfl⟩ := hr
              have hopen3 : f3.isOpen = true := by
                have := (OsFile.ReadFull_fields f2 (Varint b).1.toNat).2.1
                rw [hf] at this
                simp only at this
                rw [this, s2]; exact hopen
              -- the only errors of ReadFull on an open file are the two end-of-file errors
              have he2 : e2 = .EOF ∨ e2 = .ErrUnexpectedEOF := by
                have hopen2 : f2.isOpen = true := by rw [s2]; exact hopen
                unfold OsFile.ReadFull at hf
                dsimp only at hf
                by_cases hk : (Varint b).1.toNat = 0
                · simp [hk] at hf
                · by_cases hg : (f2.data.drop f2.off).take (Varint b).1.toNat = []
                  · simp only [hk, hopen2, not_true_eq_false, if_false, hg, if_true,
                      Prod.mk.injEq, Option.some.injEq] at hf
                    exact Or.inl hf.2.1.symm
                  · by_cases hl : ((f2.data.drop f2.off).take (Varint b).1.toNat).length <
                        (Varint b).1.toNat
                    · simp only [hk, hopen2, not_true_eq_false, if_false, hg, hl, if_true,
                        Prod.mk.injEq, Option.some.injEq] at hf
                      exact Or.inr hf.2.1.symm
                    · simp only [hk, hopen2, not_true_eq_false, if_false, hg, hl,
                        Prod.mk.injEq, reduceCtorEq, false_and, and_false] at hf
              refine ⟨fun hv => absurd hv (by simp), fun e he => Or.inl ⟨?_, rfl, hopen3⟩⟩
              simp only [Option.some.injEq] at he
              rw [← he]
              rcases he2 with he2 | he2 <;> simp [he2]
            | none =>
              simp only at hr
              have ho3 := OsFile.ReadFull_off _ _ _ _ hf
              cases hm : moveCursor { c with file := f3 } ((Varint b).1 + (Varint b).2) with
              | timeout => rw [hm] at hr; simp at hr
              | panic p c4 => rw [hm] at hr; simp at hr
              | ret u c4 =>
                rw [hm] at hr
                simp only [Res.ret.injEq] at hr
                obtain ⟨rfl, rfl⟩ := hr
                obtain ⟨hc, hfile⟩ := moveCursor_ret _ _ _ _ hm
                refine ⟨fun _ => ?_, fun e he => absurd he (by simp)⟩
                unfold Sync
                rw [hc, hfile]
                simp only
                rw [ho3]
                unfold Sync at h
                push_cast
                rw [ho2]
                push_cast
                omega

theorem sync_nonneg {c : Conn} (h : Sync c) : 0 ≤ c.cur.Pos := by
  unfold Sync at h; omega

theorem sync_fileSeek (c : Conn) (cur : cursor) (hp : ¬ cur.Pos < 0) :
    Sync { c with file := { c.file with off := cur.Pos.toNat }, cur := cur } := by
  unfold Sync
  simp only
  omega

theorem Read_sync (c : Conn) (h : Sync c) (v : Option (List Byte) × Option Err) (c1 : Conn)
    (hr : Read c = .ret v c1) (hv : v.2 ≠ some .malformedData) : Sync c1 := by
  unfold Read at hr
  cases hre : readElem c with
  | timeout => rw [hre] at hr; simp at hr
  | panic p c2 => rw [hre] at hr; simp at hr
  | ret w c2 =>
    obtain ⟨hs1, hs2⟩ := readElem_sync c h w c2 hre
    rw [hre] at hr
    obtain ⟨elem, err⟩ := w
    cases err with
    | none =>
      simp only [Res.ret.injEq] at hr
      obtain ⟨-, rfl⟩ := hr
      exact hs1 rfl
    | some e =>
      simp only at hr
      have hs3 := hs2 e rfl
      by_cases g1 : e = .ErrUnexpectedEOF
      · rw [if_pos g1, fileSeek_eq] at hr
        have hpos : ¬ c2.cur.Pos < 0 := by
          rcases hs3 with ⟨-, hc, -⟩ | hm | hs
          · rw [hc]; have := sync_nonneg h; omega
          · rw [g1] at hm; exact absurd hm (by simp)
          · have := sync_nonneg hs; omega
        by_cases g2 : c2.file.isOpen = false
        · rw [if_pos g2] at hr
          simp only [Res.ret.injEq] at hr
          obtain ⟨-, rfl⟩ := hr
          rcases hs3 with ⟨-, -, ho⟩ | hm | hs
          · rw [ho] at g2; exact absurd g2 (by simp)
          · rw [g1] at hm; exact absurd hm (by simp)
          · exact hs
        · rw [if_neg g2, if_neg hpos] at hr
          simp only at hr
          have hsy : Sync { c2 with file := { c2.file with off := c2.cur.Pos.toNat } } :=
            sync_fileSeek c2 c2.cur hpos
          by_cases g3 : c2.locked = true
          · rw [if_pos g3] at hr
            cases ht : OsFile.Truncate { c2.file with off := c2.cur.Pos.toNat } c2.cur.Pos with
            | error e3 =>
              rw [ht] at hr
              simp only [Res.ret.injEq] at hr
              obtain ⟨-, rfl⟩ := hr
              exact hsy
            | ok f =>
              rw [ht] at hr
              simp only [Res.ret.injEq] at hr
              obtain ⟨-, rfl⟩ := hr
              have hoff : f.off = c2.cur.Pos.toNat := by
                unfold OsFile.Truncate at ht
                split_ifs at ht
                simp only [Except.ok.injEq] at ht
                rw [← ht]
              unfold Sync
              simp only
              rw [hoff]
              omega
          · rw [if_neg g3] at hr
            simp only [Res.ret.injEq] at hr
            obtain ⟨-, rfl⟩ := hr
            exact hsy
      · rw [if_neg g1] at hr
        have hsy : Sync c2 := by
          rcases hs3 with ⟨he, -⟩ | hm | hs
          · exact absurd he g1
          · by_cases g2 : e = .EOF
            · rw [g2] at hm; exact absurd hm (by simp)
            · rw [if_neg g2] at hr
              simp only [Res.ret.injEq] at hr
              obtain ⟨rfl, -⟩ := hr
              rw [hm] at hv
              exact absurd rfl hv
          · exact hs
        by_cases g2 : e = .EOF
        · rw [if_pos g2] at hr
          simp only [Res.ret.injEq] at hr
          obtain ⟨-, rfl⟩ := hr
          exact hsy
        · rw [if_neg g2] at hr
          simp only [Res.ret.injEq] at hr
          obtain ⟨-, rfl⟩ := hr
          exact hsy

theorem seekEndLoop_sync (fuel : Nat) : ∀ (c : Conn), Sync c → ∀ (v : Option Err) (c1 : Conn),
    seekEndLoop fuel c = .ret v c1 → v ≠ some .malformedData → Sync c1 := by
  induction fuel with
  | zero => intro c _ v c1 hr _; simp [seekEndLoop] at hr
  | succ k ih =>
    intro c h v c1 hr hv
    unfold seekEndLoop at hr
    cases hrd : Read c with
    | timeout => rw [hrd] at hr; simp at hr
    | panic p c2 => rw [hrd] at hr; simp at hr
    | ret w c2 =>
      rw [hrd] at hr
      obtain ⟨elem, err⟩ := w
      cases err with
      | none => exact ih c2 (Read_sync c h _ c2 hrd (by simp)) v c1 hr hv
      | some e =>
        simp only [Res.ret.injEq] at hr
        obtain ⟨rfl, rfl⟩ := hr
        apply Read_sync c h _ _ hrd
        intro he
        simp only [Option.some.injEq] at he
        rw [he] at hv
        simp at hv

theorem replayLoop_sync (index : Int) (fuel : Nat) : ∀ (c : Conn), Sync c →
    ∀ (v : Int × Option Err) (c1 : Conn),
    replayLoop index fuel c = .ret v c1 → v.2 ≠ some .malformedData → Sync c1 := by
  induction fuel with
  | zero => intro c _ v c1 hr _; simp [replayLoop] at hr
  | succ k ih =>
    intro c h v c1 hr hv
    unfold replayLoop at hr
    by_cases hne : c.cur.Index ≠ index
    · rw [if_pos hne] at hr
      cases hrd : Read c with
      | timeout => rw [hrd] at hr; simp at hr
      | panic p c2 => rw [hrd] at hr; simp at hr
      | ret w c2 =>
        rw [hrd] at hr
        obtain ⟨elem, err⟩ := w
        cases err with
        | none => exact ih c2 (Read_sync c h _ c2 hrd (by simp)) v c1 hr hv
        | some e =>
          simp only [Res.ret.injEq] at hr
          obtain ⟨rfl, rfl⟩ := hr
          apply Read_sync c h _ _ hrd
          intro he
          simp only [Option.some.injEq] at he
          rw [he] at hv
          simp at hv
    · rw [if_neg hne] at hr
      simp only [Res.ret.injEq] at hr
      obtain ⟨-, rfl⟩ := hr
      exact h

theorem seekEnd_sync (fuel : Nat) (c : Conn) (h : Sync c) (v : Option Err) (c1 : Conn)
    (hr : seekEnd fuel c = .ret v c1) (hv : v ≠ some .malformedData) : Sync c1 := by
  unfold seekEnd at hr
  cases hl : c.cache.getLast? with
  | none => rw [hl] at hr; simp at hr
  | some e =>
    rw [hl] at hr
    simp only at hr
    rw [fileSeek_eq] at hr
    by_cases g1 : c.file.isOpen = false
    · rw [if_pos g1] at hr
      simp only [Res.ret.injEq] at hr
      obtain ⟨-, rfl⟩ := hr
      exact h
    · rw [if_neg g1] at hr
      by_cases g2 : e.Pos < 0
      · rw [if_pos g2] at hr
        simp only [Res.ret.injEq] at hr
        obtain ⟨-, rfl⟩ := hr
        exact h
      · rw [if_neg g2] at hr
        exact seekEndLoop_sync fuel _ (sync_fileSeek c e g2) v c1 hr hv

theorem seekIndex_sync (fuel : Nat) (c : Conn) (index : Int) (h : Sync c)
    (v : Int × Option Err) (c1 : Conn)
    (hr : seekIndex fuel c index = .ret v c1) (hv : v.2 ≠ some .malformedData) : Sync c1 := by
  unfold seekIndex at hr
  by_cases g1 : index = c.cur.Index
  · rw [if_pos g1] at hr
    simp only [Res.ret.injEq] at hr
    obtain ⟨-, rfl⟩ := hr
    exact h
  · rw [if_neg g1] at hr
    by_cases g2 : index < 0
    · rw [if_pos g2] at hr
      simp only [Res.ret.injEq] at hr
      obtain ⟨-, rfl⟩ := hr
      exact h
    · rw [if_neg g2] at hr
      cases hs : searchLoop c.cache index (c.cache.length + 1) 0 c.cache.length with
      | none => rw [hs] at hr; simp at hr
      | some r =>
        cases r with
        | none => rw [hs] at hr; simp at hr
        | some rc =>
          obtain ⟨ref, cacheEnd⟩ := rc
          rw [hs] at hr
          simp only at hr
          by_cases g3 : index < c.cur.Index ∨ ref.Index > c.cur.Index
          · rw [if_pos g3, fileSeek_eq] at hr
            by_cases g4 : c.file.isOpen = false
            · rw [if_pos g4] at hr
              simp only [Res.ret.injEq] at hr
              obtain ⟨-, rfl⟩ := hr
              exact h
            · rw [if_neg g4] at hr
              by_cases g5 : ref.Pos < 0
              · rw [if_pos g5] at hr
                simp only [Res.ret.injEq] at hr
                obtain ⟨-, rfl⟩ := hr
                exact h
              · rw [if_neg g5] at hr
                simp only at hr
                refine replayLoop_sync index fuel _ ?_ v c1 hr hv
                exact sync_fileSeek c ref g5
          · rw [if_neg g3] at hr
            simp only at hr
            refine replayLoop_sync index fuel _ ?_ v c1 hr hv
            exact h

theorem seek_sync (fuel : Nat) (c : Conn) (offset whence : Int) (h : Sync c)
    (v : Int × Option Err) (c1 : Conn)
    (hr : seek fuel c offset whence = .ret v c1) (hv : v.2 ≠ some .malformedData) :
    Sync c1 := by
  unfold seek at hr
  split_ifs at hr with g1 g2 g3
  · exact seekIndex_sync fuel c _ h v c1 hr hv
  · exact seekIndex_sync fuel c _ h v c1 hr hv
  · cases hse : seekEnd fuel c with
    | timeout => rw [hse] at hr; simp at hr
    | panic p c2 => rw [hse] at hr; simp at hr
    | ret w c2 =>
      rw [hse] at hr
      cases w with
      | none =>
        simp only at hr
        exact seekIndex_sync fuel c2 _ (seekEnd_sync fuel c h _ c2 hse (by simp)) v c1 hr hv
      | some e =>
        simp only [Res.ret.injEq] at hr
        obtain ⟨rfl, rfl⟩ := hr
        exact seekEnd_sync fuel c h _ _ hse (by simpa using hv)

theorem appendFrame_sync (c : Conn) (e : List Byte) (h : Sync c) (v : Option Err) (c1 : Conn)
    (hr : appendFrame c e = .ret v c1) : Sync c1 := by
  unfold appendFrame at hr
  simp only at hr
  cases hw : c.file.Write (PutVarint (e.length : Int) ++ e) with
  | error err =>
    rw [hw] at hr
    simp only [Res.ret.injEq] at hr
    obtain ⟨-, rfl⟩ := hr
    exact h
  | ok f =>
    rw [hw] at hr
    simp only at hr
    cases hm : moveCursor { c with file := f } ((PutVarint (e.length : Int) ++ e).length : Int) with
    | timeout => rw [hm] at hr; simp at hr
    | panic p c4 => rw [hm] at hr; simp at hr
    | ret u c4 =>
      rw [hm] at hr
      simp only [Res.ret.injEq] at hr
      obtain ⟨-, rfl⟩ := hr
      obtain ⟨hc, hfile⟩ := moveCursor_ret _ _ _ _ hm
      have hoff : f.off = c.file.off + (PutVarint (e.length : Int) ++ e).length := by
        unfold OsFile.Write at hw
        split_ifs at hw
        simp only [Except.ok.injEq] at hw
        rw [← hw]
      unfold Sync
      rw [hc, hfile]
      simp only
      rw [hoff]
      unfold Sync at h
      push_cast
      omega

theorem Append_sync (fuel : Nat) (c : Conn) (elem : Option (List Byte)) (h : Sync c)
    (v : Option Err) (c1 : Conn)
    (hr : Append fuel c elem = .ret v c1) (hv : v ≠ some .malformedData) : Sync c1 := by
  unfold Append at hr
  cases elem with
  | none => simp at hr
  | some e =>
    simp only at hr
    by_cases hE : c.isEnd = true
    · simp only [hE, not_true_eq_false, if_false] at hr
      exact appendFrame_sync c e h v c1 hr
    · simp only [hE, not_false_eq_true, if_true] at hr
      cases hse : seekEnd fuel c with
      | timeout => rw [hse] at hr; simp at hr
      | panic p c2 => rw [hse] at hr; simp at hr
      | ret w c2 =>
        rw [hse] at hr
        cases w with
        | none =>
          simp only at hr
          exact appendFrame_sync c2 e (seekEnd_sync fuel c h _ c2 hse (by simp)) v c1 hr
        | some e2 =>
          simp only [Res.ret.injEq] at hr
          obtain ⟨rfl, rfl⟩ := hr
          exact seekEnd_sync fuel c h _ _ hse hv

theorem Truncate_sync (fuel : Nat) (c : Conn) (size : Int) (h : Sync c)
    (v : Option Err) (c1 : Conn)
    (hr : Truncate fuel c size = .ret v c1) (hv : v ≠ some .malformedData) : Sync c1 := by
  unfold Truncate at hr
  cases hse : seek fuel c size SeekStart with
  | timeout => rw [hse] at hr; simp at hr
  | panic p c2 => rw [hse] at hr; simp at hr
  | ret w c2 =>
    rw [hse] at hr
    obtain ⟨i, err⟩ := w
    cases err with
    | some e =>
      simp only [Res.ret.injEq] at hr
      obtain ⟨rfl, rfl⟩ := hr
      exact seek_sync fuel c size SeekStart h _ _ hse (by simpa using hv)
    | none =>
      simp only at hr
      have h2 := seek_sync fuel c size SeekStart h _ c2 hse (by simp)
      cases ht : c2.file.Truncate c2.cur.Pos with
      | error e3 =>
        rw [ht] at hr
        simp only [Res.ret.injEq] at hr
        obtain ⟨-, rfl⟩ := hr
        exact h2
      | ok f =>
        rw [ht] at hr
        simp only [Res.ret.injEq] at hr
        obtain ⟨-, rfl⟩ := hr
        have hoff : f.off = c2.file.off := by
          unfold OsFile.Truncate at ht
          split_ifs at ht
          simp only [Except.ok.injEq] at ht
          rw [← ht]
        unfold Sync
        simp only
        rw [hoff]
        exact h2

/-! ## Closed forms of Append and Read -/

theorem moveCursor_eq (c : Conn) (offset : Int) (last : cursor)
    (hl : c.cache.getLast? = some last) :
    moveCursor c offset = .ret ()
      { c with
        cur := ⟨c.cur.Index + 1, c.cur.Pos + offset⟩
        cache := if c.cur.Pos + offset - last.Pos ≥ stepCacheOffset
          then c.cache ++ [⟨c.cur.Index + 1, c.cur.Pos + offset⟩] else c.cache } := by
  unfold moveCursor
  simp only [hl]
  split_ifs <;> rfl

theorem write_at_end (f : OsFile) (b : List Byte) (hopen : f.isOpen = true)
    (hrd : f.rdwr = true) (hoff : f.off = f.data.length) :
    f.Write b = .ok { f with data := f.data ++ b, off := f.off + b.length } := by
  unfold OsFile.Write
  simp only [hopen, hrd, not_true_eq_false, if_false]
  have e1 : f.data.take f.off = f.data := by
    rw [List.take_of_length_le (by rw [hoff])]
  have e2 : f.off - f.data.length = 0 := by rw [hoff]; omega
  have e3 : f.data.drop (f.off + b.length) = [] := by
    rw [List.drop_of_length_le (by rw [hoff]; omega)]
  rw [e1, e2, e3]
  simp

theorem appendFrame_eq (c : Conn) (e : List Byte) (last : cursor) (hopen : c.file.isOpen = true)
    (hrd : c.file.rdwr = true) (hoff : c.file.off = c.file.data.length)
    (hl : c.cache.getLast? = some last) :
    appendFrame c e = .ret none
      { c with
        file := { c.file with data := c.file.data ++ frame e,
                              off := c.file.off + (frame e).length }
        cur := ⟨c.cur.Index + 1, c.cur.Pos + ((frame e).length : Int)⟩
        cache := if c.cur.Pos + ((frame e).length : Int) - last.Pos ≥ stepCacheOffset
          then c.cache ++ [⟨c.cur.Index + 1, c.cur.Pos + ((frame e).length : Int)⟩]
          else c.cache } := by
  unfold appendFrame
  simp only
  have : PutVarint (e.length : Int) ++ e = frame e := rfl
  rw [this, write_at_end c.file (frame e) hopen hrd hoff]
  simp only
  rw [moveCursor_eq ⟨⟨c.file.data ++ frame e, c.file.off + (frame e).length, c.file.rdwr,
    c.file.isOpen, c.file.name⟩, c.locked, c.closed, c.isEnd, c.cur, c.cache⟩ _ last hl]

theorem Read_frame_eq {ps : List (List Byte)} {tail : List Byte} {c : Conn} (h : Inv0 ps tail c)
    {i : Nat} (hi : c.cur.Index = (i : Int)) {p : List Byte} (hp : ps[i]? = some p)
    (last : cursor) (hl : c.cache.getLast? = some last) :
    Read c = .ret (some p, none)
      { c with
        file := { c.file with off := c.file.off + (frame p).length }
        cur := ⟨c.cur.Index + 1, c.cur.Pos + ((frame p).length : Int)⟩
        cache := if c.cur.Pos + ((frame p).length : Int) - last.Pos ≥ stepCacheOffset
          then c.cache ++ [⟨c.cur.Index + 1, c.cur.Pos + ((frame p).length : Int)⟩]
          else c.cache } := by
  obtain ⟨hdata, hbound, hopen, hmode, hsync, hcur, hcache, hvalid⟩ := h
  have hpb : p.length ≤ maxAlloc := hbound p (List.getElem?_mem hp)
  have hpos : c.cur.Pos = (posOf ps i : Int) := by
    rw [hcur.2.2, hi]; simp
  have hoff : c.file.off = (encode (ps.take i)).length := by
    have : (c.file.off : Int) = (posOf ps i : Int) := by rw [hsync, hpos]
    exact_mod_cast this
  have hd : c.file.data = encode (ps.take i) ++ frame p ++ (encode (ps.drop (i + 1)) ++ tail) := by
    rw [hdata, encode_split ps i p hp]
    simp [List.append_assoc]
  have hre := readElem_frame c _ p _ hopen hd hoff hpb
  rw [moveCursor_eq ⟨⟨c.file.data, (encode (ps.take i)).length + (frame p).length, c.file.rdwr,
    c.file.isOpen, c.file.name⟩, c.locked, c.closed, c.isEnd, c.cur, c.cache⟩ _ last hl] at hre
  unfold Read
  rw [hre, hoff]

/-! ## Unterminated length prefixes, and torn tails on read-only handles -/

theorem uvarintLoop_continuation : ∀ (bs : List Byte) (i x s : Nat),
    (∀ b ∈ bs, ¬ b < 0x80) → i + bs.length ≤ 10 → uvarintLoop bs i x s = (0, 0) := by
  intro bs
  induction bs with
  | nil => intro i x s _ _; rfl
  | cons b bs ih =>
    intro i x s hall hlen
    rw [uvarintLoop_cons]
    simp only [List.length_cons] at hlen
    rw [if_neg (by omega), if_neg (hall b (List.mem_cons_self _ _))]
    exact ih _ _ _ (fun y hy => hall y (List.mem_cons_of_mem _ hy)) (by omega)

theorem Varint_continuation (bs : List Byte) (hall : ∀ b ∈ bs, ¬ b < 0x80)
    (hlen : bs.length ≤ 10) : Varint bs = (0, 0) := by
  have hu : Uvarint bs = (0, 0) := uvarintLoop_continuation bs 0 0 0 hall (by omega)
  unfold Varint
  simp [hu]

theorem readElem_continuation (c : Conn) (hd rest : List Byte) (hopen : c.file.isOpen = true)
    (hlen : hd.length = 10) (hall : ∀ b ∈ hd, ¬ b < 0x80)
    (hdata : c.file.data.drop c.file.off = hd ++ rest) :
    readElem c = .ret (none, some .ErrUnexpectedEOF)
      { c with file := { c.file with off := c.file.off + 10 } } := by
  have hgot : (c.file.data.drop c.file.off).take 10 = hd := by
    rw [hdata, List.take_append_of_le_length (by omega), List.take_of_length_le (by omega)]
  have hne : hd ≠ [] := by
    intro h; rw [h] at hlen; simp at hlen
  have hV := Varint_continuation hd hall (by omega)
  have hread : c.file.Read MaxVarintLen64 =
      (hd, none, { c.file with off := c.file.off + hd.length }) := by
    simp [OsFile.Read, hopen, MaxVarintLen64, hgot, hne]
  unfold readElem
  rw [hread]
  simp [hV, hlen]

theorem Read_readOnly_torn {ps : List (List Byte)} {t : List Byte} {c : Conn} (h : Inv0 ps t c)
    (q : List Byte) (hlock : c.locked = false) (ht : TornOf q t) :
    ∃ c1, Inv0 ps t c1 ∧ c1.locked = false ∧ c1.cur.Index ≤ (ps.length : Int) ∧
      ∃ elem, Read c = .ret (elem, none) c1 := by
  have hv := h.2.2.2.2.2.1
  obtain ⟨i, hi⟩ : ∃ i : Nat, c.cur.Index = (i : Int) := ⟨c.cur.Index.toNat, by have := hv.1; omega⟩
  by_cases hlt : i < ps.length
  · obtain ⟨c1, hr, h1, hi1, -, hl1⟩ := Read_frame h hi (List.getElem?_eq_getElem hlt)
    exact ⟨c1, h1, by rw [hl1, hlock], by omega, _, hr⟩
  · have hN : c.cur.Index = (ps.length : Int) := by have := hv.2.1; omega
    exact ⟨c, h, hlock, by omega, none, Read_torn_readOnly h hN q hlock ht⟩

theorem seekEndLoop_readOnly_torn {ps : List (List Byte)} {t : List Byte} (q : List Byte)
    (ht : TornOf q t) (fuel : Nat) : ∀ (c : Conn), Inv0 ps t c → c.locked = false →
    seekEndLoop fuel c = .timeout := by
  induction fuel with
  | zero => intro c _ _; rfl
  | succ k ih =>
    intro c h hlock
    obtain ⟨c1, h1, hl1, -, elem, hr⟩ := Read_readOnly_torn h q hlock ht
    unfold seekEndLoop
    simp only [hr]
    exact ih c1 h1 hl1

theorem replayLoop_readOnly_torn {ps : List (List Byte)} {t : List Byte} (q : List Byte)
    (ht : TornOf q t) (index : Int) (hidx : (ps.length : Int) < index) (fuel : Nat) :
    ∀ (c : Conn), Inv0 ps t c → c.locked = false → replayLoop index fuel c = .timeout := by
  induction fuel with
  | zero => intro c _ _; rfl
  | succ k ih =>
    intro c h hlock
    obtain ⟨c1, h1, hl1, -, elem, hr⟩ := Read_readOnly_torn h q hlock ht
    have hne : c.cur.Index ≠ index := by have := h.2.2.2.2.2.1.2.1; omega
    unfold replayLoop
    simp only [hne, ne_eq, not_false_eq_true, if_true, hr]
    exact ih c1 h1 hl1

theorem seekEnd_readOnly_torn {ps : List (List Byte)} {t : List Byte} {c : Conn}
    (h : Inv0 ps t c) (q : List Byte) (hlock : c.locked = false) (ht : TornOf q t)
    (fuel : Nat) : seekEnd fuel c = .timeout := by
  obtain ⟨hdata, hbound, hopen, hmode, hsync, hcur, hcache, hvalid⟩ := h
  obtain ⟨e, hl⟩ : ∃ e, c.cache.getLast? = some e := by
    cases hc : c.cache.getLast? with
    | none =>
      rw [List.getLast?_eq_none_iff] at hc
      exact absurd hc (cacheOK_ne_nil hcache)
    | some l => exact ⟨l, rfl⟩
  have hev : Valid ps e := hvalid e (List.mem_of_getLast?_eq_some hl)
  rw [seekEnd_step fuel c e hl]
  have hpos : ¬ e.Pos < 0 := by have := hev.2.2; omega
  rw [if_neg (by simp [hopen]), if_neg hpos]
  have hinv : Inv0 ps t { c with file := { c.file with off := e.Pos.toNat }, cur := e } := by
    refine ⟨hdata, hbound, hopen, hmode, ?_, hev, cacheOK_getLast hcache hl, hvalid⟩
    show ((e.Pos.toNat : Nat) : Int) = e.Pos
    omega
  exact seekEndLoop_readOnly_torn q ht fuel _ hinv hlock

theorem seekIndex_readOnly_torn {ps : List (List Byte)} {t : List Byte} {c : Conn}
    (h : Inv0 ps t c) (q : List Byte) (hlock : c.locked = false) (ht : TornOf q t)
    (index : Int) (hidx : (ps.length : Int) < index) (fuel : Nat) :
    seekIndex fuel c index = .timeout := by
  obtain ⟨hdata, hbound, hopen, hmode, hsync, hcur, hcache, hvalid⟩ := h
  have heq : index ≠ c.cur.Index := by have := hcur.2.1; omega
  obtain ⟨ref, m, hs, hm, hle⟩ := cacheOK_search hcache index (by omega)
  have hrv : Valid ps ref := hvalid ref (mem_of_getElem? hm)
  rw [seekIndex_step fuel c index ref m heq (by omega) hs]
  have hsub : ∀ e ∈ c.cache.take (m + 1), Valid ps e :=
    fun e he => hvalid e (List.mem_of_mem_take he)
  by_cases hc : index < c.cur.Index ∨ ref.Index > c.cur.Index
  · have hinv : Inv0 ps t { c with
        file := { c.file with off := ref.Pos.toNat }
        cur := ref
        cache := c.cache.take (m + 1)
        isEnd := false } := by
      refine ⟨hdata, hbound, hopen, hmode, ?_, hrv, cacheOK_take_ref hcache hm, hsub⟩
      show ((ref.Pos.toNat : Nat) : Int) = ref.Pos
      have := hrv.2.2
      omega
    have hpos : ¬ ref.Pos < 0 := by have := hrv.2.2; omega
    rw [if_pos hc, if_neg (by simp [hopen]), if_neg hpos]
    exact replayLoop_readOnly_torn q ht index hidx fuel _ hinv hlock
  · have hinv : Inv0 ps t { c with cache := c.cache.take (m + 1), isEnd := false } :=
      ⟨hdata, hbound, hopen, hmode, hsync, hcur, cacheOK_take hcache m, hsub⟩
    rw [if_neg hc]
    exact replayLoop_readOnly_torn q ht index hidx fuel _ hinv hlock

/-! ## The checkpoint search -/

theorem searchLoop_spec (cache : List cursor) (index : Int) (fuel : Nat) :
    ∀ (left right : Nat), left < right → right ≤ cache.length →
      (∃ e, cache[left]? = some e ∧ e.Index ≤ index) →
      (∀ e, cache[right]? = some e → index < e.Index) → right - left ≤ fuel →
      ∃ ref m, searchLoop cache index fuel left right = some (some (ref, m + 1)) ∧
        cache[m]? = some ref ∧ ref.Index ≤ index ∧
        ∀ e, cache[m + 1]? = some e → index < e.Index := by
  induction fuel with
  | zero => intro left right h1 _ _ _ h4; omega
  | succ k ih =>
    intro left right h1 h2 h3 hR h4
    have hmid : (left + right) / 2 < cache.length := by omega
    unfold searchLoop
    simp only [List.getElem?_eq_getElem hmid]
    split_ifs with h5 h6
    · have hne : left ≠ (left + right) / 2 := by
        intro heq
        obtain ⟨e, he, hle⟩ := h3
        have he2 : cache[(left + right) / 2]? = some e := by rw [← heq]; exact he
        rw [List.getElem?_eq_getElem hmid] at he2
        have := Option.some.inj he2
        rw [this] at h5
        omega
      refine ih _ _ (by omega) (by omega) h3 ?_ (by omega)
      intro e he
      rw [List.getElem?_eq_getElem hmid] at he
      have := Option.some.inj he
      rw [← this]
      omega
    · exact ih _ _ (by omega) h2 ⟨_, List.getElem?_eq_getElem hmid, by omega⟩ hR (by omega)
    · have hl : left = (left + right) / 2 := by
        by_contra hx; exact h6 hx
      have hr : (left + right) / 2 + 1 = right := by omega
      refine ⟨_, _, rfl, List.getElem?_eq_getElem hmid, by omega, ?_⟩
      rw [hr]
      exact hR

theorem pairwise_index_le {cache : List cursor}
    (hinc : cache.Pairwise (fun a b => a.Index < b.Index)) {i j : Nat} {a b : cursor}
    (ha : cache[i]? = some a) (hb : cache[j]? = some b) (hij : i ≤ j) : a.Index ≤ b.Index := by
  have hi := getElem?_lt ha
  have hj := getElem?_lt hb
  rw [List.getElem?_eq_getElem hi] at ha
  rw [List.getElem?_eq_getElem hj] at hb
  have ha2 := Option.some.inj ha
  have hb2 := Option.some.inj hb
  rcases Nat.lt_or_eq_of_le hij with hlt | heq
  · have := List.pairwise_iff_getElem.mp hinc i j hi hj hlt
    rw [ha2, hb2] at this
    omega
  · subst heq
    rw [ha2] at hb2
    rw [hb2]

theorem search_greatest {cache : List cursor}
    (hinc : cache.Pairwise (fun a b => a.Index < b.Index)) {index : Int} {m : Nat}
    {ref : cursor} (hm : cache[m]? = some ref)
    (hnext : ∀ e, cache[m + 1]? = some e → index < e.Index) :
    (∀ e ∈ cache, e.Index ≤ index → e.Index ≤ ref.Index) ∧
    (∀ e ∈ cache.take (m + 1), e.Index ≤ ref.Index) ∧
    (∀ e ∈ cache.drop (m + 1), index < e.Index) := by
  have hdrop : ∀ e ∈ cache.drop (m + 1), index < e.Index := by
    intro e he
    obtain ⟨k, hk⟩ := List.getElem?_of_mem he
    rw [List.getElem?_drop] at hk
    have hlt := getElem?_lt hk
    have h1 : m + 1 < cache.length := by omega
    have h2 := hnext _ (List.getElem?_eq_getElem h1)
    have h3 := pairwise_index_le hinc (List.getElem?_eq_getElem h1) hk (by omega)
    omega
  have htake : ∀ e ∈ cache.take (m + 1), e.Index ≤ ref.Index := by
    intro e he
    obtain ⟨k, hk⟩ := List.getElem?_of_mem he
    have hklt := getElem?_lt hk
    rw [List.length_take] at hklt
    rw [List.getElem?_take_of_lt (by omega)] at hk
    exact pairwise_index_le hinc hk hm (by omega)
  refine ⟨?_, htake, hdrop⟩
  intro e he hle
  rw [← List.take_append_drop (m + 1) cache] at he
  rcases List.mem_append.mp he with h1 | h1
  · exact htake e h1
  · have := hdrop e h1
    omega

theorem moveCursor_shape (c : Conn) (offset : Int) :
    (moveCursor c offset).All (fun c1 => c1.cur.Index = c.cur.Index + 1 ∧
      (c1.cache = c.cache ∨ c1.cache = c.cache ++ [c1.cur])) := by
  unfold moveCursor
  simp only
  cases c.cache.getLast? with
  | none => exact ⟨rfl, Or.inl rfl⟩
  | some last =>
    simp only
    split_ifs
    · exact ⟨rfl, Or.inr rfl⟩
    · exact ⟨rfl, Or.inl rfl⟩

theorem readElem_shape (c : Conn) :
    (readElem c).All (fun c1 => (c1.cur = c.cur ∧ c1.cache = c.cache) ∨
      (c1.cur.Index = c.cur.Index + 1 ∧
        (c1.cache = c.cache ∨ c1.cache = c.cache ++ [c1.cur]))) := by
  unfold readElem
  rcases hr : c.file.Read MaxVarintLen64 with ⟨b, err, f1⟩
  simp only
  split_ifs with h1 h2 h3 h4
  · exact Or.inl ⟨rfl, rfl⟩
  · exact Or.inl ⟨rfl, rfl⟩
  · exact Or.inl ⟨rfl, rfl⟩
  · cases hs : f1.Seek ((Varint b).2 - (b.length : Int)) SeekCurrent with
    | error e => exact Or.inl ⟨rfl, rfl⟩
    | ok r => exact Or.inl ⟨rfl, rfl⟩
  · cases hs : f1.Seek ((Varint b).2 - (b.length : Int)) SeekCurrent with
    | error e => exact Or.inl ⟨rfl, rfl⟩
    | ok r =>
      obtain ⟨sought, f2⟩ := r
      simp only
      rcases hf : f2.ReadFull (Varint b).1.toNat with ⟨elem, err2, f3⟩
      cases err2 with
      | some e => exact Or.inl ⟨rfl, rfl⟩
      | none =>
        simp only
        have hm := moveCursor_shape { c with file := f3 } ((Varint b).1 + (Varint b).2)
        cases hmc : moveCursor { c with file := f3 } ((Varint b).1 + (Varint b).2) with
        | timeout => trivial
        | panic p c4 => rw [hmc] at hm; exact Or.inr hm
        | ret v c4 => rw [hmc] at hm; exact Or.inr hm

theorem Read_shape (c : Conn) :
    (Read c).All (fun c1 => (c1.cur = c.cur ∧ c1.cache = c.cache) ∨
      (c1.cur.Index = c.cur.Index + 1 ∧
        (c1.cache = c.cache ∨ c1.cache = c.cache ++ [c1.cur]))) := by
  have h0 := readElem_shape c
  unfold Read
  cases hr : readElem c with
  | timeout => trivial
  | panic p c1 => rw [hr] at h0; exact h0
  | ret v c1 =>
    rw [hr] at h0
    obtain ⟨elem, err⟩ := v
    cases err with
    | none => exact h0
    | some e =>
      simp only
      split_ifs with h1 h2
      · rw [fileSeek_eq]
        split_ifs with g3 g4
        · exact h0
        · exact h0
        · simp only
          split_ifs with g5
          · cases ht : OsFile.Truncate { c1.file with off := c1.cur.Pos.toNat } c1.cur.Pos with
            | error e3 => exact h0
            | ok f => exact h0
          · exact h0
      · exact h0
      · exact h0

theorem replayLoop_le (index : Int) (fuel : Nat) : ∀ (c : Conn) (v : Int) (c1 : Conn),
    c.cur.Index ≤ index → (∀ e ∈ c.cache, e.Index ≤ index) →
    replayLoop index fuel c = .ret (v, none) c1 →
    v = index ∧ c1.cur.Index = index ∧ ∀ e ∈ c1.cache, e.Index ≤ index := by
  induction fuel with
  | zero => intro c v c1 _ _ h; simp [replayLoop] at h
  | succ k ih =>
    intro c v c1 hle hc h
    unfold replayLoop at h
    by_cases hne : c.cur.Index = index
    · simp only [hne, ne_eq, not_true_eq_false, if_false, Res.ret.injEq, Prod.mk.injEq,
        and_true] at h
      obtain ⟨e1, e2⟩ := h
      subst e2
      exact ⟨e1.symm, hne, hc⟩
    · simp only [hne, ne_eq, not_false_eq_true, if_true] at h
      have hs := Read_shape c
      cases hr : Read c with
      | timeout => rw [hr] at h; simp at h
      | panic p c2 => rw [hr] at h; simp at h
      | ret w c2 =>
        rw [hr] at h hs
        obtain ⟨elem, err⟩ := w
        cases err with
        | some e => simp at h
        | none =>
          simp only at h
          have hs2 : (c2.cur = c.cur ∧ c2.cache = c.cache) ∨
            (c2.cur.Index = c.cur.Index + 1 ∧
              (c2.cache = c.cache ∨ c2.cache = c.cache ++ [c2.cur])) := hs
          refine ih c2 v c1 ?_ ?_ h
          · rcases hs2 with ⟨e1, -⟩ | ⟨e1, -⟩
            · rw [e1]; exact hle
            · omega
          · intro e he
            rcases hs2 with ⟨-, e2⟩ | ⟨e1, e2 | e2⟩
            · rw [e2] at he; exact hc e he
            · rw [e2] at he; exact hc e he
            · rw [e2] at he
              rcases List.mem_append.mp he with he | he
              · exact hc e he
              · rw [List.mem_singleton.mp he]; omega

theorem searchLoop_mono (cache : List cursor) (index : Int) (fuel : Nat) :
    ∀ (left right : Nat) (x : Option (cursor × Nat)),
      searchLoop cache index fuel left right = some x →
      ∀ fuel2, fuel ≤ fuel2 → searchLoop cache index fuel2 left right = some x := by
  induction fuel with
  | zero => intro left right x h; simp [searchLoop] at h
  | succ k ih =>
    intro left right x h fuel2 hle
    obtain ⟨k2, rfl⟩ : ∃ k2, fuel2 = k2 + 1 := ⟨fuel2 - 1, by omega⟩
    unfold searchLoop at h ⊢
    simp only at h ⊢
    cases hm : cache[(left + right) / 2]? with
    | none => rw [hm] at h; exact h
    | some cm =>
      rw [hm] at h
      simp only at h ⊢
      split_ifs at h ⊢ with h5 h6
      · exact ih _ _ _ h k2 (by omega)
      · exact ih _ _ _ h k2 (by omega)
      · exact h

theorem seek_start_of_search (fuel : Nat) (c : Conn) (index : Int) (ref : cursor) (m : Nat)
    (hne : index ≠ c.cur.Index) (h0 : ¬ index < 0)
    (hs : searchLoop c.cache index (c.cache.length + 1) 0 c.cache.length =
      some (some (ref, m + 1))) :
    seek fuel c index SeekStart =
      if index < c.cur.Index ∨ ref.Index > c.cur.Index then
        if c.file.isOpen = false then .ret (-1, some .ErrClosed) c
        else if ref.Pos < 0 then .ret (-1, some .EINVAL) c
        else replayLoop index fuel
          { c with
            file := { c.file with off := ref.Pos.toNat }
            cur := ref
            cache := c.cache.take (m + 1)
            isEnd := false }
      else replayLoop index fuel { c with cache := c.cache.take (m + 1), isEnd := false } := by
  unfold seek
  rw [if_pos rfl]
  exact seekIndex_step fuel c index ref m hne h0 hs

/-! ## Fields that only Close changes -/

theorem appendFrame_fixed (c : Conn) (e : List Byte) :
    (appendFrame c e).All (fun c1 => c1.locked = c.locked ∧ c1.closed = c.closed ∧
      c1.file.name = c.file.name ∧ c1.file.isOpen = c.file.isOpen) := by
  unfold appendFrame
  simp only
  cases hw : c.file.Write (PutVarint (e.length : Int) ++ e) with
  | error err => exact ⟨rfl, rfl, rfl, rfl⟩
  | ok f =>
    have hf : f.name = c.file.name ∧ f.isOpen = c.file.isOpen := by
      unfold OsFile.Write at hw
      split_ifs at hw
      simp only [Except.ok.injEq] at hw
      rw [← hw]
      exact ⟨rfl, rfl⟩
    simp only
    have hm := moveCursor_file { c with file := f }
      ((PutVarint (e.length : Int) ++ e).length : Int)
    cases hmc : moveCursor { c with file := f }
        ((PutVarint (e.length : Int) ++ e).length : Int) with
    | timeout => trivial
    | panic p c2 =>
      rw [hmc] at hm
      obtain ⟨e1, e2, e3, -⟩ := hm
      exact ⟨e2, e3, by rw [e1]; exact hf.1, by rw [e1]; exact hf.2⟩
    | ret v c2 =>
      rw [hmc] at hm
      obtain ⟨e1, e2, e3, -⟩ := hm
      exact ⟨e2, e3, by rw [e1]; exact hf.1, by rw [e1]; exact hf.2⟩

theorem step_fixed {c c1 : Conn} (hs : Step c c1) :
    c1.locked = c.locked ∧ c1.closed = c.closed ∧ c1.file.name = c.file.name ∧
      c1.file.isOpen = c.file.isOpen := by
  have hF : ∀ {a b : Conn}, FrameR a b → b.locked = a.locked ∧ b.closed = a.closed ∧
      b.file.name = a.file.name ∧ b.file.isOpen = a.file.isOpen :=
    fun h => ⟨h.1, h.2.1, h.2.2.1, h.2.2.2.1⟩
  cases hs with
  | read _ _ hr => exact hF (after_all (Read_frameR (frameR_refl c)) hr)
  | seek fuel _ offset whence _ hr =>
    exact hF (after_all (seek_frameR (frameR_refl c) fuel offset whence) hr)
  | seekEnd fuel _ _ hr => exact hF (after_all (seekEnd_frameR (frameR_refl c) fuel) hr)
  | append fuel _ elem _ hr =>
    cases elem with
    | none =>
      simp only [Append, Res.after, Option.some.injEq] at hr
      subst hr
      exact ⟨rfl, rfl, rfl, rfl⟩
    | some e =>
      unfold Append at hr
      simp only at hr
      split_ifs at hr with hE
      · exact after_all (appendFrame_fixed c e) hr
      · have h1 := seekEnd_frameR (frameR_refl c) fuel
        cases hse : seekEnd fuel c with
        | timeout => rw [hse] at hr; simp [Res.after] at hr
        | panic p c2 =>
          rw [hse] at hr h1
          simp only [Res.after, Option.some.injEq] at hr
          subst hr
          exact hF h1
        | ret v c2 =>
          rw [hse] at hr h1
          have h2 := hF (show FrameR c c2 from h1)
          cases v with
          | some err =>
            simp only [Res.after, Option.some.injEq] at hr
            subst hr
            exact h2
          | none =>
            simp only at hr
            obtain ⟨a1, a2, a3, a4⟩ := after_all (appendFrame_fixed c2 e) hr
            exact ⟨by rw [a1, h2.1], by rw [a2, h2.2.1], by rw [a3, h2.2.2.1],
              by rw [a4, h2.2.2.2]⟩
  | truncate fuel _ size _ hr =>
    unfold Truncate at hr
    have h1 := seek_frameR (frameR_refl c) fuel size SeekStart
    cases hse : seek fuel c size SeekStart with
    | timeout => rw [hse] at hr; simp [Res.after] at hr
    | panic p c2 =>
      rw [hse] at hr h1
      simp only [Res.after, Option.some.injEq] at hr
      subst hr
      exact hF h1
    | ret v c2 =>
      rw [hse] at hr h1
      have h2 := hF (show FrameR c c2 from h1)
      obtain ⟨i, err⟩ := v
      cases err with
      | some err =>
        simp only [Res.after, Option.some.injEq] at hr
        subst hr
        exact h2
      | none =>
        simp only at hr
        cases ht : c2.file.Truncate c2.cur.Pos with
        | error e3 =>
          rw [ht] at hr
          simp only [Res.after, Option.some.injEq] at hr
          subst hr
          exact h2
        | ok f =>
          rw [ht] at hr
          simp only [Res.after, Option.some.injEq] at hr
          subst hr
          have hf : f.name = c2.file.name ∧ f.isOpen = c2.file.isOpen := by
            unfold OsFile.Truncate at ht
            split_ifs at ht
            simp only [Except.ok.injEq] at ht
            rw [← ht]
            exact ⟨rfl, rfl⟩
          exact ⟨h2.1, h2.2.1, by rw [← h2.2.2.1]; exact hf.1, by rw [← h2.2.2.2]; exact hf.2⟩

theorem steps_fixed {c c1 : Conn} (hs : Relation.ReflTransGen Step c c1) :
    c1.locked = c.locked ∧ c1.closed = c.closed ∧ c1.file.name = c.file.name ∧
      c1.file.isOpen = c.file.isOpen := by
  induction hs with
  | refl => exact ⟨rfl, rfl, rfl, rfl⟩
  | tail _ h2 ih =>
    obtain ⟨a1, a2, a3, a4⟩ := step_fixed h2
    exact ⟨by rw [a1, ih.1], by rw [a2, ih.2.1], by rw [a3, ih.2.2.1], by rw [a4, ih.2.2.2]⟩

/-! ## Canonical checkpoint lists -/

theorem canonical_init (ps : List (List Byte)) : Canonical ps 0 [⟨0, 0⟩] := by
  refine ⟨rfl, ?_, List.chain'_singleton _, ?_⟩
  · intro e he
    rw [List.mem_singleton.mp he]
    refine ⟨⟨le_refl _, ?_, ?_⟩, le_refl _⟩
    · show (0 : Int) ≤ (ps.length : Int)
      omega
    · show (0 : Int) = ((posOf ps (0 : Int).toNat : Nat) : Int)
      rw [show (0 : Int).toNat = 0 from rfl, posOf_zero]
      rfl
  · intro last hl j h1 h2
    simp only [List.getLast?_singleton, Option.some.injEq] at hl
    subst hl
    have h3 : (0 : Int) < (j : Int) := h1
    omega

theorem canonical_move {ps : List (List Byte)} {i : Int} {l : List cursor} {last : cursor}
    (h : Canonical ps i l) (hl : l.getLast? = some last) (nc : cursor) (hnc : Valid ps nc)
    (hidx : nc.Index = i + 1) :
    Canonical ps (i + 1) (if nc.Pos - last.Pos ≥ stepCacheOffset then l ++ [nc] else l) := by
  obtain ⟨hh, he, hc, hlast⟩ := h
  have hlm : last ∈ l := List.mem_of_getLast?_eq_some hl
  have hli := (he last hlm).2
  split_ifs with hge
  · refine ⟨?_, ?_, ?_, ?_⟩
    · cases l with
      | nil => simp at hh
      | cons a r => simpa using hh
    · intro e hmem
      rcases List.mem_append.mp hmem with h1 | h1
      · exact ⟨(he e h1).1, by have := (he e h1).2; omega⟩
      · rw [List.mem_singleton.mp h1]
        exact ⟨hnc, by omega⟩
    · rw [List.chain'_append]
      refine ⟨hc, List.chain'_singleton _, ?_⟩
      intro x hx y hy
      rw [hl] at hx
      simp only [Option.mem_def, Option.some.injEq] at hx
      simp only [List.head?_cons, Option.mem_def, Option.some.injEq] at hy
      subst hx hy
      refine ⟨by omega, by omega, ?_⟩
      intro j h1 h2
      exact hlast _ hl j h1 (by omega)
    · intro la hla j h1 h2
      rw [List.getLast?_append] at hla
      have hla2 : nc = la := by
        simpa [Option.or] using hla
      subst hla2
      omega
  · refine ⟨hh, fun e hmem => ⟨(he e hmem).1, by have := (he e hmem).2; omega⟩, hc, ?_⟩
    intro la hla j h1 h2
    rw [hl] at hla
    simp only [Option.some.injEq] at hla
    subst hla
    by_cases hj : (j : Int) ≤ i
    · exact hlast _ hl j h1 hj
    · have hjj : nc.Index.toNat = j := by omega
      have := hnc.2.2
      rw [hjj] at this
      omega

theorem pairwise_index {cur : cursor} {l : List cursor} (h : CacheOK cur l) :
    l.Pairwise (fun a b => a.Index < b.Index) :=
  h.2.1.imp (fun hab => hab.1)

theorem getLast?_take_succ {α : Type} {l : List α} {m : Nat} {a : α} (hm : l[m]? = some a) :
    (l.take (m + 1)).getLast? = some a := by
  have hlt := getElem?_lt hm
  rw [List.getLast?_eq_getElem?, List.length_take, Nat.min_eq_left (by omega)]
  simp only [Nat.add_sub_cancel]
  rw [List.getElem?_take_of_lt (by omega)]
  exact hm

theorem canonical_cut {ps : List (List Byte)} {i : Int} {l : List cursor}
    (h : Canonical ps i l) (hp : l.Pairwise (fun a b => a.Index < b.Index)) {m : Nat}
    {ref : cursor} (hm : l[m]? = some ref) : Canonical ps ref.Index (l.take (m + 1)) := by
  obtain ⟨hh, he, hc, hlast⟩ := h
  refine ⟨?_, ?_, hc.take _, ?_⟩
  · cases l with
    | nil => simp at hh
    | cons a r => simpa using hh
  · intro e hmem
    refine ⟨(he e (List.mem_of_mem_take hmem)).1, ?_⟩
    obtain ⟨k, hk⟩ := List.getElem?_of_mem hmem
    have hklt := getElem?_lt hk
    rw [List.length_take] at hklt
    rw [List.getElem?_take_of_lt (by omega)] at hk
    exact pairwise_index_le hp hk hm (by omega)
  · intro la hla j h1 h2
    rw [getLast?_take_succ hm] at hla
    simp only [Option.some.injEq] at hla
    subst hla
    omega

theorem canonical_at_last {ps : List (List Byte)} {i : Int} {l : List cursor}
    (h : Canonical ps i l) (hp : l.Pairwise (fun a b => a.Index < b.Index)) {last : cursor}
    (hl : l.getLast? = some last) : Canonical ps last.Index l := by
  have hm : l[l.length - 1]? = some last := by
    rw [← List.getLast?_eq_getElem?]; exact hl
  have hlt := getElem?_lt hm
  have := canonical_cut h hp hm
  rw [show l.length - 1 + 1 = l.length by omega, List.take_length] at this
  exact this

theorem nextCheckpoint_append {ps : List (List Byte)} {a b : cursor} (qs : List (List Byte))
    (h : NextCheckpoint ps a b) (hb : b.Index ≤ (ps.length : Int)) :
    NextCheckpoint (ps ++ qs) a b := by
  obtain ⟨h1, h2, h3⟩ := h
  refine ⟨h1, h2, fun j g1 g2 => ?_⟩
  rw [posOf_append ps qs (by omega)]
  exact h3 j g1 g2

theorem nextCheckpoint_take {ps : List (List Byte)} {a b : cursor} {k : Nat}
    (h : NextCheckpoint ps a b) (hb : b.Index ≤ (k : Int)) :
    NextCheckpoint (ps.take k) a b := by
  obtain ⟨h1, h2, h3⟩ := h
  refine ⟨h1, h2, fun j g1 g2 => ?_⟩
  rw [posOf_take ps (by omega)]
  exact h3 j g1 g2

theorem canonical_append_log {ps : List (List Byte)} {i : Int} {l : List cursor}
    (h : Canonical ps i l) (hi : i ≤ (ps.length : Int)) (qs : List (List Byte)) :
    Canonical (ps ++ qs) i l := by
  obtain ⟨hh, he, hc, hlast⟩ := h
  refine ⟨hh, fun e hmem => ⟨valid_append (he e hmem).1 qs, (he e hmem).2⟩, ?_, ?_⟩
  · rw [List.Chain'.iff_mem] at hc ⊢
    refine hc.imp ?_
    intro a b ⟨ha, hb, hab⟩
    exact ⟨ha, hb, nextCheckpoint_append qs hab (by have := (he b hb).2; omega)⟩
  · intro la hla j h1 h2
    rw [posOf_append ps qs (by omega)]
    exact hlast la hla j h1 h2

theorem canonical_take_log {ps : List (List Byte)} {i : Int} {l : List cursor}
    (h : Canonical ps i l) {k : Nat} (hi : i ≤ (k : Int)) (hk : k ≤ ps.length) :
    Canonical (ps.take k) i l := by
  obtain ⟨hh, he, hc, hlast⟩ := h
  refine ⟨hh, fun e hmem => ⟨valid_take (he e hmem).1 (by have := (he e hmem).2; omega) hk,
    (he e hmem).2⟩, ?_, ?_⟩
  · rw [List.Chain'.iff_mem] at hc ⊢
    refine hc.imp ?_
    intro a b ⟨ha, hb, hab⟩
    exact ⟨ha, hb, nextCheckpoint_take hab (by have := (he b hb).2; omega)⟩
  · intro la hla j h1 h2
    rw [posOf_take ps (by omega)]
    exact hlast la hla j h1 h2

theorem invW_Open (ps : List (List Byte)) (q t : List Byte)
    (hb : ∀ p ∈ ps, p.length ≤ maxAlloc) (ht : t = [] ∨ TornOf q t) :
    InvW ps t (Open (encode ps ++ t)) := by
  refine ⟨⟨inv0_Open ps t hb, rfl, ht.imp id (fun h => ⟨q, h⟩), canonical_init ps⟩, ?_⟩
  intro hE
  exact absurd hE (by simp [Open])

theorem cache_getLast {cur : cursor} {cache : List cursor} (h : CacheOK cur cache) :
    ∃ e, cache.getLast? = some e := by
  cases hc : cache.getLast? with
  | none =>
    rw [List.getLast?_eq_none_iff] at hc
    exact absurd hc (cacheOK_ne_nil h)
  | some l => exact ⟨l, rfl⟩

theorem Read_W0 {ps : List (List Byte)} {t : List Byte} {c : Conn} (h : InvW0 ps t c) :
    (∃ p c1, Read c = .ret (some p, none) c1 ∧ InvW0 ps t c1 ∧ c1.isEnd = c.isEnd ∧
        c.cur.Index < (ps.length : Int)) ∨
    (∃ c1, Read c = .ret (none, some .EOF) c1 ∧ InvW0 ps [] c1 ∧ c1.isEnd = true ∧
        c1.cur.Index = (ps.length : Int) ∧ c.cur.Index = (ps.length : Int)) := by
  obtain ⟨h0, hlock, ht, hcan⟩ := h
  have hv := h0.2.2.2.2.2.1
  obtain ⟨i, hi⟩ : ∃ i : Nat, c.cur.Index = (i : Int) := ⟨c.cur.Index.toNat, by have := hv.1; omega⟩
  by_cases hlt : i < ps.length
  · left
    have hp : ps[i]? = some ps[i] := List.getElem?_eq_getElem hlt
    obtain ⟨last, hl⟩ := cache_getLast h0.2.2.2.2.2.2.1
    obtain ⟨c1, hr, h1, hi1, he1, hl1⟩ := Read_frame h0 hi hp
    have hr2 := Read_frame_eq h0 hi hp last hl
    rw [hr2] at hr
    simp only [Res.ret.injEq, true_and] at hr
    subst hr
    have hv1 := h1.2.2.2.2.2.1
    have hcan1 := canonical_move hcan hl _ hv1 rfl
    exact ⟨_, _, hr2, ⟨h1, hlock, ht, hcan1⟩, rfl, by omega⟩
  · right
    have hN : c.cur.Index = (ps.length : Int) := by have := hv.2.1; omega
    obtain ⟨q, hq⟩ : ∃ q, t = [] ∨ (c.locked = true ∧ TornOf q t) := by
      rcases ht with ht | ⟨q, ht⟩
      · exact ⟨[], Or.inl ht⟩
      · exact ⟨q, Or.inr ⟨hlock, ht⟩⟩
    have hr := Read_end h0 hN q hq
    exact ⟨_, hr, ⟨inv0_heal h0 true, hlock, Or.inl rfl, hcan⟩, rfl, hN, hN⟩

theorem seekEndLoop_W {ps : List (List Byte)} (fuel : Nat) : ∀ (t : List Byte) (c : Conn),
    InvW0 ps t c →
    seekEndLoop fuel c = .timeout ∨
    ∃ c1, seekEndLoop fuel c = .ret none c1 ∧ InvW ps [] c1 ∧ c1.isEnd = true := by
  induction fuel with
  | zero => intro t c _; left; rfl
  | succ k ih =>
    intro t c h
    rcases Read_W0 h with ⟨p, c1, hr, h1, he1, -⟩ | ⟨c1, hr, h1, he1, hi1, -⟩
    · rcases ih t c1 h1 with ht | ⟨c2, hr2, h2, he2⟩
      · left
        unfold seekEndLoop
        simp only [hr]
        exact ht
      · right
        refine ⟨c2, ?_, h2, he2⟩
        unfold seekEndLoop
        simp only [hr]
        exact hr2
    · right
      refine ⟨c1, ?_, ⟨h1, fun _ => ⟨hi1, rfl⟩⟩, he1⟩
      unfold seekEndLoop
      simp only [hr, if_true]

theorem replayLoop_W {ps : List (List Byte)} (index : Int) (fuel : Nat) :
    ∀ (t : List Byte) (c : Conn), InvW0 ps t c → c.isEnd = false →
    replayLoop index fuel c = .timeout ∨
    ∃ v c1 t1, replayLoop index fuel c = .ret v c1 ∧ InvW ps t1 c1 ∧ (t1 = t ∨ t1 = []) := by
  induction fuel with
  | zero => intro t c _ _; left; rfl
  | succ k ih =>
    intro t c h hE
    by_cases hne : c.cur.Index = index
    · right
      refine ⟨(index, none), c, t, ?_, ⟨h, fun hE2 => ?_⟩, Or.inl rfl⟩
      · unfold replayLoop
        simp [hne]
      · rw [hE] at hE2; exact absurd hE2 (by simp)
    · rcases Read_W0 h with ⟨p, c1, hr, h1, he1, -⟩ | ⟨c1, hr, h1, he1, hi1, -⟩
      · rcases ih t c1 h1 (by rw [he1, hE]) with ht | ⟨v, c2, t2, hr2, h2, ht2⟩
        · left
          unfold replayLoop
          simp only [hne, ne_eq, not_false_eq_true, if_true, hr]
          exact ht
        · right
          refine ⟨v, c2, t2, ?_, h2, ht2⟩
          unfold replayLoop
          simp only [hne, ne_eq, not_false_eq_true, if_true, hr]
          exact hr2
      · right
        refine ⟨(-1, some .seekAfterEnd), c1, [], ?_, ⟨h1, fun _ => ⟨hi1, rfl⟩⟩, Or.inr rfl⟩
        unfold replayLoop
        simp only [hne, ne_eq, not_false_eq_true, if_true, hr]

theorem cacheOK_search_next {cur : cursor} {cache : List cursor} (h : CacheOK cur cache)
    (index : Int) (hi : 0 ≤ index) :
    ∃ ref m, searchLoop cache index (cache.length + 1) 0 cache.length = some (some (ref, m + 1)) ∧
      cache[m]? = some ref ∧ ref.Index ≤ index ∧
      ∀ e, cache[m + 1]? = some e → index < e.Index := by
  have hne := cacheOK_ne_nil h
  have hlen : 0 < cache.length := List.length_pos.mpr hne
  have h0 : cache[0]? = some ⟨0, 0⟩ := by
    have := h.1
    cases cache with
    | nil => simp at hne
    | cons a l => simpa using this
  have hR : ∀ e, cache[cache.length]? = some e → index < e.Index := by
    intro e he
    have := getElem?_lt he
    omega
  exact searchLoop_spec cache index (cache.length + 1) 0 cache.length hlen (le_refl _)
    ⟨_, h0, hi⟩ hR (by omega)

theorem seekIndex_W {ps : List (List Byte)} {t : List Byte} {c : Conn} (h : InvW ps t c)
    (fuel : Nat) (index : Int) :
    seekIndex fuel c index = .timeout ∨
    ∃ v c1 t1, seekIndex fuel c index = .ret v c1 ∧ InvW ps t1 c1 ∧ (t1 = t ∨ t1 = []) := by
  by_cases heq : index = c.cur.Index
  · right
    refine ⟨(index, none), c, t, ?_, h, Or.inl rfl⟩
    unfold seekIndex
    simp [heq]
  · by_cases hneg : index < 0
    · right
      refine ⟨(-1, some .seekBeforeStart), c, t, ?_, h, Or.inl rfl⟩
      unfold seekIndex
      rw [if_neg heq, if_pos hneg]
    · obtain ⟨⟨h0, hlock, ht, hcan⟩, hend⟩ := h
      obtain ⟨hdata, hbound, hopen, hmode, hsync, hcur, hcache, hvalid⟩ := h0
      obtain ⟨ref, m, hs, hm, hle, hnext⟩ := cacheOK_search_next hcache index (by omega)
      have hrv : Valid ps ref := hvalid ref (mem_of_getElem? hm)
      rw [seekIndex_step fuel c index ref m heq hneg hs]
      have hsub : ∀ e ∈ c.cache.take (m + 1), Valid ps e :=
        fun e he => hvalid e (List.mem_of_mem_take he)
      by_cases hc : index < c.cur.Index ∨ ref.Index > c.cur.Index
      · have hinv : Inv0 ps t { c with
            file := { c.file with off := ref.Pos.toNat }
            cur := ref
            cache := c.cache.take (m + 1)
            isEnd := false } := by
          refine ⟨hdata, hbound, hopen, hmode, ?_, hrv, cacheOK_take_ref hcache hm, hsub⟩
          show ((ref.Pos.toNat : Nat) : Int) = ref.Pos
          have := hrv.2.2
          omega
        have hpos : ¬ ref.Pos < 0 := by have := hrv.2.2; omega
        rw [if_pos hc, if_neg (by simp [hopen]), if_neg hpos]
        exact replayLoop_W index fuel t _
          ⟨hinv, hlock, ht, canonical_cut hcan (pairwise_index hcache) hm⟩ rfl
      · have htake : c.cache.take (m + 1) = c.cache := by
          apply List.take_of_length_le
          by_contra hlt
          have h1 : m + 1 < c.cache.length := by omega
          have h2 := hnext _ (List.getElem?_eq_getElem h1)
          have h3 := (hcache.2.2 _ (List.getElem_mem h1)).1
          omega
        have hinv : Inv0 ps t { c with cache := c.cache.take (m + 1), isEnd := false } :=
          ⟨hdata, hbound, hopen, hmode, hsync, hcur, cacheOK_take hcache m, hsub⟩
        rw [if_neg hc]
        refine replayLoop_W index fuel t _ ⟨hinv, hlock, ht, ?_⟩ rfl
        show Canonical ps c.cur.Index (c.cache.take (m + 1))
        rw [htake]
        exact hcan

theorem seekEnd_W {ps : List (List Byte)} {t : List Byte} {c : Conn} (h : InvW0 ps t c)
    (fuel : Nat) :
    seekEnd fuel c = .timeout ∨
    ∃ c1, seekEnd fuel c = .ret none c1 ∧ InvW ps [] c1 ∧ c1.isEnd = true := by
  obtain ⟨h0, hlock, ht, hcan⟩ := h
  obtain ⟨hdata, hbound, hopen, hmode, hsync, hcur, hcache, hvalid⟩ := h0
  obtain ⟨e, hl⟩ := cache_getLast hcache
  have hev : Valid ps e := hvalid e (List.mem_of_getLast?_eq_some hl)
  rw [seekEnd_step fuel c e hl]
  have hpos : ¬ e.Pos < 0 := by have := hev.2.2; omega
  rw [if_neg (by simp [hopen]), if_neg hpos]
  have hinv : Inv0 ps t { c with file := { c.file with off := e.Pos.toNat }, cur := e } := by
    refine ⟨hdata, hbound, hopen, hmode, ?_, hev, cacheOK_getLast hcache hl, hvalid⟩
    show ((e.Pos.toNat : Nat) : Int) = e.Pos
    omega
  exact seekEndLoop_W fuel t _
    ⟨hinv, hlock, ht, canonical_at_last hcan (pairwise_index hcache) hl⟩

theorem seek_W {ps : List (List Byte)} {t : List Byte} {c : Conn} (h : InvW ps t c)
    (fuel : Nat) (offset whence : Int) :
    seek fuel c offset whence = .timeout ∨
    seek fuel c offset whence = .panic .invalidWhence c ∨
    ∃ v c1 t1, seek fuel c offset whence = .ret v c1 ∧ InvW ps t1 c1 ∧ (t1 = t ∨ t1 = []) := by
  unfold seek
  split_ifs with h1 h2 h3
  · rcases seekIndex_W h fuel offset with ht | hr
    · exact Or.inl ht
    · exact Or.inr (Or.inr hr)
  · rcases seekIndex_W h fuel (wrap64 (c.cur.Index + offset)) with ht | hr
    · exact Or.inl ht
    · exact Or.inr (Or.inr hr)
  · rcases seekEnd_W h.1 fuel with ht | ⟨c1, hr1, hi1, he1⟩
    · left; rw [ht]
    · rw [hr1]
      simp only
      rcases seekIndex_W hi1 fuel (wrap64 (c1.cur.Index + offset)) with
        ht | ⟨v, c2, t2, hr2, h2, ht2⟩
      · exact Or.inl ht
      · refine Or.inr (Or.inr ⟨v, c2, t2, hr2, h2, Or.inr ?_⟩)
        rcases ht2 with ht2 | ht2 <;> exact ht2
  · exact Or.inr (Or.inl rfl)

theorem truncate_at_cursor_W {ps : List (List Byte)} {t : List Byte} {c : Conn}
    (h : InvW ps t c) :
    c.file.Truncate c.cur.Pos =
        .ok { c.file with data := encode (ps.take c.cur.Index.toNat) } ∧
      InvW (ps.take c.cur.Index.toNat) []
        { c with file := { c.file with data := encode (ps.take c.cur.Index.toNat) } } := by
  obtain ⟨⟨h0, hlock, ht, hcan⟩, hend⟩ := h
  obtain ⟨hdata, hbound, hopen, hmode, hsync, hcur, hcache, hvalid⟩ := h0
  have hrd : c.file.rdwr = true := by rw [hmode, hlock]
  obtain ⟨k, hk⟩ : ∃ k : Nat, c.cur.Index = (k : Int) := ⟨c.cur.Index.toNat, by have := hcur.1; omega⟩
  have hkN : k ≤ ps.length := by have := hcur.2.1; omega
  have hkk : c.cur.Index.toNat = k := by omega
  rw [hkk]
  have hpos : c.cur.Pos = (posOf ps k : Int) := by rw [hcur.2.2, hkk]
  refine ⟨?_, ⟨⟨by simp, ?_, hopen, hmode, hsync, ?_, hcache, ?_⟩, hlock, Or.inl rfl, ?_⟩, ?_⟩
  · unfold OsFile.Truncate
    have hnn : ¬ c.cur.Pos < 0 := by omega
    simp only [hopen, hrd, not_true_eq_false, if_false, hnn]
    have e1 : c.cur.Pos.toNat = posOf ps k := by omega
    have e2 : posOf ps k - c.file.data.length = 0 := by
      have := posOf_le_length ps k
      rw [hdata]; simp; omega
    rw [e1, e2, hdata, encode_take_posOf]
    simp
  · intro p hp
    exact hbound p (List.mem_of_mem_take hp)
  · exact valid_take hcur (by rw [hk]) hkN
  · intro e he
    have hle := (hcache.2.2 e he).1
    exact valid_take (hvalid e he) (by show e.Index ≤ (k : Int); rw [← hk]; exact hle) hkN
  · exact canonical_take_log hcan (by rw [hk]) hkN
  · intro _
    refine ⟨?_, rfl⟩
    show c.cur.Index = ((ps.take k).length : Int)
    rw [hk, List.length_take, Nat.min_eq_left hkN]

theorem appendFrame_W {ps : List (List Byte)} {c : Conn} (h : InvW ps [] c)
    (hE : c.isEnd = true) {e : List Byte} (he : e.length ≤ maxAlloc) :
    ∃ c1, appendFrame c e = .ret none c1 ∧ InvW (ps ++ [e]) [] c1 := by
  obtain ⟨⟨h0, hlock, ht, hcan⟩, hend⟩ := h
  obtain ⟨hi, -⟩ := hend hE
  obtain ⟨last, hl⟩ := cache_getLast h0.2.2.2.2.2.2.1
  obtain ⟨hoff, -⟩ := inv0_end_off h0 hi
  have hdl : c.file.data.length = (encode ps).length := by rw [h0.1]; simp
  have hopen := h0.2.2.1
  have hrd : c.file.rdwr = true := by rw [h0.2.2.2.1, hlock]
  have ha := appendFrame_eq c e last hopen hrd (by rw [hoff, hdl]) hl
  obtain ⟨c2, hr, h2, hi2, he2, hl2, -, -⟩ := appendFrame_spec h0 hi hlock he
  rw [ha] at hr
  simp only [Res.ret.injEq, true_and] at hr
  subst hr
  have hcan1 := canonical_append_log hcan (by rw [hi]) [e]
  have hcan2 := canonical_move hcan1 hl _ h2.2.2.2.2.2.1 rfl
  refine ⟨_, ha, ⟨h2, hlock, Or.inl rfl, hcan2⟩, fun _ => ⟨?_, rfl⟩⟩
  rw [hi2, List.length_append]
  simp

theorem step_W {c c1 : Conn} (hinv : ∃ ps t, InvW ps t c) :
    ((Read c).after = some c1 → ∃ ps t, InvW ps t c1) ∧
    (∀ fuel elem, (∀ e, elem = some e → e.length ≤ maxAlloc) →
      (Append fuel c elem).after = some c1 → ∃ ps t, InvW ps t c1) ∧
    (∀ fuel offset whence, (seek fuel c offset whence).after = some c1 →
      ∃ ps t, InvW ps t c1) ∧
    (∀ fuel, (seekEnd fuel c).after = some c1 → ∃ ps t, InvW ps t c1) ∧
    (∀ fuel size, (Truncate fuel c size).after = some c1 → ∃ ps t, InvW ps t c1) := by
  obtain ⟨ps, t, h⟩ := hinv
  have happ : ∀ (c0 : Conn) (e : List Byte), InvW ps [] c0 → c0.isEnd = true →
      e.length ≤ maxAlloc → (appendFrame c0 e).after = some c1 → ∃ ps t, InvW ps t c1 := by
    intro c0 e h0 hE0 he haft
    obtain ⟨c2, hr, h2⟩ := appendFrame_W h0 hE0 he
    rw [hr] at haft
    simp only [Res.after, Option.some.injEq] at haft
    subst haft
    exact ⟨_, _, h2⟩
  refine ⟨?_, ?_, ?_, ?_, ?_⟩
  · intro haft
    rcases Read_W0 h.1 with ⟨p, c2, hr, h2, he2, hlt⟩ | ⟨c2, hr, h2, he2, hi2, -⟩
    · rw [hr] at haft
      simp only [Res.after, Option.some.injEq] at haft
      subst haft
      refine ⟨ps, t, h2, fun hE => ?_⟩
      rw [he2] at hE
      have := (h.2 hE).1
      omega
    · rw [hr] at haft
      simp only [Res.after, Option.some.injEq] at haft
      subst haft
      exact ⟨ps, [], h2, fun _ => ⟨hi2, rfl⟩⟩
  · intro fuel elem hb haft
    cases elem with
    | none =>
      simp only [Append, Res.after, Option.some.injEq] at haft
      subst haft
      exact ⟨ps, t, h⟩
    | some e =>
      have he := hb e rfl
      unfold Append at haft
      simp only at haft
      by_cases hE : c.isEnd = true
      · simp only [hE, not_true_eq_false, if_false] at haft
        have ht0 : t = [] := (h.2 hE).2
        subst ht0
        exact happ c e h hE he haft
      · simp only [hE, not_false_eq_true, if_true] at haft
        rcases seekEnd_W h.1 fuel with ht | ⟨c2, hr2, h2, he2⟩
        · rw [ht] at haft
          simp [Res.after] at haft
        · rw [hr2] at haft
          exact happ c2 e h2 he2 he haft
  · intro fuel offset whence haft
    rcases seek_W h fuel offset whence with ht | hp | ⟨v, c2, t2, hr, h2, -⟩
    · rw [ht] at haft; simp [Res.after] at haft
    · rw [hp] at haft
      simp only [Res.after, Option.some.injEq] at haft
      subst haft
      exact ⟨ps, t, h⟩
    · rw [hr] at haft
      simp only [Res.after, Option.some.injEq] at haft
      subst haft
      exact ⟨ps, t2, h2⟩
  · intro fuel haft
    rcases seekEnd_W h.1 fuel with ht | ⟨c2, hr2, h2, -⟩
    · rw [ht] at haft; simp [Res.after] at haft
    · rw [hr2] at haft
      simp only [Res.after, Option.some.injEq] at haft
      subst haft
      exact ⟨ps, [], h2⟩
  · intro fuel size haft
    unfold Truncate at haft
    rcases seek_W h fuel size SeekStart with ht | hp | ⟨v, c2, t2, hr, h2, -⟩
    · rw [ht] at haft; simp [Res.after] at haft
    · rw [hp] at haft
      simp only [Res.after, Option.some.injEq] at haft
      subst haft
      exact ⟨ps, t, h⟩
    · rw [hr] at haft
      obtain ⟨i, err⟩ := v
      cases err with
      | some e =>
        simp only [Res.after, Option.some.injEq] at haft
        subst haft
        exact ⟨ps, t2, h2⟩
      | none =>
        simp only at haft
        obtain ⟨htr, h3⟩ := truncate_at_cursor_W h2
        rw [htr] at haft
        simp only [Res.after, Option.some.injEq] at haft
        subst haft
        exact ⟨_, _, h3⟩

theorem prefix_of_tail (a t t1 : List Byte) (h : t1 = t ∨ t1 = []) : a ++ t1 <+: a ++ t := by
  rcases h with h | h
  · rw [h]
  · rw [h, List.append_nil]
    exact List.prefix_append _ _

theorem Read_prefix {ps : List (List Byte)} {t : List Byte} {c c1 : Conn} (h : InvW ps t c)
    (haft : (Read c).after = some c1) : c1.file.data <+: c.file.data := by
  rcases Read_W0 h.1 with ⟨p, c2, hr, h2, -, -⟩ | ⟨c2, hr, h2, -, -, -⟩
  · rw [hr] at haft
    simp only [Res.after, Option.some.injEq] at haft
    subst haft
    rw [h2.1.1, h.1.1.1]
  · rw [hr] at haft
    simp only [Res.after, Option.some.injEq] at haft
    subst haft
    rw [h2.1.1, h.1.1.1]
    exact prefix_of_tail _ _ _ (Or.inr rfl)

theorem Truncate_prefix {ps : List (List Byte)} {t : List Byte} {c c1 : Conn} (h : InvW ps t c)
    (fuel : Nat) (size : Int) (haft : (Truncate fuel c size).after = some c1) :
    c1.file.data <+: c.file.data := by
  unfold Truncate at haft
  rcases seek_W h fuel size SeekStart with ht | hp | ⟨v, c2, t2, hr, h2, ht2⟩
  · rw [ht] at haft; simp [Res.after] at haft
  · rw [hp] at haft
    simp only [Res.after, Option.some.injEq] at haft
    subst haft
    exact List.prefix_refl _
  · rw [hr] at haft
    have hpre : c2.file.data <+: c.file.data := by
      rw [h2.1.1.1, h.1.1.1]
      exact prefix_of_tail _ _ _ ht2
    obtain ⟨i, err⟩ := v
    cases err with
    | some e =>
      simp only [Res.after, Option.some.injEq] at haft
      subst haft
      exact hpre
    | none =>
      simp only at haft
      obtain ⟨htr, h3⟩ := truncate_at_cursor_W h2
      rw [htr] at haft
      simp only [Res.after, Option.some.injEq] at haft
      subst haft
      refine List.IsPrefix.trans ?_ hpre
      show encode (ps.take c2.cur.Index.toNat) <+: c2.file.data
      rw [h2.1.1.1, ← encode_take_posOf ps c2.cur.Index.toNat t2]
      exact List.take_prefix _ _

theorem invW_pos_le {ps : List (List Byte)} {t : List Byte} {c : Conn} (h : InvW ps t c) :
    c.cur.Pos ≤ (c.file.data.length : Int) ∧
    ∀ e ∈ c.cache, e.Pos ≤ (c.file.data.length : Int) := by
  have hlen : ∀ e : cursor, Valid ps e → e.Pos ≤ (c.file.data.length : Int) := by
    intro e he
    have h1 := posOf_le_length ps e.Index.toNat
    have h2 : c.file.data.length = (encode ps).length + t.length := by
      rw [h.1.1.1, List.length_append]
    rw [he.2.2, h2]
    omega
  exact ⟨hlen _ h.1.1.2.2.2.2.2.1, fun e he => hlen e (h.1.1.2.2.2.2.2.2.2 e he)⟩

theorem reachableFramed_invW {c : Conn} (h : ReachableFramed c) : ∃ ps t, InvW ps t c := by
  induction h with
  | opened ps q t hb ht => exact ⟨ps, t, invW_Open ps q t hb ht⟩
  | read c c1 _ hr ih => exact (step_W ih).1 hr
  | append fuel c elem c1 _ hb hr ih => exact (step_W ih).2.1 fuel elem hb hr
  | seek fuel c offset whence c1 _ hr ih => exact (step_W ih).2.2.1 fuel offset whence hr
  | seekEnd fuel c c1 _ hr ih => exact (step_W ih).2.2.2.1 fuel hr
  | truncate fuel c size c1 _ hr ih => exact (step_W ih).2.2.2.2 fuel size hr

/-- Torn-tail healing within the allocation limit.  For a file made of the complete frames
of `ps` followed by a
torn tail `t` (a non-empty strict prefix of the frame of some payload `q` of at most
`maxAlloc` bytes), a write-capable
handle opened on it returns the payloads of `ps` from `len ps` calls of `Read()`, the next
`Read()` returns `io.EOF` and leaves the file equal to exactly the complete frames of `ps`,
and a following `Append(p)` returns no error and leaves exactly the complete frames of
`ps` followed by the frame of `p`. -/
theorem torn_tail_healed (ps : List (List Byte)) (q t p : List Byte) (fuel : Nat)
    (hb : ∀ x ∈ ps, x.length ≤ maxAlloc) (ht : TornOf q t) (hp : p.length ≤ maxAlloc) :
    ∃ c1 c2 c3, readMany ps.length (Open (encode ps ++ t)) = some (ps, c1) ∧
      Read c1 = .ret (none, some .EOF) c2 ∧
      c2.file.data = encode ps ∧
      Append fuel c2 (some p) = .ret none c3 ∧
      c3.file.data = encode (ps ++ [p]) := by
  have h0 := inv0_Open ps t hb
  obtain ⟨c1, hr1, h1, hi1, he1, hl1⟩ := readMany_spec ps.length (Open (encode ps ++ t)) 0 h0 rfl
    (by omega)
  have hi1b : c1.cur.Index = (ps.length : Int) := by rw [hi1]; simp
  have hlock : c1.locked = true := by rw [hl1]; rfl
  have hr2 := Read_end h1 hi1b q (Or.inr ⟨hlock, ht⟩)
  have h2 : Inv ps [] { c1 with file := { c1.file with data := encode ps }, isEnd := true } :=
    ⟨inv0_heal h1 true, fun _ => ⟨hi1b, rfl⟩⟩
  obtain ⟨c3, hr3, h3, -, -, -, hd3, -⟩ := Append_spec h2 hlock []
    (Or.inl rfl) hp fuel (Or.inl rfl)
  refine ⟨c1, _, c3, ?_, hr2, rfl, hr3, ?_⟩
  · rw [hr1]; simp
  · rw [hd3, encode_append]; simp [encode]

/-- The cursor invariant over files within the allocation limit.  In every state that a
write-capable handle reaches from `Open`
on a file made of complete frames, possibly followed by a torn tail, by any sequence of
`Read`, `Append`, `seek`, `seekEnd` and `Truncate` calls, the file is again made of the
complete frames of some payloads `ps`, possibly followed by a torn tail, and the live cursor
and every cache entry `{Index, Pos}` are frame boundaries of it: `0 ≤ Index ≤ len ps`, so
the file holds at least `Index` complete frames, and `Pos` is the total byte length of the
first `Index` frames.  Every such `Pos` lies within the file.  A `Read()` (which may heal a
torn tail) and a `Truncate` leave a prefix of the file they found, so with the invariant in
the state they leave, the bytes they remove are at or after the cursor's and every cached
`Pos`. -/
theorem reachableFramed_cursor_invariant (c : Conn) (h : ReachableFramed c) :
    (∃ ps t, c.file.data = encode ps ++ t ∧ (t = [] ∨ ∃ q, TornOf q t) ∧
      Valid ps c.cur ∧ ∀ e ∈ c.cache, Valid ps e) ∧
    c.cur.Pos ≤ (c.file.data.length : Int) ∧
    (∀ e ∈ c.cache, e.Pos ≤ (c.file.data.length : Int)) ∧
    (∀ c1, (Read c).after = some c1 → List.IsPrefix c1.file.data c.file.data) ∧
    (∀ fuel size c1, (Truncate fuel c size).after = some c1 →
      List.IsPrefix c1.file.data c.file.data) := by
  obtain ⟨ps, t, hw⟩ := reachableFramed_invW h
  obtain ⟨hp1, hp2⟩ := invW_pos_le hw
  exact ⟨⟨ps, t, hw.1.1.1, hw.1.2.2.1, hw.1.1.2.2.2.2.2.1, hw.1.1.2.2.2.2.2.2.2⟩, hp1, hp2,
    fun c1 haft => Read_prefix hw haft,
    fun fuel size c1 haft => Truncate_prefix hw fuel size haft⟩

/-! ## Length prefixes beyond the allocation limit -/

theorem Read_make_panics (c : Conn) (hopen : c.file.isOpen = true)
    (hne : (c.file.data.drop c.file.off).take MaxVarintLen64 ≠ [])
    (hn : 0 < (Varint ((c.file.data.drop c.file.off).take MaxVarintLen64)).2)
    (hsize : (Varint ((c.file.data.drop c.file.off).take MaxVarintLen64)).1 < 0 ∨
      (Varint ((c.file.data.drop c.file.off).take MaxVarintLen64)).1 > (maxAlloc : Int)) :
    Read c = .panic .makesliceLenOutOfRange
      { c with file := { c.file with off := c.file.off +
        (Varint ((c.file.data.drop c.file.off).take MaxVarintLen64)).2.toNat } } := by
  obtain ⟨b, hbdef⟩ : ∃ b, b = (c.file.data.drop c.file.off).take MaxVarintLen64 := ⟨_, rfl⟩
  rw [← hbdef] at hne hn hsize ⊢
  have hread : c.file.Read MaxVarintLen64 =
      (b, none, { c.file with off := c.file.off + b.length }) := by
    have h10 : ¬ (MaxVarintLen64 = 0) := by decide
    unfold OsFile.Read
    simp only [hopen, not_true_eq_false, if_false, h10, ← hbdef, hne]
  have hn0 : ¬ (Varint b).2 = 0 := by omega
  have hnn : ¬ (Varint b).2 < 0 := by omega
  have hseek : OsFile.Seek { c.file with off := c.file.off + b.length }
      ((Varint b).2 - (b.length : Int)) SeekCurrent =
        .ok (((c.file.off + b.length : Nat) : Int) + ((Varint b).2 - (b.length : Int)),
          { c.file with off := c.file.off + (Varint b).2.toNat }) := by
    have hne2 : ¬ (SeekCurrent = SeekStart) := by decide
    unfold OsFile.Seek
    simp only [hopen, not_true_eq_false, if_false, hne2]
    rw [if_neg (by push_cast; omega)]
    have e : (((c.file.off + b.length : Nat) : Int) + ((Varint b).2 - (b.length : Int))).toNat
        = c.file.off + (Varint b).2.toNat := by
      push_cast; omega
    rw [e]
  unfold Read readElem
  rw [hread]
  simp only [ne_eq, not_true_eq_false, false_and, if_false, hn0, hnn]
  rw [hseek]
  simp only [hsize, if_true]

theorem not_frame_of_oversized (data : List Byte) (hshort : data.length < 2 ^ 63)
    (h : (data.length : Int) < (Varint data).1) : ¬ ∃ p rest, data = frame p ++ rest := by
  rintro ⟨p, rest, hd⟩
  have hlen : p.length ≤ data.length := by
    rw [hd, List.length_append, frame_length]; omega
  have hV := Varint_PutVarint p.length (by omega) (p ++ rest)
  have e : data = PutVarint (p.length : Int) ++ (p ++ rest) := by
    rw [hd, frame, List.append_assoc]
  rw [← e] at hV
  rw [hV] at h
  simp only at h
  omega

theorem not_valid_of_oversized (data : List Byte) (hshort : data.length < 2 ^ 63)
    (h : (data.length : Int) < (Varint data).1) (e : cursor) (he : 1 ≤ e.Index) :
    ¬ ∃ ps t, data = encode ps ++ t ∧ Valid ps e := by
  rintro ⟨ps, t, hd, hv⟩
  cases ps with
  | nil =>
    have := hv.2.1
    simp only [List.length_nil] at this
    omega
  | cons p ps =>
    refine not_frame_of_oversized data hshort h ⟨p, encode ps ++ t, ?_⟩
    rw [hd, encode, List.append_assoc]

/-! ## The claims -/

/-- C1 (round trip).  On a write-capable handle in a reachable state over a file of exactly
the complete frames of `ps` (a state of the kind `Inv`, see `reachableOver_inv_of_data`),
`Append(p)` returns no error, the following `seek(N, Start)` returns `N`, and the following
`Read()` returns `p` with no error; the file then is the old bytes followed by
`PutVarint(len p)` and `p`, and the read leaves the descriptor and the cursor right after
that frame, at the end of the file. -/
theorem C1_append_seek_read_roundtrip (ps : List (List Byte)) (c : Conn) (p : List Byte)
    (fuel : Nat) (hinv : Inv ps [] c) (hlock : c.locked = true) (hp : p.length ≤ maxAlloc)
    (hfuel : ps.length < fuel) :
    ∃ c1 c2 c3, Append fuel c (some p) = .ret none c1 ∧
      c1.file.data = c.file.data ++ (PutVarint (p.length : Int) ++ p) ∧
      seek fuel c1 (ps.length : Int) SeekStart = .ret ((ps.length : Int), none) c2 ∧
      Read c2 = .ret (some p, none) c3 ∧
      c3.file.off = c3.file.data.length ∧ c3.cur.Pos = (c3.file.data.length : Int) ∧
      c3.cur.Index = (ps.length : Int) + 1 := by
  obtain ⟨c1, hr1, h1, hi1, hl1, he1, hd1, hp1⟩ :=
    Append_spec hinv hlock [] (Or.inl rfl) hp fuel (Or.inr hfuel)
  obtain ⟨c2, hr2, h2, hi2, hl2⟩ := seekIndex_to h1 (ps.length : Int) (by omega)
    (by rw [List.length_append]; push_cast; omega) fuel (by exact_mod_cast hfuel)
  obtain ⟨c3, hr3, h3, hi3, he3, hl3⟩ := Read_frame h2.1 hi2
    (show (ps ++ [p])[ps.length]? = some p by simp)
  have hdc : c.file.data = encode ps := by simpa using hinv.1.1
  have hend : c3.cur.Index = ((ps ++ [p]).length : Int) := by
    rw [hi3, List.length_append]; simp
  obtain ⟨hoff3, hpos3⟩ := inv0_end_off h3 hend
  have hd3 : c3.file.data = encode (ps ++ [p]) := by simpa using h3.1
  refine ⟨c1, c2, c3, hr1, ?_, ?_, hr3, ?_, ?_, hi3⟩
  · rw [hd1, hdc]; rfl
  · unfold seek; simp only [if_true]; exact hr2
  · rw [hoff3, hd3]
  · rw [hpos3, hd3]

/-- Witness of C1: appending `[0x42, 0x43]` to an opened one-record file. -/
theorem C1_append_seek_read_roundtrip_witness :
    Inv [[0x41]] [] (Open [2, 0x41]) ∧
    ∃ c1 c2 c3, Append 2 (Open [2, 0x41]) (some [0x42, 0x43]) = .ret none c1 ∧
      c1.file.data = (Open [2, 0x41]).file.data ++
        (PutVarint (([0x42, 0x43] : List Byte).length : Int) ++ [0x42, 0x43]) ∧
      seek 2 c1 (([[0x41]] : List (List Byte)).length : Int) SeekStart =
        .ret ((([[0x41]] : List (List Byte)).length : Int), none) c2 ∧
      Read c2 = .ret (some [0x42, 0x43], none) c3 ∧
      c3.file.off = c3.file.data.length ∧ c3.cur.Pos = (c3.file.data.length : Int) ∧
      c3.cur.Index = (([[0x41]] : List (List Byte)).length : Int) + 1 :=
  ⟨by decide, C1_append_seek_read_roundtrip [[0x41]] (Open [2, 0x41]) [0x42, 0x43] 2
    (by decide) (by decide) (by decide) (by decide)⟩

/-- C2 (sequential reads).  Starting from a write-capable handle freshly opened on an empty
file, appending the payloads `ps` one after the other succeeds; after `seek(0, Start)`,
`len ps` consecutive `Read()` calls return the payloads in append order with no error, and
the next `Read()` returns `io.EOF`. -/
theorem C2_appends_then_sequential_reads (ps : List (List Byte)) (fuel : Nat)
    (hb : ∀ p ∈ ps, p.length ≤ maxAlloc) (hfuel : 0 < fuel) :
    ∃ c1 c2 c3 c4, appendMany fuel ps (Open []) = some c1 ∧
      seek fuel c1 0 SeekStart = .ret (0, none) c2 ∧
      readMany ps.length c2 = some (ps, c3) ∧
      Read c3 = .ret (none, some .EOF) c4 := by
  have h0 : Inv [] [] (Open []) := by decide
  obtain ⟨c1, hr1, h1, hl1⟩ := appendMany_spec fuel ps [] (Open []) h0 rfl hb
    (Or.inr hfuel)
  rw [List.nil_append] at h1
  obtain ⟨c2, hr2, h2, hi2, hl2⟩ := seekIndex_to h1 0 (le_refl _) (by omega)
    fuel (by exact_mod_cast hfuel)
  obtain ⟨c3, hr3, h3, hi3, he3, hl3⟩ := readMany_spec ps.length c2 0 h2.1 hi2 (by omega)
  have hi3b : c3.cur.Index = (ps.length : Int) := by rw [hi3]; simp
  refine ⟨c1, c2, c3, _, hr1, ?_, ?_, Read_end h3 hi3b [] (Or.inl rfl)⟩
  · unfold seek; simp only [if_true]; exact hr2
  · rw [hr3]; simp

/-- Witness of C2: three payloads, one of them empty. -/
theorem C2_appends_then_sequential_reads_witness :
    (∀ p ∈ ([[0x41], [], [1, 2, 3]] : List (List Byte)), p.length ≤ maxAlloc) ∧
    ∃ c1 c2 c3 c4, appendMany 1 [[0x41], [], [1, 2, 3]] (Open []) = some c1 ∧
      seek 1 c1 0 SeekStart = .ret (0, none) c2 ∧
      readMany ([[0x41], [], [1, 2, 3]] : List (List Byte)).length c2 =
        some ([[0x41], [], [1, 2, 3]], c3) ∧
      Read c3 = .ret (none, some .EOF) c4 :=
  ⟨by decide, C2_appends_then_sequential_reads [[0x41], [], [1, 2, 3]] 1 (by decide)
    (by decide)⟩

/-- C3 (seek then read).  On a handle, write-capable or read-only, in a reachable state
over a file of exactly the complete frames of `ps` (a state of the kind `Inv`, see
`reachableOver_inv_of_data`), for every `k` below `len ps`, `seek(k, Start)` returns `k`
with no error and the following `Read()` returns the `k`-th payload, whether the seek goes
backward or forward. -/
theorem C3_seek_then_read (ps : List (List Byte)) (c : Conn) (k : Nat) (p : List Byte)
    (fuel : Nat) (hinv : Inv ps [] c) (hk : ps[k]? = some p) (hfuel : k < fuel) :
    ∃ c1 c2, seek fuel c (k : Int) SeekStart = .ret ((k : Int), none) c1 ∧
      Read c1 = .ret (some p, none) c2 := by
  have hlt := getElem?_lt hk
  obtain ⟨c1, hr1, h1, hi1, hl1⟩ := seekIndex_to hinv (k : Int) (by omega)
    (by omega) fuel (by exact_mod_cast hfuel)
  obtain ⟨c2, hr2, -⟩ := Read_frame h1.1 hi1 hk
  refine ⟨c1, c2, ?_, hr2⟩
  unfold seek; simp only [if_true]; exact hr1

/-- Witness of C3: a backward seek from the end of a three-record file to record 1. -/
theorem C3_seek_then_read_witness :
    Inv [[0x41], [], [1, 2, 3]] []
      { Open [2, 0x41, 0, 6, 1, 2, 3] with
        file := { (Open [2, 0x41, 0, 6, 1, 2, 3]).file with off := 7 }
        cur := ⟨3, 7⟩
        isEnd := true } ∧
    ∃ c1 c2, seek 2
        { Open [2, 0x41, 0, 6, 1, 2, 3] with
          file := { (Open [2, 0x41, 0, 6, 1, 2, 3]).file with off := 7 }
          cur := ⟨3, 7⟩
          isEnd := true } ((1 : Nat) : Int) SeekStart = .ret (((1 : Nat) : Int), none) c1 ∧
      Read c1 = .ret (some [], none) c2 :=
  ⟨by decide, C3_seek_then_read [[0x41], [], [1, 2, 3]] _ 1 [] 2 (by decide) (by decide)
    (by decide)⟩

/-- C4 (append at the logical end).  On a write-capable handle in a reachable state over a
file of exactly the complete frames of `ps` (a state of the kind `Inv`, see
`reachableOver_inv_of_data`), wherever the cursor is, `Append(p)` returns no error and
leaves the file equal to the old bytes followed by `PutVarint(len p)` and `p`, the cursor
at index `len ps + 1` and its `Pos` equal to the new file length. -/
theorem C4_append_at_logical_end (ps : List (List Byte)) (c : Conn) (p : List Byte)
    (fuel : Nat) (hinv : Inv ps [] c) (hlock : c.locked = true) (hp : p.length ≤ maxAlloc)
    (hfuel : ps.length < fuel) :
    ∃ c1, Append fuel c (some p) = .ret none c1 ∧
      c1.file.data = c.file.data ++ PutVarint (p.length : Int) ++ p ∧
      c1.cur.Index = (ps.length : Int) + 1 ∧ c1.cur.Pos = (c1.file.data.length : Int) := by
  obtain ⟨c1, hr1, h1, hi1, hl1, he1, hd1, hp1⟩ :=
    Append_spec hinv hlock [] (Or.inl rfl) hp fuel (Or.inr hfuel)
  have hdc : c.file.data = encode ps := by simpa using hinv.1.1
  refine ⟨c1, hr1, ?_, hi1, hp1⟩
  rw [hd1, hdc, List.append_assoc]; rfl

/-- Witness of C4: the cursor is at record 1 of a three-record file, the at-end flag off. -/
theorem C4_append_at_logical_end_witness :
    Inv [[0x41], [], [1, 2, 3]] []
      { Open [2, 0x41, 0, 6, 1, 2, 3] with
        file := { (Open [2, 0x41, 0, 6, 1, 2, 3]).file with off := 2 }
        cur := ⟨1, 2⟩ } ∧
    ∃ c1, Append 4
        { Open [2, 0x41, 0, 6, 1, 2, 3] with
          file := { (Open [2, 0x41, 0, 6, 1, 2, 3]).file with off := 2 }
          cur := ⟨1, 2⟩ } (some [9]) = .ret none c1 ∧
      c1.file.data = [2, 0x41, 0, 6, 1, 2, 3] ++ PutVarint (([9] : List Byte).length : Int) ++ [9] ∧
      c1.cur.Index = (([[0x41], [], [1, 2, 3]] : List (List Byte)).length : Int) + 1 ∧
      c1.cur.Pos = (c1.file.data.length : Int) :=
  ⟨by decide, C4_append_at_logical_end [[0x41], [], [1, 2, 3]] _ [9] 4 (by decide) (by decide)
    (by decide) (by decide)⟩

/-- C5, what the code does.  When the bytes at the descriptor's offset start with a complete
length prefix that declares more than `maxAlloc` bytes, as does the torn tail made of a
prefix that declares `2^62` bytes followed by fewer payload bytes than that, `Read()` panics
in `make([]byte, size)` before it reads any payload byte.  It does not return `io.EOF`: the
at-end flag, the cursor and the cache are as before, the file is not truncated, and the
descriptor is left after the prefix, ahead of the cursor. -/
theorem C5_oversized_torn_tail_panics (c : Conn) (hopen : c.file.isOpen = true)
    (hne : (c.file.data.drop c.file.off).take MaxVarintLen64 ≠ [])
    (hn : 0 < (Varint ((c.file.data.drop c.file.off).take MaxVarintLen64)).2)
    (hsize : (maxAlloc : Int) <
      (Varint ((c.file.data.drop c.file.off).take MaxVarintLen64)).1) :
    ∃ c1, Read c = .panic .makesliceLenOutOfRange c1 ∧ c1.file.data = c.file.data ∧
      c1.isEnd = c.isEnd ∧ c1.cur = c.cur ∧ c1.cache = c.cache ∧
      c1.file.off = c.file.off +
        (Varint ((c.file.data.drop c.file.off).take MaxVarintLen64)).2.toNat :=
  ⟨_, Read_make_panics c hopen hne hn (Or.inr hsize), rfl, rfl, rfl, rfl, rfl⟩

/-- Witness of C5: a write-capable handle on the ten-byte file `0x80` (nine times), `0x01`,
a complete length prefix that declares `2^62` payload bytes of which none is present. -/
theorem C5_oversized_torn_tail_panics_witness :
    Varint [0x80, 0x80, 0x80, 0x80, 0x80, 0x80, 0x80, 0x80, 0x80, 0x01] = (2 ^ 62, 10) ∧
    ∃ c1, Read (Open [0x80, 0x80, 0x80, 0x80, 0x80, 0x80, 0x80, 0x80, 0x80, 0x01]) =
        .panic .makesliceLenOutOfRange c1 ∧
      c1.file.data = (Open [0x80, 0x80, 0x80, 0x80, 0x80, 0x80, 0x80, 0x80, 0x80, 0x01]).file.data ∧
      c1.isEnd = (Open [0x80, 0x80, 0x80, 0x80, 0x80, 0x80, 0x80, 0x80, 0x80, 0x01]).isEnd ∧
      c1.cur = (Open [0x80, 0x80, 0x80, 0x80, 0x80, 0x80, 0x80, 0x80, 0x80, 0x01]).cur ∧
      c1.cache = (Open [0x80, 0x80, 0x80, 0x80, 0x80, 0x80, 0x80, 0x80, 0x80, 0x01]).cache ∧
      c1.file.off = (Open [0x80, 0x80, 0x80, 0x80, 0x80, 0x80, 0x80, 0x80, 0x80, 0x01]).file.off +
        (Varint (((Open [0x80, 0x80, 0x80, 0x80, 0x80, 0x80, 0x80, 0x80, 0x80,
          0x01]).file.data.drop
            (Open [0x80, 0x80, 0x80, 0x80, 0x80, 0x80, 0x80, 0x80, 0x80, 0x01]).file.off).take
              MaxVarintLen64)).2.toNat :=
  ⟨by decide,
    C5_oversized_torn_tail_panics
      (Open [0x80, 0x80, 0x80, 0x80, 0x80, 0x80, 0x80, 0x80, 0x80, 0x01])
      (by decide) (by decide) (by decide) (by decide)⟩

/-- C6, what the code does.  For a file made of the complete frames of `ps` followed by a
torn tail `t`, a read-only handle returns the payloads of `ps` from `len ps` calls of
`Read()`, and the next `Read()` returns the nil slice with a nil error, not `io.EOF`, and
leaves the handle unchanged, the at-end flag still off. -/
theorem C6_readOnly_torn_tail_returns_nil_nil (ps : List (List Byte)) (q t : List Byte)
    (hb : ∀ x ∈ ps, x.length ≤ maxAlloc) (ht : TornOf q t) :
    ∃ c1, readMany ps.length (OpenReadOnly (encode ps ++ t)) = some (ps, c1) ∧
      Read c1 = .ret (none, none) c1 ∧ c1.isEnd = false := by
  have h0 := inv0_OpenReadOnly ps t hb
  obtain ⟨c1, hr1, h1, hi1, he1, hl1⟩ := readMany_spec ps.length
    (OpenReadOnly (encode ps ++ t)) 0 h0 rfl (by omega)
  have hi1b : c1.cur.Index = (ps.length : Int) := by rw [hi1]; simp
  have hlock : c1.locked = false := by rw [hl1]; rfl
  refine ⟨c1, ?_, Read_torn_readOnly h1 hi1b q hlock ht, by rw [he1]; rfl⟩
  rw [hr1]; simp

/-- Witness of C6: the file is the single byte `0x02`, a length prefix that announces one
payload byte of which none is present; the first `Read()` returns `(nil, nil)`. -/
theorem C6_readOnly_torn_tail_returns_nil_nil_witness :
    (∀ x ∈ ([] : List (List Byte)), x.length ≤ maxAlloc) ∧ TornOf [0x41] [2] ∧
    ∃ c1, readMany ([] : List (List Byte)).length (OpenReadOnly (encode [] ++ [2])) =
        some ([], c1) ∧
      Read c1 = .ret (none, none) c1 ∧ c1.isEnd = false :=
  ⟨by decide, by decide, C6_readOnly_torn_tail_returns_nil_nil [] [0x41] [2] (by decide)
    (by decide)⟩

/-- C7, what the code does.  When the bytes at the descriptor's offset start with a complete
varint that decodes to a negative length, `Read()` panics in `make([]byte, size)`; no
`malformed data` error is returned.  The file bytes are unchanged at the panic. -/
theorem C7_negative_length_panics (c : Conn) (hopen : c.file.isOpen = true)
    (hne : (c.file.data.drop c.file.off).take MaxVarintLen64 ≠ [])
    (hn : 0 < (Varint ((c.file.data.drop c.file.off).take MaxVarintLen64)).2)
    (hsize : (Varint ((c.file.data.drop c.file.off).take MaxVarintLen64)).1 < 0) :
    ∃ c1, Read c = .panic .makesliceLenOutOfRange c1 ∧ c1.file.data = c.file.data := by
  obtain ⟨b, hbdef⟩ : ∃ b, b = (c.file.data.drop c.file.off).take MaxVarintLen64 := ⟨_, rfl⟩
  rw [← hbdef] at hne hn hsize
  have hread : c.file.Read MaxVarintLen64 =
      (b, none, { c.file with off := c.file.off + b.length }) := by
    have h10 : ¬ (MaxVarintLen64 = 0) := by decide
    unfold OsFile.Read
    simp only [hopen, not_true_eq_false, if_false, h10, ← hbdef, hne]
  have hlen : b.length ≤ 10 := by
    rw [hbdef, List.length_take, MaxVarintLen64]; omega
  have hn0 : ¬ (Varint b).2 = 0 := by omega
  have hnn : ¬ (Varint b).2 < 0 := by omega
  have hseek : ∃ r, OsFile.Seek { c.file with off := c.file.off + b.length }
      ((Varint b).2 - (b.length : Int)) SeekCurrent =
        .ok (r, { c.file with off := (((c.file.off + b.length : Nat) : Int) +
          ((Varint b).2 - (b.length : Int))).toNat }) := by
    have hne2 : ¬ (SeekCurrent = SeekStart) := by decide
    unfold OsFile.Seek
    simp only [hopen, not_true_eq_false, if_false, hne2]
    rw [if_neg (by push_cast; omega)]
    exact ⟨_, rfl⟩
  obtain ⟨r, hseek⟩ := hseek
  refine ⟨{ c with file := { c.file with off := (((c.file.off + b.length : Nat) : Int) +
          ((Varint b).2 - (b.length : Int))).toNat } }, ?_, rfl⟩
  unfold Read readElem
  rw [hread]
  simp only [ne_eq, not_true_eq_false, false_and, if_false, hn0, hnn]
  rw [hseek]
  simp only [hsize, true_or, if_true]

/-- Witness of C7: the file is the single byte `0x01`, which decodes to the length `-1`. -/
theorem C7_negative_length_panics_witness :
    (Open [0x01]).file.isOpen = true ∧
    (Varint (((Open [0x01]).file.data.drop (Open [0x01]).file.off).take MaxVarintLen64)).1 = -1 ∧
    ∃ c1, Read (Open [0x01]) = .panic .makesliceLenOutOfRange c1 ∧
      c1.file.data = (Open [0x01]).file.data :=
  ⟨by decide, by decide,
    C7_negative_length_panics (Open [0x01]) (by decide) (by decide) (by decide) (by decide)⟩

/-- C8 (seek range).  On a handle in a reachable state over a file of exactly the complete
frames of `ps` (a state of the kind `Inv`, see `reachableOver_inv_of_data`),
`seek(t, Start)` returns; it returns an error exactly when `t < 0` or `t > len ps`; when it
returns no error it returns `t` and leaves `cur.Index = t`; for `t < 0` the error is
`seek before start` and the handle, cursor, cache and file included, is unchanged; for
`t > len ps` the error is `seek after end`. -/
theorem C8_seek_fails_exactly_out_of_range (ps : List (List Byte)) (c : Conn) (t : Int)
    (fuel : Nat) (hinv : Inv ps [] c) (hfuel : ps.length < fuel) :
    ∃ v c1, seek fuel c t SeekStart = .ret v c1 ∧
      (v.2 ≠ none ↔ (t < 0 ∨ (ps.length : Int) < t)) ∧
      (v.2 = none → v.1 = t ∧ c1.cur.Index = t) ∧
      (t < 0 → v.2 = some .seekBeforeStart ∧ c1 = c) ∧
      ((ps.length : Int) < t → v.2 = some .seekAfterEnd) := by
  have hseek : seek fuel c t SeekStart = seekIndex fuel c t := by
    unfold seek; simp only [if_true]
  rw [hseek]
  by_cases hneg : t < 0
  · have hcur := hinv.1.2.2.2.2.2.1.1
    refine ⟨(-1, some .seekBeforeStart), c, ?_, ?_, ?_, ?_, ?_⟩
    · unfold seekIndex
      rw [if_neg (by omega), if_pos hneg]
    · simp [hneg]
    · simp
    · intro _; exact ⟨rfl, rfl⟩
    · intro h; omega
  · by_cases hN : t ≤ (ps.length : Int)
    · obtain ⟨c1, hr, h1, hi1, hl1⟩ := seekIndex_to hinv t (by omega) hN
        fuel (by omega)
      refine ⟨(t, none), c1, hr, ?_, ?_, ?_, ?_⟩
      · simp only [ne_eq, not_true_eq_false, false_iff]; omega
      · intro _; exact ⟨rfl, hi1⟩
      · intro h; omega
      · intro h; omega
    · obtain ⟨c1, hr, h1, hi1, hl1⟩ := seekIndex_after_end hinv t (by omega) hfuel
      refine ⟨(-1, some .seekAfterEnd), c1, hr, ?_, ?_, ?_, ?_⟩
      · simp only [ne_eq, reduceCtorEq, not_false_eq_true, true_iff]; omega
      · simp
      · intro h; omega
      · intro _; rfl

/-- Witness of C8: `seek(4, Start)` on a three-record file, from the start. -/
theorem C8_seek_fails_exactly_out_of_range_witness :
    Inv [[0x41], [], [1, 2, 3]] [] (Open [2, 0x41, 0, 6, 1, 2, 3]) ∧
    ∃ v c1, seek 4 (Open [2, 0x41, 0, 6, 1, 2, 3]) 4 SeekStart = .ret v c1 ∧
      (v.2 ≠ none ↔ ((4 : Int) < 0 ∨ (([[0x41], [], [1, 2, 3]] : List (List Byte)).length : Int) < 4)) ∧
      (v.2 = none → v.1 = 4 ∧ c1.cur.Index = 4) ∧
      ((4 : Int) < 0 → v.2 = some .seekBeforeStart ∧ c1 = Open [2, 0x41, 0, 6, 1, 2, 3]) ∧
      ((([[0x41], [], [1, 2, 3]] : List (List Byte)).length : Int) < 4 → v.2 = some .seekAfterEnd) :=
  ⟨by decide, C8_seek_fails_exactly_out_of_range [[0x41], [], [1, 2, 3]] _ 4 4 (by decide)
    (by decide)⟩

/-- C9 (truncate by record index).  On a write-capable handle in a reachable state over a
file of exactly the complete frames of `ps` (a state of the kind `Inv`, see
`reachableOver_inv_of_data`), for every `k` with `k ≤ len ps`, `Truncate(k)` returns no
error and leaves the file equal to exactly the frames of the first `k` payloads; a following
`Append(p)` returns no error and leaves exactly those `k` frames followed by the frame of
`p`, so that `p` is the record at index `k`. -/
theorem C9_truncate_then_append (ps : List (List Byte)) (c : Conn) (k : Nat) (p : List Byte)
    (fuel : Nat) (hinv : Inv ps [] c) (hlock : c.locked = true) (hk : k ≤ ps.length)
    (hp : p.length ≤ maxAlloc) (hfuel : ps.length < fuel) :
    ∃ c1 c2, Truncate fuel c (k : Int) = .ret none c1 ∧
      c1.file.data = encode (ps.take k) ∧
      Append fuel c1 (some p) = .ret none c2 ∧
      c2.file.data = encode (ps.take k ++ [p]) ∧
      (ps.take k ++ [p])[k]? = some p := by
  obtain ⟨c1, hr1, h1, hi1, hl1, hd1⟩ := Truncate_spec hinv hlock hk fuel (by omega)
  have hlen : (ps.take k).length = k := by rw [List.length_take, Nat.min_eq_left hk]
  obtain ⟨c2, hr2, h2, -, -, -, hd2, -⟩ := Append_spec h1 hl1 []
    (Or.inl rfl) hp fuel (Or.inr (by omega))
  refine ⟨c1, c2, hr1, hd1, hr2, ?_, ?_⟩
  · rw [hd2, encode_append]; simp [encode]
  · rw [List.getElem?_append_right (by omega), hlen]; simp

/-- Witness of C9: truncating a three-record file to one record from its end. -/
theorem C9_truncate_then_append_witness :
    Inv [[0x41], [], [1, 2, 3]] []
      { Open [2, 0x41, 0, 6, 1, 2, 3] with
        file := { (Open [2, 0x41, 0, 6, 1, 2, 3]).file with off := 7 }
        cur := ⟨3, 7⟩
        isEnd := true } ∧
    ∃ c1 c2, Truncate 4
        { Open [2, 0x41, 0, 6, 1, 2, 3] with
          file := { (Open [2, 0x41, 0, 6, 1, 2, 3]).file with off := 7 }
          cur := ⟨3, 7⟩
          isEnd := true } ((1 : Nat) : Int) = .ret none c1 ∧
      c1.file.data = encode (([[0x41], [], [1, 2, 3]] : List (List Byte)).take 1) ∧
      Append 4 c1 (some [9]) = .ret none c2 ∧
      c2.file.data = encode (([[0x41], [], [1, 2, 3]] : List (List Byte)).take 1 ++ [[9]]) ∧
      (([[0x41], [], [1, 2, 3]] : List (List Byte)).take 1 ++ [[9]])[1]? = some [9] :=
  ⟨by decide, C9_truncate_then_append [[0x41], [], [1, 2, 3]] _ 1 [9] 4 (by decide) (by decide)
    (by decide) (by decide) (by decide)⟩

/-- C10 (cache invariant).  In every state reachable from `Open` or `OpenReadOnly`, on a
file of any content, by any sequence of `Read`, `Append`, `seek` (any whence), `seekEnd`
and `Truncate` calls, whether they succeed, fail or panic, the cache is non-empty, its
first entry is `{0, 0}`, its entries are strictly increasing in both `Index` and `Pos`, and
every entry has `Index ≤ cur.Index` and `Pos ≤ cur.Pos`. -/
theorem C10_cache_invariant (c : Conn) (h : Reachable c) :
    c.cache ≠ [] ∧ c.cache.head? = some ⟨0, 0⟩ ∧
    c.cache.Pairwise (fun a b => a.Index < b.Index ∧ a.Pos < b.Pos) ∧
    ∀ e ∈ c.cache, e.Index ≤ c.cur.Index ∧ e.Pos ≤ c.cur.Pos := by
  have hc := reachable_cacheInv h
  exact ⟨cacheOK_ne_nil hc, hc.1, hc.2.1, hc.2.2⟩

/-- Witness of C10: the state after `Append` then `seek(5, Start)`, which fails, on a file
that was opened with a torn tail. -/
theorem C10_cache_invariant_witness :
    Reachable
      { Open [2, 0x41, 2, 9] with
        file := { (Open [2, 0x41, 2, 9]).file with off := 4 }
        cur := ⟨2, 4⟩
        isEnd := true } ∧
    ([⟨0, 0⟩] : List cursor) ≠ [] ∧ ([⟨0, 0⟩] : List cursor).head? = some ⟨0, 0⟩ ∧
    ([⟨0, 0⟩] : List cursor).Pairwise (fun a b => a.Index < b.Index ∧ a.Pos < b.Pos) ∧
    ∀ e ∈ ([⟨0, 0⟩] : List cursor), e.Index ≤ 2 ∧ e.Pos ≤ 4 := by
  have hr : Reachable
      { Open [2, 0x41, 2, 9] with
        file := { (Open [2, 0x41, 2, 9]).file with off := 4 }
        cur := ⟨2, 4⟩
        isEnd := true } :=
    Reachable.step _ _
      (Reachable.step _ _ (Reachable.opened [2, 0x41, 6, 1])
        (Step.append 5 _ (some [9]) { Open [2, 0x41, 2, 9] with
          file := { (Open [2, 0x41, 2, 9]).file with off := 4 }
          cur := ⟨2, 4⟩
          isEnd := true } (by decide)))
      (Step.seek 5 _ 5 SeekStart _ (by decide))
  exact ⟨hr, C10_cache_invariant _ hr⟩

/-- C11, what the code does.  A write-capable handle is opened on the ten-byte file `0x80`
(nine times), `0x01`: a torn tail whose complete length prefix declares `2^62` payload
bytes.  The first `Read()` panics in `make([]byte, size)` and leaves the descriptor at
offset 10 with the cursor at `{0, 0}`; the next `Read()` finds the descriptor at the end of
the file, returns `io.EOF` and sets the at-end flag; `Append([0x41])` then writes the frame
`[2, 0x41]` at offset 10 and moves the cursor to `{1, 2}`.  The file now begins with the
prefix that declares `2^62` bytes and is 12 bytes long, so it holds no complete frame, and
the cursor `{1, 2}` is not a frame boundary of it. -/
theorem C11_cursor_invariant_broken_after_panic :
    ∃ c1 c2 c3,
      Read (Open [0x80, 0x80, 0x80, 0x80, 0x80, 0x80, 0x80, 0x80, 0x80, 0x01]) =
        .panic .makesliceLenOutOfRange c1 ∧
      c1.file.off = 10 ∧ c1.cur = ⟨0, 0⟩ ∧
      Read c1 = .ret (none, some .EOF) c2 ∧ c2.isEnd = true ∧
      Append 0 c2 (some [0x41]) = .ret none c3 ∧
      c3.locked = true ∧
      c3.file.data = [0x80, 0x80, 0x80, 0x80, 0x80, 0x80, 0x80, 0x80, 0x80, 0x01, 2, 0x41] ∧
      c3.cur = ⟨1, 2⟩ ∧ c3.cache = [⟨0, 0⟩] ∧
      Varint (c3.file.data.take MaxVarintLen64) = (2 ^ 62, 10) ∧
      ¬ ∃ ps t, c3.file.data = encode ps ++ t ∧ Valid ps c3.cur := by
  refine ⟨{ Open [0x80, 0x80, 0x80, 0x80, 0x80, 0x80, 0x80, 0x80, 0x80, 0x01] with
      file := { (Open [0x80, 0x80, 0x80, 0x80, 0x80, 0x80, 0x80, 0x80, 0x80, 0x01]).file with
        off := 10 } },
    { Open [0x80, 0x80, 0x80, 0x80, 0x80, 0x80, 0x80, 0x80, 0x80, 0x01] with
      file := { (Open [0x80, 0x80, 0x80, 0x80, 0x80, 0x80, 0x80, 0x80, 0x80, 0x01]).file with
        off := 10 }
      isEnd := true },
    { Open [0x80, 0x80, 0x80, 0x80, 0x80, 0x80, 0x80, 0x80, 0x80, 0x01, 2, 0x41] with
      file := { (Open [0x80, 0x80, 0x80, 0x80, 0x80, 0x80, 0x80, 0x80, 0x80, 0x01, 2,
        0x41]).file with off := 12 }
      isEnd := true
      cur := ⟨1, 2⟩ },
    by decide, rfl, rfl, by decide, rfl, by decide, rfl, rfl, rfl, rfl, by decide, ?_⟩
  exact not_valid_of_oversized _ (by decide) (by decide) _ (by decide)

/-- C12 (Append and Read do the same bookkeeping).  Let `c` be a write-capable handle in a
state of the kind `Inv` over a file of exactly the complete frames of `ps`, with the at-end
flag set (so the cursor is at the end of the file), and `p` a payload.  Then `Append(p)` on
`c` returns no error; one `Read()` on the handle that has the cursor and cache of `c` over
the file that already holds the frame of `p` at that position returns `p`; the two resulting
handles have the same cursor and the same cache (and the same file content); `Index` has
grown by 1 and `Pos` by the prefix width plus `len(p)`; and the cache is the old cache with
the new cursor appended when the new `Pos` minus the last checkpoint's `Pos` is at least
`32768`, and the old cache unchanged otherwise. -/
theorem C12_append_read_same_bookkeeping (ps : List (List Byte)) (c : Conn) (p : List Byte)
    (fuel : Nat) (hinv : Inv ps [] c) (hlock : c.locked = true) (hend : c.isEnd = true)
    (hp : p.length ≤ maxAlloc) :
    ∃ ca cr last, Append fuel c (some p) = .ret none ca ∧
      Read { c with file := { c.file with data := c.file.data ++ frame p } }
        = .ret (some p, none) cr ∧
      ca.cur = cr.cur ∧ ca.cache = cr.cache ∧ ca.file.data = cr.file.data ∧
      ca.cur.Index = c.cur.Index + 1 ∧
      ca.cur.Pos = c.cur.Pos + (((PutVarint (p.length : Int)).length + p.length : Nat) : Int) ∧
      c.cache.getLast? = some last ∧
      (ca.cur.Pos - last.Pos ≥ 32768 → ca.cache = c.cache ++ [ca.cur]) ∧
      (¬ ca.cur.Pos - last.Pos ≥ 32768 → ca.cache = c.cache) := by
  obtain ⟨h0, he⟩ := hinv
  obtain ⟨hi, -⟩ := he hend
  obtain ⟨hdata, hbound, hopen, hmode, hsync, hcur, hcache, hvalid⟩ := h0
  have h0 : Inv0 ps [] c := ⟨hdata, hbound, hopen, hmode, hsync, hcur, hcache, hvalid⟩
  obtain ⟨hoff, hpos⟩ := inv0_end_off h0 hi
  have hne := cacheOK_ne_nil hcache
  obtain ⟨last, hl⟩ : ∃ last, c.cache.getLast? = some last := by
    cases hc : c.cache.getLast? with
    | none => exact absurd (List.getLast?_eq_none_iff.mp hc) hne
    | some l => exact ⟨l, rfl⟩
  have hdl : c.file.data.length = (encode ps).length := by rw [hdata]; simp
  have ha := appendFrame_eq c p last hopen (by rw [hmode, hlock]) (by rw [hoff, hdl]) hl
  have hinv1 : Inv0 (ps ++ [p]) []
      { c with file := { c.file with data := c.file.data ++ frame p } } := by
    refine ⟨?_, ?_, hopen, hmode, hsync, valid_append hcur _, hcache,
      fun e he => valid_append (hvalid e he) _⟩
    · show c.file.data ++ frame p = encode (ps ++ [p]) ++ []
      rw [hdata, encode_append]; simp [encode]
    · intro q hq
      rcases List.mem_append.mp hq with hq | hq
      · exact hbound q hq
      · rw [List.mem_singleton.mp hq]; exact hp
  have hr := Read_frame_eq hinv1 hi
    (show (ps ++ [p])[ps.length]? = some p by simp) last hl
  have hA : Append fuel c (some p) = appendFrame c p := by
    unfold Append
    simp only [hend, not_true_eq_false, if_false]
  rw [ha] at hA
  refine ⟨_, _, last, hA, hr, rfl, rfl, rfl, rfl, ?_, hl, ?_, ?_⟩
  · show c.cur.Pos + ((frame p).length : Int) = _
    rw [frame_length]
  · intro hge
    show (if c.cur.Pos + ((frame p).length : Int) - last.Pos ≥ stepCacheOffset then _ else _) = _
    rw [if_pos (by unfold stepCacheOffset; exact hge)]
  · intro hlt
    show (if c.cur.Pos + ((frame p).length : Int) - last.Pos ≥ stepCacheOffset then _ else _) = _
    rw [if_neg (by unfold stepCacheOffset; exact hlt)]

/-- Witness of C12: appending `[0x42, 0x43]` at the end of a one-record file. -/
theorem C12_append_read_same_bookkeeping_witness :
    Inv [[0x41]] []
      { Open [2, 0x41] with
        file := { (Open [2, 0x41]).file with off := 2 }
        cur := ⟨1, 2⟩
        isEnd := true } ∧
    ∃ ca cr last, Append 0
        { Open [2, 0x41] with
          file := { (Open [2, 0x41]).file with off := 2 }
          cur := ⟨1, 2⟩
          isEnd := true } (some [0x42, 0x43]) = .ret none ca ∧
      Read { Open [2, 0x41, 4, 0x42, 0x43] with
          file := { (Open [2, 0x41, 4, 0x42, 0x43]).file with off := 2 }
          cur := ⟨1, 2⟩
          isEnd := true } = .ret (some [0x42, 0x43], none) cr ∧
      ca.cur = cr.cur ∧ ca.cache = cr.cache ∧ ca.file.data = cr.file.data ∧
      ca.cur.Index = 1 + 1 ∧
      ca.cur.Pos = 2 +
        (((PutVarint (([0x42, 0x43] : List Byte).length : Int)).length +
          ([0x42, 0x43] : List Byte).length : Nat) : Int) ∧
      ([⟨0, 0⟩] : List cursor).getLast? = some last ∧
      (ca.cur.Pos - last.Pos ≥ 32768 → ca.cache = [⟨0, 0⟩] ++ [ca.cur]) ∧
      (¬ ca.cur.Pos - last.Pos ≥ 32768 → ca.cache = [⟨0, 0⟩]) :=
  ⟨by decide, C12_append_read_same_bookkeeping [[0x41]] _ [0x42, 0x43] 0 (by decide)
    (by decide) (by decide) (by decide)⟩

/-- C13 (a read-only handle never modifies the file).  Let `c` be any handle with
`locked = false`, over a file of any content, and let `c1` be a state that any sequence of
`Read`, `seek` and `seekEnd` calls (any arguments, any outcome) leads to from `c`.  Then one
more such call, leading to `c2`, leaves the file's bytes as they were before the call, which
are the bytes the file had in `c`, and the handle still has `locked = false`. -/
theorem C13_readOnly_never_modifies_file (c c1 c2 : Conn) (hro : c.locked = false)
    (hs : Relation.ReflTransGen ReadStep c c1) (h2 : ReadStep c1 c2) :
    c2.file.data = c1.file.data ∧ c1.file.data = c.file.data ∧ c2.locked = false := by
  have h1 := readSteps_frameR hs
  have h3 := readStep_frameR h1 h2
  refine ⟨?_, h1.2.2.2.2.2 hro, ?_⟩
  · rw [h3.2.2.2.2.2 hro, h1.2.2.2.2.2 hro]
  · rw [h3.1, hro]

/-- Witness of C13: a read-only handle on a file of one frame followed by a torn tail; the
first `Read` returns the record, the second meets the torn tail. -/
theorem C13_readOnly_never_modifies_file_witness :
    (OpenReadOnly [2, 0x41, 2]).locked = false ∧
    ({ OpenReadOnly [2, 0x41, 2] with
        file := { (OpenReadOnly [2, 0x41, 2]).file with off := 2 }
        cur := ⟨1, 2⟩ } : Conn).file.data = [2, 0x41, 2] ∧
    ([2, 0x41, 2] : List Byte) = (OpenReadOnly [2, 0x41, 2]).file.data ∧
    ({ OpenReadOnly [2, 0x41, 2] with
        file := { (OpenReadOnly [2, 0x41, 2]).file with off := 2 }
        cur := ⟨1, 2⟩ } : Conn).locked = false :=
  ⟨by decide,
    C13_readOnly_never_modifies_file (OpenReadOnly [2, 0x41, 2])
      { OpenReadOnly [2, 0x41, 2] with
        file := { (OpenReadOnly [2, 0x41, 2]).file with off := 2 }
        cur := ⟨1, 2⟩ }
      { OpenReadOnly [2, 0x41, 2] with
        file := { (OpenReadOnly [2, 0x41, 2]).file with off := 2 }
        cur := ⟨1, 2⟩ }
      (by decide)
      (Relation.ReflTransGen.single (ReadStep.read _ _ (by decide)))
      (ReadStep.read _ _ (by decide))⟩

/-- C14 (Close is guarded against re-close).  For every handle `c` and shared state `s`,
the handle that `Close()` leaves has `closed` set; when `c` was not closed before, its
descriptor is closed and, on a handle that holds the lock, the lock on its path is released.
From then on, after any `Read`, `Append`, `seek`, `seekEnd` and `Truncate` calls, every
`Close()` returns `fs.ErrClosed` and changes neither the handle, in any field, nor the
shared state: the lock is not released and the descriptor is not closed a second time. -/
theorem C14_close_guards_reclose (s : Sys) (c : Conn) :
    (Close s c).2.1.closed = true ∧
    (c.closed = false → (Close s c).2.1.file.isOpen = false ∧
      (c.locked = true → c.file.name ∉ (Close s c).2.2.locks)) ∧
    ∀ c1, Relation.ReflTransGen Step (Close s c).2.1 c1 →
      ∀ s2, Close s2 c1 = (some .ErrClosed, c1, s2) := by
  have h1 : (Close s c).2.1.closed = true := by
    unfold Close
    by_cases hc : c.closed = true
    · rw [if_pos hc]; exact hc
    · rw [if_neg hc]
  refine ⟨h1, ?_, ?_⟩
  · intro hc
    unfold Close
    rw [if_neg (by rw [hc]; simp)]
    refine ⟨?_, ?_⟩
    · show (OsFile.Close c.file).2.isOpen = false
      unfold OsFile.Close
      by_cases ho : c.file.isOpen = true
      · rw [if_neg (by simpa using ho)]
      · rw [if_pos ho]; simpa using ho
    · intro hl
      simp only [hl, if_true]
      unfold filelock.Unlock
      simp
  · intro c1 hs s2
    have hcl : c1.closed = true := by rw [(steps_fixed hs).2.1]; exact h1
    unfold Close
    rw [if_pos hcl]

/-- Witness of C14: a write-capable handle on `"log"` is closed, a `Read()` is tried on the
closed handle, and `Close()` is called again. -/
theorem C14_close_guards_reclose_witness :
    Close ⟨["log"]⟩
        { Open [2, 0x41] with
          file := { (Open [2, 0x41]).file with name := "log", isOpen := false }
          closed := true } =
      (some .ErrClosed,
        { Open [2, 0x41] with
          file := { (Open [2, 0x41]).file with name := "log", isOpen := false }
          closed := true },
        ⟨["log"]⟩) :=
  (C14_close_guards_reclose ⟨["log"]⟩
    { Open [2, 0x41] with file := { (Open [2, 0x41]).file with name := "log" } }).2.2
    { Open [2, 0x41] with
      file := { (Open [2, 0x41]).file with name := "log", isOpen := false }
      closed := true }
    (Relation.ReflTransGen.single (Step.read _ _ (by decide))) ⟨["log"]⟩

/-- C15 (single-writer exclusivity).  Let the lock on `path` be free.  Then `Open(path)`
succeeds and takes the lock; for every state `c1` that this handle reaches by `Read`,
`Append`, `seek`, `seekEnd` and `Truncate` calls, the handle is not closed and, in every
shared state in which the lock on `path` is held, as in the one that `Open` left, a second
`Open(path)` fails with the lock-unavailable error; the first handle's `Close()` returns no
error and releases the lock, after which a new `Open(path)` succeeds. -/
theorem C15_single_writer (s : Sys) (path : String) (data : List Byte)
    (hfree : path ∉ s.locks) :
    ∃ c s1, OpenAt s path data = .ok (c, s1) ∧ c.locked = true ∧ path ∈ s1.locks ∧
      (∀ s2 data2, path ∈ s2.locks → OpenAt s2 path data2 = .error .LockUnavailable) ∧
      ∀ c1, Relation.ReflTransGen Step c c1 →
        c1.closed = false ∧
        (∀ data2, OpenAt s1 path data2 = .error .LockUnavailable) ∧
        ∀ s2, ∃ c2 s3, Close s2 c1 = (none, c2, s3) ∧ c2.closed = true ∧ path ∉ s3.locks ∧
          ∀ data3, ∃ c3 s4, OpenAt s3 path data3 = .ok (c3, s4) ∧ c3.locked = true := by
  have hfail : ∀ s2 data2, path ∈ s2.locks → OpenAt s2 path data2 = .error .LockUnavailable := by
    intro s2 data2 hin
    unfold OpenAt filelock.Lock
    simp only [hin, if_true]
  have hok : ∀ s2 data2, path ∉ s2.locks → OpenAt s2 path data2 =
      .ok ({ Open data2 with file := { (Open data2).file with name := path } },
        { s2 with locks := path :: s2.locks }) := by
    intro s2 data2 hin
    unfold OpenAt filelock.Lock
    simp only [hin, if_false]
  refine ⟨_, _, hok s data hfree, rfl, List.mem_cons_self _ _, hfail, ?_⟩
  intro c1 hs
  obtain ⟨a1, a2, a3, a4⟩ := steps_fixed hs
  have hl : c1.locked = true := a1
  have hc : c1.closed = false := a2
  have hn : c1.file.name = path := a3
  have ho : c1.file.isOpen = true := a4
  refine ⟨hc, fun data2 => hfail _ data2 (List.mem_cons_self _ _), ?_⟩
  intro s2
  have hnot : path ∉ (s2.locks.filter (fun p => p ≠ c1.file.name)) := by
    rw [hn]
    simp
  have hclose : Close s2 c1 = (none,
      { c1 with closed := true, file := { c1.file with isOpen := false } },
      { s2 with locks := s2.locks.filter (fun p => p ≠ c1.file.name) }) := by
    unfold Close
    rw [if_neg (by rw [hc]; simp)]
    simp only [hl, if_true]
    unfold filelock.Unlock OsFile.Close
    simp only [ho, not_true_eq_false, if_false, if_true]
  exact ⟨_, _, hclose, rfl, hnot, fun data3 => ⟨_, _, hok _ data3 hnot, rfl⟩⟩

/-- Witness of C15: no lock is held, and `"log"` is opened for writing. -/
theorem C15_single_writer_witness :
    "log" ∉ (⟨[]⟩ : Sys).locks ∧
    ∃ c s1, OpenAt ⟨[]⟩ "log" [2, 0x41] = .ok (c, s1) ∧ c.locked = true ∧ "log" ∈ s1.locks ∧
      (∀ s2 data2, "log" ∈ s2.locks → OpenAt s2 "log" data2 = .error .LockUnavailable) ∧
      ∀ c1, Relation.ReflTransGen Step c c1 →
        c1.closed = false ∧
        (∀ data2, OpenAt s1 "log" data2 = .error .LockUnavailable) ∧
        ∀ s2, ∃ c2 s3, Close s2 c1 = (none, c2, s3) ∧ c2.closed = true ∧ "log" ∉ s3.locks ∧
          ∀ data3, ∃ c3 s4, OpenAt s3 "log" data3 = .ok (c3, s4) ∧ c3.locked = true :=
  ⟨by decide, C15_single_writer ⟨[]⟩ "log" [2, 0x41] (by decide)⟩

/-- C16 (checkpoint lookup).  Let the cache of the handle `c` start with `{0, 0}` and be
strictly increasing in `Index`, and let `t ≥ 0`.  Then the search loop of `seek`, started on
the whole cache, stops after at most `len(cache)` iterations without indexing outside the
cache, at a position `m` with `cache[m].Index ≤ t` such that `m` is the last position or
`cache[m+1].Index > t`; `cache[m]` has the greatest `Index` among the entries with
`Index ≤ t`; the entries `cache[0..m]` that `seek` keeps all have `Index ≤ t` and the
entries it drops all have `Index > t`.  When `t` is not the cursor's index, `seek(t, Start)`
continues from the handle whose cache is cut to `cache[0..m]`, repositioned at `cache[m]`
for a backward seek, and replays from there.  After a successful `seek(t, Start)` the cursor
is at index `t` and every cache entry has `Index ≤ t`; when `t` is the cursor's index
already, `seek` returns without touching the cache, and this rests on the cache invariant
that no entry is beyond the cursor. -/
theorem C16_checkpoint_search (c : Conn) (t : Int)
    (hhead : c.cache.head? = some ⟨0, 0⟩)
    (hinc : c.cache.Pairwise (fun a b => a.Index < b.Index)) (ht : 0 ≤ t) :
    ∃ ref m,
      (∀ fuel, c.cache.length ≤ fuel →
        searchLoop c.cache t fuel 0 c.cache.length = some (some (ref, m + 1))) ∧
      c.cache[m]? = some ref ∧ ref.Index ≤ t ∧
      (m + 1 = c.cache.length ∨ ∃ e, c.cache[m + 1]? = some e ∧ t < e.Index) ∧
      (∀ e ∈ c.cache, e.Index ≤ t → e.Index ≤ ref.Index) ∧
      (∀ e ∈ c.cache.take (m + 1), e.Index ≤ t) ∧
      (∀ e ∈ c.cache.drop (m + 1), t < e.Index) ∧
      (t ≠ c.cur.Index → ∀ fuel, seek fuel c t SeekStart =
        if t < c.cur.Index ∨ ref.Index > c.cur.Index then
          if c.file.isOpen = false then .ret (-1, some .ErrClosed) c
          else if ref.Pos < 0 then .ret (-1, some .EINVAL) c
          else replayLoop t fuel
            { c with
              file := { c.file with off := ref.Pos.toNat }
              cur := ref
              cache := c.cache.take (m + 1)
              isEnd := false }
        else replayLoop t fuel { c with cache := c.cache.take (m + 1), isEnd := false }) ∧
      ((t = c.cur.Index → ∀ e ∈ c.cache, e.Index ≤ c.cur.Index) →
        ∀ fuel v c1, seek fuel c t SeekStart = .ret (v, none) c1 →
          c1.cur.Index = t ∧ ∀ e ∈ c1.cache, e.Index ≤ t) := by
  have hne : c.cache ≠ [] := by
    intro h; rw [h] at hhead; simp at hhead
  have hlen : 0 < c.cache.length := List.length_pos.mpr hne
  have h0 : c.cache[0]? = some ⟨0, 0⟩ := by
    cases hc : c.cache with
    | nil => exact absurd hc hne
    | cons a l => rw [hc] at hhead; simpa using hhead
  have hR : ∀ e, c.cache[c.cache.length]? = some e → t < e.Index := by
    intro e he
    have := getElem?_lt he
    omega
  obtain ⟨ref, m, hs, hm, hle, hnext⟩ := searchLoop_spec c.cache t c.cache.length 0
    c.cache.length hlen (le_refl _) ⟨_, h0, ht⟩ hR (by omega)
  obtain ⟨hgr, htake, hdrop⟩ := search_greatest hinc hm hnext
  have htake2 : ∀ e ∈ c.cache.take (m + 1), e.Index ≤ t := fun e he => by
    have := htake e he
    omega
  have hstep : t ≠ c.cur.Index → ∀ fuel, seek fuel c t SeekStart =
      if t < c.cur.Index ∨ ref.Index > c.cur.Index then
        if c.file.isOpen = false then .ret (-1, some .ErrClosed) c
        else if ref.Pos < 0 then .ret (-1, some .EINVAL) c
        else replayLoop t fuel
          { c with
            file := { c.file with off := ref.Pos.toNat }
            cur := ref
            cache := c.cache.take (m + 1)
            isEnd := false }
      else replayLoop t fuel { c with cache := c.cache.take (m + 1), isEnd := false } :=
    fun hne2 fuel => seek_start_of_search fuel c t ref m hne2 (by omega)
      (searchLoop_mono _ _ _ _ _ _ hs _ (by omega))
  refine ⟨ref, m, fun fuel hf => searchLoop_mono _ _ _ _ _ _ hs fuel hf, hm, hle, ?_, hgr,
    htake2, hdrop, hstep, ?_⟩
  · have hmlt := getElem?_lt hm
    by_cases hlast : m + 1 = c.cache.length
    · exact Or.inl hlast
    · have h1 : m + 1 < c.cache.length := by omega
      exact Or.inr ⟨_, List.getElem?_eq_getElem h1, hnext _ (List.getElem?_eq_getElem h1)⟩
  · intro hcur fuel v c1 hr
    by_cases heq : t = c.cur.Index
    · have hr2 : seek fuel c t SeekStart = .ret (t, none) c := by
        unfold seek seekIndex
        rw [if_pos rfl, if_pos heq]
      rw [hr2] at hr
      simp only [Res.ret.injEq, Prod.mk.injEq, and_true] at hr
      obtain ⟨-, e2⟩ := hr
      subst e2
      refine ⟨heq.symm, fun e he => ?_⟩
      rw [heq]
      exact hcur heq e he
    · rw [hstep heq fuel] at hr
      split_ifs at hr with g1 g2 g3
      · simp at hr
      · simp at hr
      · exact (replayLoop_le t fuel _ v c1 hle htake2 hr).2
      · refine (replayLoop_le t fuel _ v c1 ?_ htake2 hr).2
        show c.cur.Index ≤ t
        omega

/-- Witness of C16: a cache of three checkpoints and the target index `250`, on a handle
whose cursor is further on, at index `300`. -/
theorem C16_checkpoint_search_witness :
    ([⟨0, 0⟩, ⟨100, 40000⟩, ⟨260, 80000⟩] : List cursor).head? = some ⟨0, 0⟩ ∧
    ([⟨0, 0⟩, ⟨100, 40000⟩, ⟨260, 80000⟩] : List cursor).Pairwise
      (fun a b => a.Index < b.Index) ∧
    (0 : Int) ≤ 250 ∧
    ∃ ref m,
      (∀ fuel, ([⟨0, 0⟩, ⟨100, 40000⟩, ⟨260, 80000⟩] : List cursor).length ≤ fuel →
        searchLoop [⟨0, 0⟩, ⟨100, 40000⟩, ⟨260, 80000⟩] 250 fuel 0
          ([⟨0, 0⟩, ⟨100, 40000⟩, ⟨260, 80000⟩] : List cursor).length =
          some (some (ref, m + 1))) ∧
      ([⟨0, 0⟩, ⟨100, 40000⟩, ⟨260, 80000⟩] : List cursor)[m]? = some ref ∧
      ref = ⟨100, 40000⟩ ∧ m = 1 := by
  obtain ⟨ref, m, h1, h2, h3, h4, h5, -⟩ := C16_checkpoint_search
    { Open [] with cur := ⟨300, 90000⟩, cache := [⟨0, 0⟩, ⟨100, 40000⟩, ⟨260, 80000⟩] } 250
    (by decide) (by decide) (by decide)
  have hs := h1 3 (by decide)
  have hd : searchLoop [⟨0, 0⟩, ⟨100, 40000⟩, ⟨260, 80000⟩] 250 3 0 3 =
      some (some (⟨100, 40000⟩, 1 + 1)) := by decide
  have e := hs.symm.trans hd
  simp only [Option.some.injEq, Prod.mk.injEq, Nat.add_right_cancel_iff] at e
  obtain ⟨e1, e2⟩ := e
  exact ⟨by decide, by decide, by decide, ref, m, h1, h2, e1, e2⟩

/-- C17, what the code does.  On a write-capable handle whose descriptor is open read-write
and positioned at the cursor, when the bytes at the cursor start with ten bytes that are all
`≥ 0x80` (`hd`), followed by any further data (`rest`), `Read()` does not return the
`malformed data` error: `binary.Varint` reports `n == 0` for ten continuation bytes, so
`readElem` takes them for a torn tail, and `Read` returns `io.EOF`, sets the at-end flag and
truncates the file at the cursor, removing the ten bytes and all the data after them. -/
theorem C17_ten_continuation_bytes_are_truncated (c : Conn) (hd rest : List Byte)
    (hopen : c.file.isOpen = true) (hrd : c.file.rdwr = true) (hlock : c.locked = true)
    (hsync : Sync c) (hlen : hd.length = 10) (hall : ∀ b ∈ hd, (0x80 : Byte) ≤ b)
    (hdata : c.file.data.drop c.file.off = hd ++ rest) :
    Read c = .ret (none, some .EOF)
      { c with
        file := { c.file with data := c.file.data.take c.file.off }
        isEnd := true } ∧
    c.file.data = c.file.data.take c.file.off ++ (hd ++ rest) ∧
    10 ≤ (hd ++ rest).length := by
  have hall2 : ∀ b ∈ hd, ¬ b < 0x80 := fun b hb => not_lt.mpr (hall b hb)
  have hre := readElem_continuation c hd rest hopen hlen hall2 hdata
  have hpos : (0 : Int) ≤ c.cur.Pos := by rw [← hsync]; omega
  have hr := Read_of_readElem_torn_locked c _ hre hopen hpos hlock hrd
  have hoff : c.cur.Pos.toNat = c.file.off := by
    have : (c.file.off : Int) = c.cur.Pos := hsync
    omega
  have hle : c.file.off ≤ c.file.data.length := by
    by_contra hgt
    have : c.file.data.drop c.file.off = [] := List.drop_of_length_le (by omega)
    rw [this] at hdata
    have := congrArg List.length hdata
    simp only [List.length_nil, List.length_append] at this
    omega
  refine ⟨?_, ?_, ?_⟩
  · rw [hr]
    simp only [hoff]
    have e0 : c.file.off - c.file.data.length = 0 := by omega
    rw [e0]
    simp
  · rw [← hdata, List.take_append_drop]
  · rw [List.length_append]; omega

/-- Witness of C17: ten bytes `0x80` followed by the complete frame `[2, 0x41]`; `Read()`
returns `io.EOF` and empties the file. -/
theorem C17_ten_continuation_bytes_are_truncated_witness :
    Read (Open [0x80, 0x80, 0x80, 0x80, 0x80, 0x80, 0x80, 0x80, 0x80, 0x80, 2, 0x41]) =
      .ret (none, some .EOF)
        { Open [0x80, 0x80, 0x80, 0x80, 0x80, 0x80, 0x80, 0x80, 0x80, 0x80, 2, 0x41] with
          file := { (Open [0x80, 0x80, 0x80, 0x80, 0x80, 0x80, 0x80, 0x80, 0x80, 0x80, 2,
              0x41]).file with
            data := ([0x80, 0x80, 0x80, 0x80, 0x80, 0x80, 0x80, 0x80, 0x80, 0x80, 2, 0x41] :
              List Byte).take 0 }
          isEnd := true } ∧
    ([0x80, 0x80, 0x80, 0x80, 0x80, 0x80, 0x80, 0x80, 0x80, 0x80, 2, 0x41] : List Byte) =
      ([0x80, 0x80, 0x80, 0x80, 0x80, 0x80, 0x80, 0x80, 0x80, 0x80, 2, 0x41] :
        List Byte).take 0 ++
      ([0x80, 0x80, 0x80, 0x80, 0x80, 0x80, 0x80, 0x80, 0x80, 0x80] ++ [2, 0x41]) ∧
    10 ≤ (([0x80, 0x80, 0x80, 0x80, 0x80, 0x80, 0x80, 0x80, 0x80, 0x80] : List Byte) ++
      [2, 0x41]).length :=
  C17_ten_continuation_bytes_are_truncated
    (Open [0x80, 0x80, 0x80, 0x80, 0x80, 0x80, 0x80, 0x80, 0x80, 0x80, 2, 0x41])
    [0x80, 0x80, 0x80, 0x80, 0x80, 0x80, 0x80, 0x80, 0x80, 0x80] [2, 0x41]
    rfl rfl rfl rfl rfl (by simp) rfl

/-- C18, what the code does.  On a read-only handle opened on a file made of the complete
frames of `ps` followed by a torn tail `t`, the replay loops do not terminate: whatever
number of iterations they are given, `seekEnd`, `seek(k, Start)` with `k` greater than the
number of complete records, and `seek(0, End)` are still running when the iterations are
used up.  At the torn tail `Read()` returns a nil error and leaves the cursor where it is,
so the loops, which stop only on a non-nil error or on reaching the target index, call it
again for ever. -/
theorem C18_readOnly_torn_tail_replay_never_returns (ps : List (List Byte)) (q t : List Byte)
    (hb : ∀ x ∈ ps, x.length ≤ maxAlloc) (ht : TornOf q t) (k : Int)
    (hk : (ps.length : Int) < k) (fuel : Nat) :
    seekEnd fuel (OpenReadOnly (encode ps ++ t)) = .timeout ∧
    seek fuel (OpenReadOnly (encode ps ++ t)) k SeekStart = .timeout ∧
    seek fuel (OpenReadOnly (encode ps ++ t)) 0 SeekEnd = .timeout := by
  have h0 := inv0_OpenReadOnly ps t hb
  have hE := seekEnd_readOnly_torn h0 q rfl ht fuel
  refine ⟨hE, ?_, ?_⟩
  · unfold seek
    rw [if_pos rfl]
    exact seekIndex_readOnly_torn h0 q rfl ht k hk fuel
  · unfold seek
    rw [if_neg (by decide), if_neg (by decide), if_pos rfl, hE]

/-- Witness of C18: the file is the single byte `0x02`, a length prefix that announces one
payload byte of which none is present; a thousand iterations do not end any of the loops. -/
theorem C18_readOnly_torn_tail_replay_never_returns_witness :
    (∀ x ∈ ([] : List (List Byte)), x.length ≤ maxAlloc) ∧ TornOf [0x41] [2] ∧
    seekEnd 1000 (OpenReadOnly (encode [] ++ [2])) = .timeout ∧
    seek 1000 (OpenReadOnly (encode [] ++ [2])) 1 SeekStart = .timeout ∧
    seek 1000 (OpenReadOnly (encode [] ++ [2])) 0 SeekEnd = .timeout :=
  ⟨by decide, by decide,
    C18_readOnly_torn_tail_replay_never_returns [] [0x41] [2] (by decide) (by decide) 1
      (by decide) 1000⟩

/-- C20 (the descriptor's offset stays in sync with the cursor).  `Open` and `OpenReadOnly`
return a handle whose descriptor offset equals `cur.Pos`.  For every handle state `c` in
which the descriptor offset equals `cur.Pos`, after every `Read`, `Append`, `seek`,
`seekEnd` or `Truncate` call that returns anything other than the `malformed data` error,
the descriptor offset again equals `cur.Pos`.  Moreover, in such a state with the at-end
flag set and the cursor at the end of the file, `Append(e)` on an open read-write descriptor
writes the frame of `e` at the end of the file. -/
theorem C20_descriptor_in_sync (c : Conn) (h : Sync c) :
    (∀ data, Sync (Open data) ∧ Sync (OpenReadOnly data)) ∧
    (∀ v c1, Read c = .ret v c1 → v.2 ≠ some .malformedData → Sync c1) ∧
    (∀ fuel elem v c1, Append fuel c elem = .ret v c1 → v ≠ some .malformedData → Sync c1) ∧
    (∀ fuel offset whence v c1, seek fuel c offset whence = .ret v c1 →
      v.2 ≠ some .malformedData → Sync c1) ∧
    (∀ fuel v c1, seekEnd fuel c = .ret v c1 → v ≠ some .malformedData → Sync c1) ∧
    (∀ fuel size v c1, Truncate fuel c size = .ret v c1 → v ≠ some .malformedData →
      Sync c1) ∧
    (∀ fuel e last, c.isEnd = true → c.cur.Pos = (c.file.data.length : Int) →
      c.file.isOpen = true → c.file.rdwr = true → c.cache.getLast? = some last →
      ∃ c1, Append fuel c (some e) = .ret none c1 ∧ c1.file.data = c.file.data ++ frame e) := by
  refine ⟨fun data => ⟨rfl, rfl⟩, fun v c1 hr hv => Read_sync c h v c1 hr hv,
    fun fuel elem v c1 hr hv => Append_sync fuel c elem h v c1 hr hv,
    fun fuel offset whence v c1 hr hv => seek_sync fuel c offset whence h v c1 hr hv,
    fun fuel v c1 hr hv => seekEnd_sync fuel c h v c1 hr hv,
    fun fuel size v c1 hr hv => Truncate_sync fuel c size h v c1 hr hv, ?_⟩
  intro fuel e last hend hpos hopen hrd hl
  have hoff : c.file.off = c.file.data.length := by
    have : (c.file.off : Int) = (c.file.data.length : Int) := by rw [← hpos]; exact h
    exact_mod_cast this
  have hA : Append fuel c (some e) = appendFrame c e := by
    unfold Append
    simp only [hend, not_true_eq_false, if_false]
  rw [appendFrame_eq c e last hopen hrd hoff hl] at hA
  exact ⟨_, hA, rfl⟩

/-- Witness of C20: the handle after reading the only record of a file. -/
theorem C20_descriptor_in_sync_witness :
    Sync { Open [2, 0x41] with
        file := { (Open [2, 0x41]).file with off := 2 }
        cur := ⟨1, 2⟩ } ∧
    ∀ v c1, Read { Open [2, 0x41] with
        file := { (Open [2, 0x41]).file with off := 2 }
        cur := ⟨1, 2⟩ } = .ret v c1 → v.2 ≠ some .malformedData → Sync c1 :=
  ⟨by decide, (C20_descriptor_in_sync _ (by decide)).2.1⟩

end listdb
